/-
  Spec2Proof.lean — a verification development for the zultra optimal
  DEFLATE block compressor (C sources under src/).

  Each C function relevant to the specification claims is shallowly
  embedded as an executable Lean definition that mirrors the source
  code; the theorems about those definitions settle the claims.
  Machine integers are modelled as Nat (with explicit reductions
  mod 2^32 where the C `unsigned int` arithmetic can wrap).
-/
import Mathlib

set_option maxHeartbeats 1000000
set_option maxRecDepth 10000
set_option autoImplicit false

namespace Zultra

/-! ## Bit writer (src/huffman/bitwriter.c, bitwriter.h)

The C `zultra_bitwriter_t` keeps a byte buffer `pOutData`, a write index
`nOutOffset`, a capacity `nMaxOutDataOffset`, a pending-bit accumulator
`nEncBitsData` and pending-bit count `nEncBitCount`.  The buffer together
with the write index is modelled as the list `out` of the bytes written
so far (`pOutData[0..nOutOffset)`), so that `nOutOffset = out.length`;
every write in the source appends at `nOutOffset` and increments it. -/

/-- State of the bit writer (`zultra_bitwriter_t`, bitwriter.h lines 27-33). -/
structure BitWriter where
  nEncBitCount : Nat
  nEncBitsData : Nat
  out : List Nat
  nMaxOutDataOffset : Nat
deriving Repr, DecidableEq

/-- `zultra_bitwriter_init` (bitwriter.c lines 32-38) with write index 0. -/
def bitwriterInit (maxOut : Nat) : BitWriter :=
  ⟨0, 0, [], maxOut⟩

/-- The byte-flushing loop inside `zultra_bitwriter_put_bits` (bitwriter.c
lines 69-74): while at least 8 bits are pending, write out the low byte of
the accumulator, failing when the write index has reached the capacity.
Returns the final (pending count, accumulator, output bytes).  The
`cnt + 8` pattern is the loop condition `nEncBitCount >= 8`. -/
def putBitsFlushLoop : Nat → Nat → List Nat → Nat → Option (Nat × Nat × List Nat)
  | cnt + 8, acc, out, maxOut =>
    if maxOut ≤ out.length then none
    else putBitsFlushLoop cnt (acc / 256) (out ++ [acc % 256]) maxOut
  | cnt, acc, out, _ => some (cnt, acc, out)

/-- `zultra_bitwriter_put_bits` (bitwriter.c lines 63-77).  The accumulator
is a C `unsigned int`, hence the reduction mod 2^32 of the or-ed shifted
value.  Note that the source does not mask `nValue` to its low `nBits`
bits before or-ing it into the accumulator. -/
def putBits (bw : BitWriter) (nValue nBits : Nat) : Option BitWriter :=
  if 16 < nBits then none
  else
    let acc := (bw.nEncBitsData ||| nValue <<< bw.nEncBitCount) % 2 ^ 32
    match putBitsFlushLoop (bw.nEncBitCount + nBits) acc bw.out bw.nMaxOutDataOffset with
    | none => none
    | some (c, a, o) => some ⟨c, a, o, bw.nMaxOutDataOffset⟩

/-- `zultra_bitwriter_flush_bits` (bitwriter.c lines 86-98).  The byte
written is `nEncBitsData & ((1 << nEncBitCount) - 1)`, i.e. the value
mod `2 ^ nEncBitCount`. -/
def flushBits (bw : BitWriter) : Option BitWriter :=
  if 8 < bw.nEncBitCount then none
  else if 0 < bw.nEncBitCount then
    if bw.nMaxOutDataOffset ≤ bw.out.length then none
    else some ⟨0, 0, bw.out ++ [bw.nEncBitsData % 2 ^ bw.nEncBitCount], bw.nMaxOutDataOffset⟩
  else some bw

/-- `zultra_bitwriter_get_offset` (bitwriter.h lines 59-61): the write
index when it is within bounds, otherwise the error value (`none`). -/
def getOffset (bw : BitWriter) : Option Nat :=
  if bw.out.length ≤ bw.nMaxOutDataOffset then some bw.out.length else none

/-- The bit-writer state invariant of claim C10: the pending-bit count is
between 0 and 7 and the write index never exceeds the capacity. -/
def BitWriterInv (bw : BitWriter) : Prop :=
  bw.nEncBitCount ≤ 7 ∧ bw.out.length ≤ bw.nMaxOutDataOffset

instance (bw : BitWriter) : Decidable (BitWriterInv bw) := by
  unfold BitWriterInv; infer_instance

theorem putBitsFlushLoop_add8 (cnt acc : Nat) (out : List Nat) (maxOut : Nat) :
    putBitsFlushLoop (cnt + 8) acc out maxOut =
      if maxOut ≤ out.length then none
      else putBitsFlushLoop cnt (acc / 256) (out ++ [acc % 256]) maxOut := rfl

theorem putBitsFlushLoop_lt (cnt acc : Nat) (out : List Nat) (maxOut : Nat)
    (h : cnt < 8) :
    putBitsFlushLoop cnt acc out maxOut = some (cnt, acc, out) := by
  interval_cases cnt <;> rfl

theorem putBitsFlushLoop_inv (cnt acc : Nat) (out : List Nat) (maxOut : Nat)
    (hout : out.length ≤ maxOut) :
    ∀ c a o, putBitsFlushLoop cnt acc out maxOut = some (c, a, o) →
      c ≤ 7 ∧ o.length ≤ maxOut ∧
      8 * o.length + c = 8 * out.length + cnt := by
  induction cnt, acc, out, maxOut using putBitsFlushLoop.induct with
  | case1 cnt acc out maxOut hcap =>
    intro c a o heq
    rw [putBitsFlushLoop_add8, if_pos hcap] at heq
    exact absurd heq (by simp)
  | case2 cnt acc out maxOut hcap ih =>
    intro c a o heq
    rw [putBitsFlushLoop_add8, if_neg hcap] at heq
    have hlen : (out ++ [acc % 256]).length ≤ maxOut := by
      simp only [List.length_append, List.length_cons, List.length_nil]
      omega
    have := ih hlen c a o heq
    simp only [List.length_append, List.length_cons, List.length_nil] at this
    omega
  | case3 cnt acc out maxOut hshape =>
    intro c a o heq
    have hlt : cnt < 8 := by
      rcases Nat.lt_or_ge cnt 8 with h | h
      · exact h
      · exact absurd (by omega : cnt = (cnt - 8) + 8) (fun he => (hshape _ he).elim)
    rw [putBitsFlushLoop_lt _ _ _ _ hlt] at heq
    simp only [Option.some.injEq, Prod.mk.injEq] at heq
    obtain ⟨h1, _, h3⟩ := heq
    subst h1; subst h3
    omega

theorem putBits_inv (bw : BitWriter) (v n : Nat) (bw2 : BitWriter)
    (hinv : BitWriterInv bw) (h : putBits bw v n = some bw2) :
    BitWriterInv bw2 := by
  obtain ⟨hc, ho⟩ := hinv
  unfold putBits at h
  by_cases hn : 16 < n
  · rw [if_pos hn] at h; exact absurd h (by simp)
  · rw [if_neg hn] at h
    simp only [] at h
    rcases heq : putBitsFlushLoop (bw.nEncBitCount + n)
        ((bw.nEncBitsData ||| v <<< bw.nEncBitCount) % 2 ^ 32)
        bw.out bw.nMaxOutDataOffset with _ | ⟨c, a, o⟩
    · rw [heq] at h; exact absurd h (by simp)
    · rw [heq] at h
      simp only [Option.some.injEq] at h
      have := putBitsFlushLoop_inv _ _ _ _ ho c a o heq
      subst h
      exact ⟨this.1, this.2.1⟩

theorem flushBits_inv (bw : BitWriter) (bw2 : BitWriter)
    (hinv : BitWriterInv bw) (h : flushBits bw = some bw2) :
    BitWriterInv bw2 ∧ bw2.out.length ≤ bw.out.length + 1 := by
  obtain ⟨hc, ho⟩ := hinv
  unfold flushBits at h
  rw [if_neg (by omega)] at h
  by_cases hpos : 0 < bw.nEncBitCount
  · rw [if_pos hpos] at h
    by_cases hcap : bw.nMaxOutDataOffset ≤ bw.out.length
    · rw [if_pos hcap] at h; exact absurd h (by simp)
    · rw [if_neg hcap] at h
      simp only [Option.some.injEq] at h
      subst h
      refine ⟨⟨?_, ?_⟩, ?_⟩
      · simp
      · simp only [List.length_append, List.length_cons, List.length_nil]; omega
      · simp only [List.length_append, List.length_cons, List.length_nil]; omega
  · rw [if_neg hpos] at h
    simp only [Option.some.injEq] at h
    subst h
    exact ⟨⟨hc, ho⟩, by omega⟩

/-- C10: after initialization, and after every successful `put_bits` or
`flush_bits` call starting from a state satisfying the invariant, the
pending-bit count `nEncBitCount` is between 0 and 7 inclusive and the write
index never exceeds `nMaxOutDataOffset`; consequently `flush_bits` writes at
most one byte, and its error branch for a pending count above 8 (which
requires `8 < nEncBitCount`) is unreachable. -/
theorem C10_bitwriter_invariant :
    (∀ maxOut, BitWriterInv (bitwriterInit maxOut)) ∧
    (∀ bw v n bw2, BitWriterInv bw → putBits bw v n = some bw2 → BitWriterInv bw2) ∧
    (∀ bw bw2, BitWriterInv bw → flushBits bw = some bw2 →
      BitWriterInv bw2 ∧ bw2.out.length ≤ bw.out.length + 1) ∧
    (∀ bw, BitWriterInv bw → ¬ 8 < bw.nEncBitCount) := by
  refine ⟨?_, putBits_inv, flushBits_inv, ?_⟩
  · intro maxOut
    exact ⟨by simp [bitwriterInit], by simp [bitwriterInit]⟩
  · intro bw hinv
    have := hinv.1
    omega

/-- Witness for C10: a concrete successful `put_bits` call preserving the
invariant. -/
theorem C10_bitwriter_invariant_witness :
    BitWriterInv (bitwriterInit 4) ∧
    putBits (bitwriterInit 4) 5 3 = some ⟨3, 5, [], 4⟩ ∧
    BitWriterInv (⟨3, 5, [], 4⟩ : BitWriter) :=
  ⟨by decide, by decide,
    C10_bitwriter_invariant.2.1 (bitwriterInit 4) 5 3 ⟨3, 5, [], 4⟩ (by decide) (by decide)⟩

/-! ## Bit-stream semantics of the writer

The emitted stream of a writer state is the written bytes, least
significant bit of the first byte first, followed by the pending bits of
the accumulator.  It is represented by its length in bits and its value
as a natural number (bit i of the value is bit i of the stream). -/

/-- The value of a byte list read as a little-endian natural number. -/
def natOfBytes : List Nat → Nat
  | [] => 0
  | b :: rest => b + 256 * natOfBytes rest

/-- Length in bits of the stream emitted so far (written bytes plus
pending bits). -/
def streamLen (bw : BitWriter) : Nat :=
  8 * bw.out.length + bw.nEncBitCount

/-- Value of the stream emitted so far, as a natural number, LSB-first. -/
def streamVal (bw : BitWriter) : Nat :=
  natOfBytes bw.out + bw.nEncBitsData * 2 ^ (8 * bw.out.length)

theorem natOfBytes_append_singleton (out : List Nat) (b : Nat) :
    natOfBytes (out ++ [b]) = natOfBytes out + b * 256 ^ out.length := by
  induction out with
  | nil => simp [natOfBytes]
  | cons x rest ih =>
    show x + 256 * natOfBytes (rest ++ [b]) =
      x + 256 * natOfBytes rest + b * 256 ^ (rest.length + 1)
    rw [ih]
    ring

theorem lor_shift_eq_add (a v c : Nat) (h : a < 2 ^ c) :
    a ||| v <<< c = a + v * 2 ^ c := by
  rw [Nat.shiftLeft_eq, Nat.lor_comm, mul_comm v]
  rw [← Nat.mul_add_lt_is_or h v]
  ring

theorem putBitsFlushLoop_stream (cnt acc : Nat) (out : List Nat) (maxOut : Nat) :
    ∀ c a o, putBitsFlushLoop cnt acc out maxOut = some (c, a, o) →
      natOfBytes o + a * 2 ^ (8 * o.length) =
        natOfBytes out + acc * 2 ^ (8 * out.length) ∧
      (acc < 2 ^ cnt → a < 2 ^ c) := by
  induction cnt, acc, out, maxOut using putBitsFlushLoop.induct with
  | case1 cnt acc out maxOut hcap =>
    intro c a o heq
    rw [putBitsFlushLoop_add8, if_pos hcap] at heq
    exact absurd heq (by simp)
  | case2 cnt acc out maxOut hcap ih =>
    intro c a o heq
    rw [putBitsFlushLoop_add8, if_neg hcap] at heq
    obtain ⟨hval, hbound⟩ := ih c a o heq
    have h256 : (256 : Nat) ^ out.length = 2 ^ (8 * out.length) := by
      rw [show (256 : Nat) = 2 ^ 8 from rfl, ← pow_mul]
    have hlen2 : (out ++ [acc % 256]).length = out.length + 1 := by simp
    constructor
    · rw [hval, natOfBytes_append_singleton, hlen2, h256]
      have hsplit : acc % 256 * 2 ^ (8 * out.length) +
          acc / 256 * 2 ^ (8 * (out.length + 1)) = acc * 2 ^ (8 * out.length) := by
        have h1 : 8 * (out.length + 1) = 8 * out.length + 8 := by ring
        rw [h1, pow_add]
        calc acc % 256 * 2 ^ (8 * out.length) + acc / 256 * (2 ^ (8 * out.length) * 2 ^ 8)
            = (acc % 256 + 256 * (acc / 256)) * 2 ^ (8 * out.length) := by ring
          _ = acc * 2 ^ (8 * out.length) := by rw [Nat.mod_add_div]
      omega
    · intro haccb
      apply hbound
      have hpow : (2 : Nat) ^ cnt * 256 = 2 ^ (cnt + 8) := by
        rw [show (256 : Nat) = 2 ^ 8 from rfl, ← pow_add]
      rw [Nat.div_lt_iff_lt_mul (by norm_num : (0 : Nat) < 256)]
      omega
  | case3 cnt acc out maxOut hshape =>
    intro c a o heq
    have hlt : cnt < 8 := by
      rcases Nat.lt_or_ge cnt 8 with h | h
      · exact h
      · exact absurd (by omega : cnt = (cnt - 8) + 8) (fun he => (hshape _ he).elim)
    rw [putBitsFlushLoop_lt _ _ _ _ hlt] at heq
    simp only [Option.some.injEq, Prod.mk.injEq] at heq
    obtain ⟨h1, h2, h3⟩ := heq
    subst h1; subst h2; subst h3
    exact ⟨rfl, fun hb => hb⟩

theorem putBitsFlushLoop_isSome (cnt acc : Nat) (out : List Nat) (maxOut : Nat) :
    (putBitsFlushLoop cnt acc out maxOut).isSome ↔
      (cnt / 8 = 0 ∨ out.length + cnt / 8 ≤ maxOut) := by
  induction cnt, acc, out, maxOut using putBitsFlushLoop.induct with
  | case1 cnt acc out maxOut hcap =>
    rw [putBitsFlushLoop_add8, if_pos hcap]
    simp only [Option.isSome_none, Bool.false_eq_true, false_iff]
    push_neg
    omega
  | case2 cnt acc out maxOut hcap ih =>
    rw [putBitsFlushLoop_add8, if_neg hcap]
    rw [ih]
    simp only [List.length_append, List.length_cons, List.length_nil]
    omega
  | case3 cnt acc out maxOut hshape =>
    have hlt : cnt < 8 := by
      rcases Nat.lt_or_ge cnt 8 with h | h
      · exact h
      · exact absurd (by omega : cnt = (cnt - 8) + 8) (fun he => (hshape _ he).elim)
    rw [putBitsFlushLoop_lt _ _ _ _ hlt]
    simp only [Option.isSome_some, true_iff]
    omega

/-- C6 (counterexample): the source does not mask `nValue` to its low
`nBits` bits, so bits of the value above position `nBits` leak into the
accumulator and change later output.  Writing value 256 with 8 bits and
then value 0 with 8 bits emits the bytes `[0, 1]`, while writing value 0
(which has the same low 8 bits as 256) twice emits `[0, 0]`. -/
theorem C6_put_bits_counterexample :
    (putBits (bitwriterInit 4) 256 8).bind (fun bw1 => putBits bw1 0 8) =
      some ⟨0, 0, [0, 1], 4⟩ ∧
    (putBits (bitwriterInit 4) 0 8).bind (fun bw1 => putBits bw1 0 8) =
      some ⟨0, 0, [0, 0], 4⟩ ∧
    256 % 2 ^ 8 = 0 % 2 ^ 8 := by decide

/-- C6 (amended): for `n_bits ≤ 16` and a value that fits in `n_bits`
bits (the source or-s the full unmasked value into the accumulator, so
this is the condition under which "the low n_bits of value" is what gets
appended), `put_bits` appends exactly those bits to the emitted stream,
flushes whole bytes LSB-first, and fails exactly when a byte write would
exceed the buffer capacity. -/
theorem C6_put_bits_amended (bw : BitWriter) (v n : Nat)
    (hn : n ≤ 16) (hv : v < 2 ^ n) (hinv : BitWriterInv bw)
    (hacc : bw.nEncBitsData < 2 ^ bw.nEncBitCount) :
    ((putBits bw v n).isSome ↔
      ((bw.nEncBitCount + n) / 8 = 0 ∨
        bw.out.length + (bw.nEncBitCount + n) / 8 ≤ bw.nMaxOutDataOffset)) ∧
    ∀ bw2, putBits bw v n = some bw2 →
      streamLen bw2 = streamLen bw + n ∧
      streamVal bw2 = streamVal bw + v * 2 ^ streamLen bw ∧
      bw2.nEncBitsData < 2 ^ bw2.nEncBitCount ∧
      BitWriterInv bw2 ∧
      bw2.nMaxOutDataOffset = bw.nMaxOutDataOffset := by
  obtain ⟨hcnt, hout⟩ := hinv
  have hpow7 : (2 : Nat) ^ bw.nEncBitCount ≤ 2 ^ 7 :=
    Nat.pow_le_pow_right (by norm_num) hcnt
  have hv16 : v < 2 ^ 16 := lt_of_lt_of_le hv (Nat.pow_le_pow_right (by norm_num) hn)
  have hacc2 : (bw.nEncBitsData ||| v <<< bw.nEncBitCount) % 2 ^ 32 =
      bw.nEncBitsData + v * 2 ^ bw.nEncBitCount := by
    rw [lor_shift_eq_add _ _ _ hacc]
    apply Nat.mod_eq_of_lt
    have h1 : v * 2 ^ bw.nEncBitCount ≤ 2 ^ 16 * 2 ^ 7 := by
      calc v * 2 ^ bw.nEncBitCount ≤ 2 ^ 16 * 2 ^ bw.nEncBitCount :=
            Nat.mul_le_mul_right _ (le_of_lt hv16)
        _ ≤ 2 ^ 16 * 2 ^ 7 := Nat.mul_le_mul_left _ hpow7
    have h2 : bw.nEncBitsData < 2 ^ 7 := lt_of_lt_of_le hacc hpow7
    norm_num at h1 h2 ⊢
    omega
  have haccb : bw.nEncBitsData + v * 2 ^ bw.nEncBitCount <
      2 ^ (bw.nEncBitCount + n) := by
    calc bw.nEncBitsData + v * 2 ^ bw.nEncBitCount
        < 2 ^ bw.nEncBitCount + v * 2 ^ bw.nEncBitCount := by omega
      _ = (v + 1) * 2 ^ bw.nEncBitCount := by ring
      _ ≤ 2 ^ n * 2 ^ bw.nEncBitCount := Nat.mul_le_mul_right _ hv
      _ = 2 ^ (bw.nEncBitCount + n) := by rw [← pow_add]; ring_nf
  constructor
  · unfold putBits
    rw [if_neg (by omega : ¬ 16 < n)]
    simp only []
    rw [hacc2]
    have hiff := putBitsFlushLoop_isSome (bw.nEncBitCount + n)
      (bw.nEncBitsData + v * 2 ^ bw.nEncBitCount) bw.out bw.nMaxOutDataOffset
    rcases heq : putBitsFlushLoop (bw.nEncBitCount + n)
        (bw.nEncBitsData + v * 2 ^ bw.nEncBitCount) bw.out bw.nMaxOutDataOffset
        with _ | ⟨c, a, o⟩
    · rw [heq] at hiff
      simp only [Option.isSome_none, Bool.false_eq_true, false_iff] at hiff
      simp only [Option.isSome_none, Bool.false_eq_true, false_iff]
      exact hiff
    · rw [heq] at hiff
      simp only [Option.isSome_some, true_iff] at hiff
      simp only [Option.isSome_some, true_iff]
      exact hiff
  · intro bw2 h
    unfold putBits at h
    rw [if_neg (by omega : ¬ 16 < n)] at h
    simp only [] at h
    rw [hacc2] at h
    rcases heq : putBitsFlushLoop (bw.nEncBitCount + n)
        (bw.nEncBitsData + v * 2 ^ bw.nEncBitCount) bw.out bw.nMaxOutDataOffset
        with _ | ⟨c, a, o⟩
    · rw [heq] at h; exact absurd h (by simp)
    · rw [heq] at h
      simp only [Option.some.injEq] at h
      subst h
      have hlen := putBitsFlushLoop_inv _ _ _ _ hout c a o heq
      have hstream := putBitsFlushLoop_stream _ _ _ _ c a o heq
      refine ⟨?_, ?_, hstream.2 haccb, ⟨hlen.1, hlen.2.1⟩, rfl⟩
      · show 8 * o.length + c = 8 * bw.out.length + bw.nEncBitCount + n
        omega
      · show natOfBytes o + a * 2 ^ (8 * o.length) =
          natOfBytes bw.out + bw.nEncBitsData * 2 ^ (8 * bw.out.length) +
            v * 2 ^ (8 * bw.out.length + bw.nEncBitCount)
        have hval := hstream.1
        have hexp : (2 : Nat) ^ bw.nEncBitCount * 2 ^ (8 * bw.out.length) =
            2 ^ (8 * bw.out.length + bw.nEncBitCount) := by
          rw [← pow_add]; ring_nf
        calc natOfBytes o + a * 2 ^ (8 * o.length)
            = natOfBytes bw.out +
              (bw.nEncBitsData + v * 2 ^ bw.nEncBitCount) * 2 ^ (8 * bw.out.length) :=
              hval
          _ = natOfBytes bw.out + bw.nEncBitsData * 2 ^ (8 * bw.out.length) +
              v * (2 ^ bw.nEncBitCount * 2 ^ (8 * bw.out.length)) := by ring
          _ = natOfBytes bw.out + bw.nEncBitsData * 2 ^ (8 * bw.out.length) +
              v * 2 ^ (8 * bw.out.length + bw.nEncBitCount) := by rw [hexp]

/-- Witness for the amended C6 theorem at a concrete input. -/
theorem C6_put_bits_amended_witness :
    (putBits (bitwriterInit 4) 5 3).isSome :=
  ((C6_put_bits_amended (bitwriterInit 4) 5 3 (by norm_num) (by norm_num)
      (by decide) (by decide)).1).mpr (Or.inl (by decide))

/-! ## Block emission and the stored-block fallback (src/libzultra.c)

`zultra_stream_compress` (lines 311-381) saves the bit-writer state,
writes the BFINAL and BTYPE header bits, runs `zultra_block_deflate`, and
measures the emitted bytes.  If the deflate call failed or the emitted
bytes exceed the raw block length, it restores the writer from the saved
copy and re-emits the sub-range as stored (BTYPE=00) blocks of at most
65535 bytes, each preceded by LEN (little-endian) and NLEN (its one's
complement).  `zultra_block_deflate` itself is abstracted as an arbitrary
function `attempt` on the writer state, since the fallback logic holds
for every behaviour of the compressed attempt. -/

/-- Size of the compressor output buffer,
`1 + nMaxBlockSize + (1 + 4) * ((nMaxBlockSize / 65535) + 1)`
(libzultra.c lines 114, 162, 365, 425). -/
def outBufferCap (bmax : Nat) : Nat :=
  1 + bmax + (1 + 4) * (bmax / 65535 + 1)

/-- The stored-block emission loop of `zultra_stream_compress`
(libzultra.c lines 335-380).  Each iteration takes a chunk of at most
65535 bytes, writes the BFINAL bit and BTYPE 00, pads to a byte boundary,
then writes LEN (2 bytes, little-endian), NLEN (LEN xor 0xffff) and the
chunk bytes directly into the output buffer. -/
def emitStoredBlocks (bmax : Nat) (bw : BitWriter) (raw : List Nat)
    (isFinal : Bool) : Option BitWriter :=
  if h : raw = [] then some bw
  else
    let rem := raw.length
    let sub := if 65535 < rem then 65535 else rem
    let subFinal := if 65535 < rem then false else isFinal
    match putBits bw (if subFinal then 1 else 0) 1 with
    | none => none
    | some bw1 =>
      match putBits bw1 0 2 with
      | none => none
      | some bw2 =>
        match flushBits bw2 with
        | none => none
        | some bw3 =>
          if outBufferCap bmax < bw3.out.length + 4 + sub then none
          else
            emitStoredBlocks bmax
              ⟨bw3.nEncBitCount, bw3.nEncBitsData,
                bw3.out ++ [sub % 256, sub / 256 % 256,
                  (sub % 256) ^^^ 255, (sub / 256 % 256) ^^^ 255] ++ raw.take sub,
                bw3.nMaxOutDataOffset⟩
              (raw.drop sub) isFinal
termination_by raw.length
decreasing_by
  simp only [List.length_drop]
  have : 0 < raw.length := List.length_pos.mpr h
  split <;> omega

/-- Emission of one sub-range by `zultra_stream_compress` (libzultra.c
lines 311-381): save the writer (`zultra_bitwriter_copy`), write BFINAL
and BTYPE, run the compressed attempt, and either keep its output (when
it succeeded and emitted at most the raw byte count) or restore the saved
writer state and emit stored blocks. -/
def streamEmitBlock (bmax : Nat) (bw : BitWriter) (raw : List Nat)
    (isFinal isDynamic : Bool) (attempt : BitWriter → Option BitWriter) :
    Option BitWriter :=
  match putBits bw (if isFinal then 1 else 0) 1 with
  | none => none
  | some bw1 =>
    match putBits bw1 (1 + if isDynamic then 1 else 0) 2 with
    | none => none
    | some bw2 =>
      let keep : Option BitWriter :=
        match getOffset bw2 with
        | none => none
        | some prev =>
          match attempt bw2 with
          | none => none
          | some bw3 =>
            match getOffset bw3 with
            | none => none
            | some cur => if raw.length < cur - prev then none else some bw3
      match keep with
      | some bw3 => some bw3
      | none => emitStoredBlocks bmax bw raw isFinal

/-- The LEN / NLEN prefix of one stored block: block length in two
little-endian bytes followed by their one's complements. -/
def lenNlenBytes (n : Nat) : List Nat :=
  [n % 256, n / 256 % 256, 255 - n % 256, 255 - n / 256 % 256]

/-- Shape of a stored-block emission: the output written past the saved
state decomposes into chunks of the raw data, of at most 65535 bytes
each, every chunk preceded by some byte-aligned header bytes and its
LEN / NLEN prefix. -/
def StoredBlocksShape (bw bw2 : BitWriter) (raw : List Nat) : Prop :=
  ∃ chunks hdrs : List (List Nat),
    raw = chunks.flatten ∧
    hdrs.length = chunks.length ∧
    (∀ c ∈ chunks, 1 ≤ c.length ∧ c.length ≤ 65535) ∧
    bw2.out = bw.out ++
      (hdrs.zip chunks).flatMap (fun p => p.1 ++ lenNlenBytes p.2.length ++ p.2)

theorem xor255_eq_sub (x : Nat) (h : x < 256) : x ^^^ 255 = 255 - x := by
  interval_cases x <;> decide

theorem putBits_out_extend (bw : BitWriter) (v n : Nat) (bw2 : BitWriter)
    (h : putBits bw v n = some bw2) :
    ∃ t, bw2.out = bw.out ++ t ∧ bw2.nMaxOutDataOffset = bw.nMaxOutDataOffset := by
  unfold putBits at h
  by_cases hn : 16 < n
  · rw [if_pos hn] at h; exact absurd h (by simp)
  · rw [if_neg hn] at h
    simp only [] at h
    rcases heq : putBitsFlushLoop (bw.nEncBitCount + n)
        ((bw.nEncBitsData ||| v <<< bw.nEncBitCount) % 2 ^ 32)
        bw.out bw.nMaxOutDataOffset with _ | ⟨c, a, o⟩
    · rw [heq] at h; exact absurd h (by simp)
    · rw [heq] at h
      simp only [Option.some.injEq] at h
      subst h
      refine ⟨o.drop bw.out.length, ?_, rfl⟩
      have : ∀ cnt acc out maxOut c a o,
          putBitsFlushLoop cnt acc out maxOut = some (c, a, o) →
          ∃ t, o = out ++ t := by
        intro cnt
        induction cnt using Nat.strong_induction_on with
        | _ cnt ih =>
          intro acc out maxOut c a o hh
          by_cases h8 : 8 ≤ cnt
          · obtain ⟨c0, rfl⟩ : ∃ c0, cnt = c0 + 8 := ⟨cnt - 8, by omega⟩
            rw [putBitsFlushLoop_add8] at hh
            by_cases hcap : maxOut ≤ out.length
            · rw [if_pos hcap] at hh; exact absurd hh (by simp)
            · rw [if_neg hcap] at hh
              obtain ⟨t, ht⟩ := ih c0 (by omega) _ _ _ _ _ _ hh
              exact ⟨acc % 256 :: t, by simp [ht]⟩
          · rw [putBitsFlushLoop_lt _ _ _ _ (by omega)] at hh
            simp only [Option.some.injEq, Prod.mk.injEq] at hh
            exact ⟨[], by simp [hh.2.2.symm]⟩
      obtain ⟨t, ht⟩ := this _ _ _ _ _ _ _ heq
      simp [ht]

theorem flushBits_out_extend (bw bw2 : BitWriter) (h : flushBits bw = some bw2) :
    ∃ t, bw2.out = bw.out ++ t ∧ bw2.nMaxOutDataOffset = bw.nMaxOutDataOffset := by
  unfold flushBits at h
  by_cases h8 : 8 < bw.nEncBitCount
  · rw [if_pos h8] at h; exact absurd h (by simp)
  · rw [if_neg h8] at h
    by_cases hpos : 0 < bw.nEncBitCount
    · rw [if_pos hpos] at h
      by_cases hcap : bw.nMaxOutDataOffset ≤ bw.out.length
      · rw [if_pos hcap] at h; exact absurd h (by simp)
      · rw [if_neg hcap] at h
        simp only [Option.some.injEq] at h
        subst h
        exact ⟨_, rfl, rfl⟩
    · rw [if_neg hpos] at h
      simp only [Option.some.injEq] at h
      subst h
      exact ⟨[], by simp, rfl⟩

theorem emitStoredBlocks_structure_aux (bmax : Nat) (isFinal : Bool) :
    ∀ n raw (bw bwR : BitWriter), raw.length ≤ n →
      emitStoredBlocks bmax bw raw isFinal = some bwR →
      StoredBlocksShape bw bwR raw := by
  intro n
  induction n with
  | zero =>
    intro raw bw bwR hlen h
    have hraw : raw = [] := List.eq_nil_of_length_eq_zero (by omega)
    subst hraw
    unfold emitStoredBlocks at h
    rw [dif_pos rfl] at h
    simp only [Option.some.injEq] at h
    subst h
    exact ⟨[], [], by simp, by simp, by simp, by simp⟩
  | succ n ih =>
    intro raw bw bwR hlen h
    by_cases hraw : raw = []
    · subst hraw
      unfold emitStoredBlocks at h
      rw [dif_pos rfl] at h
      simp only [Option.some.injEq] at h
      subst h
      exact ⟨[], [], by simp, by simp, by simp, by simp⟩
    · have hpos : 0 < raw.length := List.length_pos.mpr hraw
      unfold emitStoredBlocks at h
      rw [dif_neg hraw] at h
      simp only [] at h
      rcases heq1 : putBits bw
          (if (if 65535 < raw.length then false else isFinal) then 1 else 0) 1
          with _ | bw1
      · simp only [heq1] at h; exact absurd h (by simp)
      simp only [heq1] at h
      rcases heq2 : putBits bw1 0 2 with _ | bw2
      · simp only [heq2] at h; exact absurd h (by simp)
      simp only [heq2] at h
      rcases heq3 : flushBits bw2 with _ | bw3
      · simp only [heq3] at h; exact absurd h (by simp)
      simp only [heq3] at h
      by_cases hcap : outBufferCap bmax <
          bw3.out.length + 4 + (if 65535 < raw.length then 65535 else raw.length)
      · rw [if_pos hcap] at h; exact absurd h (by simp)
      rw [if_neg hcap] at h
      set sub := if 65535 < raw.length then 65535 else raw.length with hsubdef
      have hsub1 : 1 ≤ sub := by rw [hsubdef]; split <;> omega
      have hsuble : sub ≤ raw.length := by rw [hsubdef]; split <;> omega
      have hsub65535 : sub ≤ 65535 := by rw [hsubdef]; split <;> omega
      have hdrop : (raw.drop sub).length ≤ n := by
        simp only [List.length_drop]; omega
      obtain ⟨chunks, hdrs, hjoin, hlens, hbound, hout⟩ := ih (raw.drop sub) _ bwR hdrop h
      obtain ⟨t1, ht1, _⟩ := putBits_out_extend _ _ _ _ heq1
      obtain ⟨t2, ht2, _⟩ := putBits_out_extend _ _ _ _ heq2
      obtain ⟨t3, ht3, _⟩ := flushBits_out_extend _ _ heq3
      refine ⟨raw.take sub :: chunks, (t1 ++ t2 ++ t3) :: hdrs, ?_, ?_, ?_, ?_⟩
      · simp only [List.flatten]
        rw [← hjoin, List.take_append_drop]
      · simp [hlens]
      · intro c hc
        rcases List.mem_cons.mp hc with hc | hc
        · subst hc
          constructor
          · rw [List.length_take]; omega
          · rw [List.length_take]; omega
        · exact hbound c hc
      · rw [hout]
        simp only [List.zip_cons_cons, List.flatMap_cons]
        have htake : (raw.take sub).length = sub := by
          rw [List.length_take]; omega
        have hx1 : sub % 256 ^^^ 255 = 255 - sub % 256 :=
          xor255_eq_sub _ (Nat.mod_lt _ (by norm_num))
        have hx2 : sub / 256 % 256 ^^^ 255 = 255 - sub / 256 % 256 :=
          xor255_eq_sub _ (Nat.mod_lt _ (by norm_num))
        simp only [ht3, ht2, ht1, htake, lenNlenBytes, hx1, hx2, List.append_assoc]

theorem emitStoredBlocks_structure (bmax : Nat) (isFinal : Bool)
    (raw : List Nat) (bw bwR : BitWriter)
    (h : emitStoredBlocks bmax bw raw isFinal = some bwR) :
    StoredBlocksShape bw bwR raw :=
  emitStoredBlocks_structure_aux bmax isFinal raw.length raw bw bwR le_rfl h

/-- Outcome of emitting one sub-range: either the compressed attempt was
kept, in which case the bytes it wrote past the header bits number at
most the raw byte length, or the writer was restored exactly to the
state saved before the header bits and the sub-range was re-emitted as
stored blocks of at most 65535 bytes, each preceded by LEN (little
endian) and NLEN (the one's complement of LEN). -/
def EmitBlockPost (bmax : Nat) (bw : BitWriter) (raw : List Nat)
    (isFinal isDynamic : Bool) (attempt : BitWriter → Option BitWriter)
    (bwR : BitWriter) : Prop :=
  (∃ bw1 bw2 prev cur,
    putBits bw (if isFinal then 1 else 0) 1 = some bw1 ∧
    putBits bw1 (1 + if isDynamic then 1 else 0) 2 = some bw2 ∧
    getOffset bw2 = some prev ∧
    attempt bw2 = some bwR ∧
    getOffset bwR = some cur ∧
    cur - prev ≤ raw.length) ∨
  (emitStoredBlocks bmax bw raw isFinal = some bwR ∧
    StoredBlocksShape bw bwR raw)

/-- C3: for every sub-range, every saved writer state and every possible
behaviour of the compressed attempt, a successful emission either kept a
compressed payload of at most the raw byte length, or restored the
writer to the state saved before the block header bits were written and
re-emitted the sub-range as stored blocks of at most 65535 bytes each,
each preceded by LEN (little-endian) and NLEN equal to the one's
complement of LEN. -/
theorem C3_stored_block_fallback (bmax : Nat) (bw : BitWriter) (raw : List Nat)
    (isFinal isDynamic : Bool) (attempt : BitWriter → Option BitWriter)
    (bwR : BitWriter)
    (h : streamEmitBlock bmax bw raw isFinal isDynamic attempt = some bwR) :
    EmitBlockPost bmax bw raw isFinal isDynamic attempt bwR := by
  unfold streamEmitBlock at h
  rcases heq1 : putBits bw (if isFinal then 1 else 0) 1 with _ | bw1
  · simp only [heq1] at h; exact absurd h (by simp)
  simp only [heq1] at h
  rcases heq2 : putBits bw1 (1 + if isDynamic then 1 else 0) 2 with _ | bw2
  · simp only [heq2] at h; exact absurd h (by simp)
  simp only [heq2] at h
  rcases heq3 : getOffset bw2 with _ | prev
  · simp only [heq3] at h
    exact Or.inr ⟨h, emitStoredBlocks_structure _ _ _ _ _ h⟩
  simp only [heq3] at h
  rcases heq4 : attempt bw2 with _ | bw3
  · simp only [heq4] at h
    exact Or.inr ⟨h, emitStoredBlocks_structure _ _ _ _ _ h⟩
  simp only [heq4] at h
  rcases heq5 : getOffset bw3 with _ | cur
  · simp only [heq5] at h
    exact Or.inr ⟨h, emitStoredBlocks_structure _ _ _ _ _ h⟩
  simp only [heq5] at h
  by_cases hgt : raw.length < cur - prev
  · rw [if_pos hgt] at h
    exact Or.inr ⟨h, emitStoredBlocks_structure _ _ _ _ _ h⟩
  · rw [if_neg hgt] at h
    simp only [Option.some.injEq] at h
    subst h
    exact Or.inl ⟨bw1, bw2, prev, cur, heq1, heq2, heq3, heq4, heq5, by omega⟩

/-- Witness for C3: a concrete kept compressed emission (the attempt
writes nothing, so the payload trivially fits). -/
theorem C3_stored_block_fallback_witness :
    EmitBlockPost 8 (bitwriterInit 14) [7] true false some
      ⟨3, 3, [], 14⟩ :=
  C3_stored_block_fallback 8 (bitwriterInit 14) [7] true false some
    ⟨3, 3, [], 14⟩ (by decide)

/-! ## Stream interface: block-size handling and memory bound
(src/libzultra.c)

The frame header/footer helpers are declared in src/src/frame.h but
their implementation file is not among the sources, so they are
modelled from the specification. -/

/-- Modelled from the spec: `zultra_frame_get_header_size` (declared in
frame.h line 65, implementation not among the sources).  Per spec
section 6, raw DEFLATE framing has no header, zlib prepends a 2-byte
header and gzip a 10-byte header.  Flags: DEFLATE_RAW = 0, ZLIB = 1,
GZIP = 2 (libzultra.h lines 59-61). -/
def zultra_frame_get_header_size (flags : Nat) : Nat :=
  if flags = 2 then 10 else if flags = 1 then 2 else 0

/-- Modelled from the spec: `zultra_frame_get_footer_size` (declared in
frame.h line 106, implementation not among the sources).  Raw framing
has no footer, zlib appends the 4-byte Adler-32, gzip the 4-byte CRC-32
plus the 4-byte ISIZE. -/
def zultra_frame_get_footer_size (flags : Nat) : Nat :=
  if flags = 2 then 8 else if flags = 1 then 4 else 0

/-- Block-size defaulting and clamping shared by `zultra_stream_init`
(libzultra.c lines 86-91) and `zultra_memory_bound` (lines 546-551):
0 selects the default 1048576 (libzultra.h line 70), then the size is
clamped into [32768, 2097152]. -/
def clampMaxBlockSize (b : Nat) : Nat :=
  let b1 := if b = 0 then 1048576 else b
  let b2 := if b1 < 32768 then 32768 else b1
  if 2097152 < b2 then 2097152 else b2

theorem clampMaxBlockSize_bounds (b : Nat) :
    32768 ≤ clampMaxBlockSize b ∧ clampMaxBlockSize b ≤ 2097152 := by
  simp only [clampMaxBlockSize]
  split <;> split <;> split <;> omega

/-- `zultra_memory_bound` (libzultra.c lines 543-554), with
MAX_SPLITS = 64 (private.h line 56).  Note the per-split factor in the
source is `(1 + 4 + 1)` = 6 bytes. -/
def zultra_memory_bound (nInputSize flags nMaxBlockSize : Nat) : Nat :=
  let b := clampMaxBlockSize nMaxBlockSize
  zultra_frame_get_header_size flags +
    ((nInputSize + (b - 1)) / b) * ((1 + 4 + 1) * 64) +
    nInputSize + 1 + zultra_frame_get_footer_size flags

/-- The formula asserted by claim C5 for `memory_bound`, with 5 bytes per
split: header + ceil(in_len / B) * (5 * MAX_SPLITS) + in_len + 1 +
footer. -/
def memoryBoundClaimFormula (nInputSize flags nMaxBlockSize : Nat) : Nat :=
  let b := clampMaxBlockSize nMaxBlockSize
  zultra_frame_get_header_size flags +
    ((nInputSize + b - 1) / b) * (5 * 64) +
    nInputSize + 1 + zultra_frame_get_footer_size flags

/-- C5 (counterexample): the source reserves `(1 + 4 + 1) * MAX_SPLITS`
= 384 bytes per block, not `5 * MAX_SPLITS` = 320 as the claim states;
at in_len = 65536, flags = 0, B = 32768 the two formulas differ. -/
theorem C5_memory_bound_counterexample :
    zultra_memory_bound 65536 0 32768 = 66305 ∧
    memoryBoundClaimFormula 65536 0 32768 = 66177 ∧
    zultra_memory_bound 65536 0 32768 ≠ memoryBoundClaimFormula 65536 0 32768 := by
  refine ⟨by norm_num [zultra_memory_bound, clampMaxBlockSize,
    zultra_frame_get_header_size, zultra_frame_get_footer_size], ?_, ?_⟩ <;>
    norm_num [zultra_memory_bound, memoryBoundClaimFormula, clampMaxBlockSize,
      zultra_frame_get_header_size, zultra_frame_get_footer_size]

/-- C5 (amended): for every input length, flags value and block size,
after defaulting and clamping of B, `memory_bound` returns exactly
header + ceil(in_len / B) * (6 * MAX_SPLITS) + in_len + 1 + footer,
where MAX_SPLITS = 64 and the per-split reservation is 6 bytes
(1 + 4 + 1), not 5. -/
theorem C5_memory_bound_amended (nInputSize flags nMaxBlockSize : Nat) :
    32768 ≤ clampMaxBlockSize nMaxBlockSize ∧
    clampMaxBlockSize nMaxBlockSize ≤ 2097152 ∧
    zultra_memory_bound nInputSize flags nMaxBlockSize =
      zultra_frame_get_header_size flags +
        ((nInputSize + clampMaxBlockSize nMaxBlockSize - 1) /
          clampMaxBlockSize nMaxBlockSize) * (6 * 64) +
        nInputSize + 1 + zultra_frame_get_footer_size flags := by
  have hb := clampMaxBlockSize_bounds nMaxBlockSize
  refine ⟨hb.1, hb.2, ?_⟩
  unfold zultra_memory_bound
  simp only []
  have h1 : nInputSize + (clampMaxBlockSize nMaxBlockSize - 1) =
      nInputSize + clampMaxBlockSize nMaxBlockSize - 1 := by omega
  rw [h1]

/-- Compression status codes (libzultra.h lines 49-56).  There is no
invalid-argument status in the interface. -/
inductive ZultraStatus where
  | ok
  | errorSrc
  | errorDst
  | errorDictionary
  | errorMemory
  | errorCompression
deriving Repr, DecidableEq

/-- Argument handling of `zultra_stream_init` (libzultra.c lines 81-165):
the requested maximum block size is defaulted and clamped (lines 86-91)
and never rejected; the only failure paths are the allocations and
`divsufsort_init`, all reported as `ZULTRA_ERROR_MEMORY` (modelled by
the single `allocOk` flag).  Returns the status and the effective block
size stored in the context (`max_block_size`, line 128). -/
def zultra_stream_init_model (nMaxBlockSize : Nat) (allocOk : Bool) :
    ZultraStatus × Nat :=
  let b := clampMaxBlockSize nMaxBlockSize
  if allocOk then (ZultraStatus.ok, b) else (ZultraStatus.errorMemory, b)

/-- C9 (counterexample): an out-of-range maximum block size is not
reported as an invalid-argument failure; with block size 1 (below
32768) and successful allocation the call returns `ZULTRA_OK` with the
size clamped to 32768, and with block size 4000000 (above 2097152) it
returns `ZULTRA_OK` with the size clamped to 2097152. -/
theorem C9_stream_init_counterexample :
    zultra_stream_init_model 1 true = (ZultraStatus.ok, 32768) ∧
    zultra_stream_init_model 4000000 true = (ZultraStatus.ok, 2097152) := by
  constructor <;> rfl

/-- C9 (amended): context initialization never rejects a block size:
out-of-range values are silently clamped into [32768, 2097152] (0
selects the default 1048576), and the call fails only on allocation
failure, reported as the memory error status. -/
theorem C9_stream_init_amended (b : Nat) (allocOk : Bool) :
    zultra_stream_init_model b allocOk =
      ((if allocOk then ZultraStatus.ok else ZultraStatus.errorMemory),
        clampMaxBlockSize b) ∧
    32768 ≤ clampMaxBlockSize b ∧ clampMaxBlockSize b ≤ 2097152 ∧
    clampMaxBlockSize 0 = 1048576 := by
  refine ⟨?_, (clampMaxBlockSize_bounds b).1, (clampMaxBlockSize_bounds b).2, rfl⟩
  unfold zultra_stream_init_model
  split <;> rfl

/-! ## Empty-input behaviour of the stream compressor (claim C8) -/

/-- Modelled from the spec: `zultra_frame_encode_header` for framing
without a preset dictionary (declared in frame.h line 76, implementation
not among the sources).  Spec section 6 and the seed scenarios fix the
gzip header as `1f 8b 08 00 00 00 00 00 00 ff` and the zlib header as
`78 9c`; raw framing has no header. -/
def zultra_frame_encode_header (flags : Nat) : List Nat :=
  if flags = 2 then [0x1f, 0x8b, 0x08, 0, 0, 0, 0, 0, 0, 0xff]
  else if flags = 1 then [0x78, 0x9c]
  else []

/-- One pass of `zultra_stream_compress` (libzultra.c lines 199-481)
specialized to the single-shot call made by `zultra_memory_compress`
(finalize set, all input buffered, output capacity at least the memory
bound).  The frame header is emitted and flushed (lines 207-240); with
finalize set the block path is entered (line 260); when the buffered
input is nonempty the block payload is emitted (abstracted by `payload`,
lines 266-419 including the final flush-to-byte and the setting of
CSTATE_FINALIZED_COMPRESSION at line 403) and then the footer (lines
446-477, guarded by that flag).  When the buffered input is empty,
`nInDataSize = 0` fails the test at line 265, the whole block including
the finalize marking is skipped, the finalized flag is never set, and
the footer section at line 446 is therefore also skipped. -/
def streamCompressFinalizeModel (flags : Nat) (input : List Nat)
    (payload : List Nat → List Nat) (footer : List Nat) : List Nat :=
  let hdr := zultra_frame_encode_header flags
  if input.length > 0 then hdr ++ payload input ++ footer
  else hdr

/-- C8: compressing the empty input with gzip framing and finalize does
not produce the 20-byte gzip member the claim describes: whatever the
block compressor and footer encoder would produce, the emitted output is
exactly the 10-byte gzip header, with no deflate payload, no CRC-32 and
no ISIZE. -/
theorem C8_empty_gzip_output (payload : List Nat → List Nat)
    (footer : List Nat) :
    streamCompressFinalizeModel 2 [] payload footer =
      [0x1f, 0x8b, 0x08, 0, 0, 0, 0, 0, 0, 0xff] ∧
    (streamCompressFinalizeModel 2 [] payload footer).length = 10 ∧
    (streamCompressFinalizeModel 2 [] payload footer).length ≠ 20 := by
  refine ⟨rfl, rfl, by norm_num [streamCompressFinalizeModel,
    zultra_frame_encode_header]⟩

/-! ## Length/offset coding tables and the optimal parser
(src/blockdeflate.c)

The static tables mapping match offsets and match lengths to Huffman
symbols and extra-bit counts (blockdeflate.c lines 45-72) are run-length
structured; they are transcribed here with `List.replicate` runs.  Only
the symbol and extra-bit tables are needed by the cost model; the base
tables feed the bit emission, which the parser claims do not touch. -/

/-- Constants from src/src/format.h and src/src/private.h. -/
def MIN_MATCH_SIZE : Nat := 3

def LEAVE_ALONE_MATCH_SIZE : Nat := 40

def NMATCHES_PER_OFFSET : Nat := 8

def LAST_LITERALS : Nat := 1

def NOFFSETSYMS : Nat := 32

/-- `g_nOffsetSymbol` (blockdeflate.c lines 45-48): 512 entries, the
first 256 for offsets 1..256, the next 256 for offsets 257..32768 in
steps of 128. -/
def g_nOffsetSymbol : List Nat :=
  [0, 1, 2, 3] ++ List.replicate 2 4 ++ List.replicate 2 5 ++
  List.replicate 4 6 ++ List.replicate 4 7 ++
  List.replicate 8 8 ++ List.replicate 8 9 ++
  List.replicate 16 10 ++ List.replicate 16 11 ++
  List.replicate 32 12 ++ List.replicate 32 13 ++
  List.replicate 64 14 ++ List.replicate 64 15 ++
  [16, 17] ++ List.replicate 2 18 ++ List.replicate 2 19 ++
  List.replicate 4 20 ++ List.replicate 4 21 ++
  List.replicate 8 22 ++ List.replicate 8 23 ++
  List.replicate 16 24 ++ List.replicate 16 25 ++
  List.replicate 32 26 ++ List.replicate 32 27 ++
  List.replicate 64 28 ++ List.replicate 64 29 ++ [0, 0]

/-- `g_nOffsetExtraBits` (blockdeflate.c lines 50-53). -/
def g_nOffsetExtraBits : List Nat :=
  List.replicate 4 0 ++ List.replicate 4 1 ++ List.replicate 8 2 ++
  List.replicate 16 3 ++ List.replicate 32 4 ++ List.replicate 64 5 ++
  List.replicate 128 6 ++
  List.replicate 2 7 ++ List.replicate 4 8 ++ List.replicate 8 9 ++
  List.replicate 16 10 ++ List.replicate 32 11 ++ List.replicate 64 12 ++
  List.replicate 128 13 ++ [0, 0]

/-- `g_nMatchLenSymbol` (blockdeflate.c lines 62-64): 256 entries
indexed by the encoded match length (length - MIN_MATCH_SIZE). -/
def g_nMatchLenSymbol : List Nat :=
  [257, 258, 259, 260, 261, 262, 263, 264] ++
  List.replicate 2 265 ++ List.replicate 2 266 ++
  List.replicate 2 267 ++ List.replicate 2 268 ++
  List.replicate 4 269 ++ List.replicate 4 270 ++
  List.replicate 4 271 ++ List.replicate 4 272 ++
  List.replicate 8 273 ++ List.replicate 8 274 ++
  List.replicate 8 275 ++ List.replicate 8 276 ++
  List.replicate 16 277 ++ List.replicate 16 278 ++
  List.replicate 16 279 ++ List.replicate 16 280 ++
  List.replicate 32 281 ++ List.replicate 32 282 ++
  List.replicate 32 283 ++ List.replicate 31 284 ++ [285]

/-- `g_nMatchLenExtraBits` (blockdeflate.c lines 66-68). -/
def g_nMatchLenExtraBits : List Nat :=
  List.replicate 8 0 ++ List.replicate 8 1 ++ List.replicate 16 2 ++
  List.replicate 32 3 ++ List.replicate 64 4 ++ List.replicate 127 5 ++ [0]

theorem coding_tables_lengths :
    g_nOffsetSymbol.length = 512 ∧ g_nOffsetExtraBits.length = 512 ∧
    g_nMatchLenSymbol.length = 256 ∧ g_nMatchLenExtraBits.length = 256 := by
  decide

/-- One match record (`zultra_match_t`, private.h lines 59-62). -/
structure ZMatch where
  length : Nat
  offset : Nat
deriving Repr, DecidableEq

/-- The pieces of the compressor context read by the optimal parser
(private.h lines 65-99): the code-length vectors of the two Huffman
encoders, the per-position candidate-match table, and the input
window. -/
structure ParseContext where
  literalsLen : Nat → Nat
  offsetLen : Nat → Nat
  matchTable : Nat → List ZMatch
  window : Nat → Nat

/-- `zultra_get_literal_size` (blockdeflate.c lines 95-100). -/
def zultra_get_literal_size (ctx : ParseContext) (nLiteralByte : Nat) : Nat :=
  if nLiteralByte < 256 then ctx.literalsLen nLiteralByte else 8

/-- `zultra_get_offset_size` (blockdeflate.c lines 127-136). -/
def zultra_get_offset_size (ctx : ParseContext) (nMatchOffset : Nat) : Nat :=
  let i := nMatchOffset - 1
  if i < 256 then
    ctx.offsetLen (g_nOffsetSymbol.getD i 0) + g_nOffsetExtraBits.getD i 0
  else if i < 32768 then
    let j := 256 + (i - 256) / 128
    ctx.offsetLen (g_nOffsetSymbol.getD j 0) + g_nOffsetExtraBits.getD j 0
  else NOFFSETSYMS

/-- `zultra_get_varlen_size` (blockdeflate.c lines 216-219), taking the
encoded match length (length - MIN_MATCH_SIZE). -/
def zultra_get_varlen_size (ctx : ParseContext) (nLength : Nat) : Nat :=
  let l := if 255 < nLength then 255 else nLength
  ctx.literalsLen (g_nMatchLenSymbol.getD l 0) + g_nMatchLenExtraBits.getD l 0

/-- One cost-comparison step of the optimal parser: a candidate option
(cost, length, offset) replaces the current best exactly when its cost
is strictly smaller (`if (nBestCost > nCurCost)`, blockdeflate.c lines
294 and 309). -/
def dpStep (st opt : Nat × Nat × Nat) : Nat × Nat × Nat :=
  if opt.1 < st.1 then opt else st

/-- The options evaluated for one candidate match at position `i` of a
sub-block ending at `e`, in evaluation order (blockdeflate.c lines
281-316).  The candidate length is clamped so that
`i + nMatchLen <= nEndOffset - LAST_LITERALS`; a candidate of length at
least LEAVE_ALONE_MATCH_SIZE is evaluated only at its full (clamped)
length, any other candidate at every length from the clamped length down
to MIN_MATCH_SIZE.  In the leave-alone branch the C source computes the
encoded length `nMatchLen - MIN_MATCH_SIZE` in unsigned arithmetic, so a
clamped length below MIN_MATCH_SIZE wraps around; hence the explicit
mod-2^32 expression. -/
def candidateOptions (ctx : ParseContext) (e i : Nat) (costAt : Nat → Nat)
    (mt : ZMatch) : List (Nat × Nat × Nat) :=
  let nOffsetSize := zultra_get_offset_size ctx mt.offset
  let nMatchLen :=
    if e - LAST_LITERALS < i + mt.length then e - LAST_LITERALS - i else mt.length
  if LEAVE_ALONE_MATCH_SIZE ≤ mt.length then
    [(zultra_get_varlen_size ctx ((nMatchLen + 2 ^ 32 - MIN_MATCH_SIZE) % 2 ^ 32) +
        nOffsetSize + costAt nMatchLen, nMatchLen, mt.offset)]
  else
    ((List.range (nMatchLen - 2)).map (fun j => nMatchLen - j)).map
      (fun k => (zultra_get_varlen_size ctx (k - MIN_MATCH_SIZE) +
        nOffsetSize + costAt k, k, mt.offset))

/-- The candidate matches examined at position `i`: the first
NMATCHES_PER_OFFSET slots, stopping at the first one shorter than
MIN_MATCH_SIZE (loop condition at blockdeflate.c line 281). -/
def positionCandidates (ctx : ParseContext) (i : Nat) : List ZMatch :=
  ((ctx.matchTable i).take NMATCHES_PER_OFFSET).takeWhile
    (fun mt => MIN_MATCH_SIZE ≤ mt.length)

/-- All options evaluated at position `i`, preceded by the literal
option used to initialize the best cost (blockdeflate.c line 274). -/
def positionOptions (ctx : ParseContext) (e i : Nat) (costAt : Nat → Nat) :
    List (Nat × Nat × Nat) :=
  (positionCandidates ctx i).flatMap (candidateOptions ctx e i costAt)

/-- The backward dynamic program of `zultra_optimize_matches_lwd`
(blockdeflate.c lines 254-325), as a table of (cost, best match) entries
for the last `m` positions of the sub-block `[.., e)`: entry 0 of
`optimizeMatchesTable ctx e m` belongs to position `e - m`.  The C
function fills `cost[]` and `best_match[]` from `nEndOffset - 1`
backwards; each entry depends only on entries at later positions, so the
table is independent of the start offset of the loop. -/
def optimizeMatchesTable (ctx : ParseContext) (e : Nat) :
    Nat → List (Nat × ZMatch)
  | 0 => []
  | m + 1 =>
    let rest := optimizeMatchesTable ctx e m
    let i := e - (m + 1)
    if m = 0 then
      [(zultra_get_literal_size ctx (ctx.window i), ⟨0, 0⟩)]
    else
      let costAt : Nat → Nat := fun k => (rest.getD (k - 1) (0, ⟨0, 0⟩)).1
      let lit := zultra_get_literal_size ctx (ctx.window i) + costAt 1
      let st := (positionOptions ctx e i costAt).foldl dpStep (lit, 0, 0)
      (st.1, ⟨st.2.1, st.2.2⟩) :: rest

/-- The (cost, best match) entry of the parse at position `i` of the
sub-block ending at `e`. -/
def dpEntryAt (ctx : ParseContext) (e i : Nat) : Nat × ZMatch :=
  (optimizeMatchesTable ctx e (e - i)).headD (0, ⟨0, 0⟩)


/-- Cost lookup `cost[i + k]` used when computing the entry of position
`i`: entry `k - 1` of the table for positions `[i + 1, e)`. -/
def dpCostAt (ctx : ParseContext) (e i : Nat) : Nat → Nat :=
  fun k => ((optimizeMatchesTable ctx e (e - i - 1)).getD (k - 1) (0, ⟨0, 0⟩)).1

/-- The literal option initializing the best cost at position `i`
(blockdeflate.c line 274). -/
def dpLitOption (ctx : ParseContext) (e i : Nat) : Nat :=
  zultra_get_literal_size ctx (ctx.window i) + dpCostAt ctx e i 1

theorem dpEntryAt_unfold (ctx : ParseContext) (e i : Nat) (h2 : i + 2 ≤ e) :
    dpEntryAt ctx e i =
      (((positionOptions ctx e i (dpCostAt ctx e i)).foldl dpStep
          (dpLitOption ctx e i, 0, 0)).1,
        ⟨((positionOptions ctx e i (dpCostAt ctx e i)).foldl dpStep
          (dpLitOption ctx e i, 0, 0)).2.1,
         ((positionOptions ctx e i (dpCostAt ctx e i)).foldl dpStep
          (dpLitOption ctx e i, 0, 0)).2.2⟩) := by
  have hm : e - i = (e - i - 1) + 1 := by omega
  have hm0 : ¬ (e - i - 1 = 0) := by omega
  have hi : e - ((e - i - 1) + 1) = i := by omega
  unfold dpEntryAt
  rw [hm]
  simp only [optimizeMatchesTable]
  rw [if_neg hm0, hi]
  simp only [List.headD_cons]
  rfl

theorem foldl_dpStep_mem :
    ∀ (opts : List (Nat × Nat × Nat)) (init : Nat × Nat × Nat),
      opts.foldl dpStep init = init ∨ opts.foldl dpStep init ∈ opts := by
  intro opts
  induction opts with
  | nil => intro init; exact Or.inl rfl
  | cons o rest ih =>
    intro init
    simp only [List.foldl_cons]
    rcases ih (dpStep init o) with h | h
    · rw [h]
      unfold dpStep
      split
      · exact Or.inr (List.mem_cons_self _ _)
      · exact Or.inl rfl
    · exact Or.inr (List.mem_cons_of_mem _ h)

theorem foldl_dpStep_first_min (d : Nat × Nat × Nat) :
    ∀ (opts : List (Nat × Nat × Nat)) (init : Nat × Nat × Nat),
      ((∀ o ∈ opts, init.1 ≤ o.1) ∧ opts.foldl dpStep init = init) ∨
      (∃ j, j < opts.length ∧ opts.foldl dpStep init = opts.getD j d ∧
        (opts.getD j d).1 < init.1 ∧
        (∀ l, l < opts.length → (opts.getD j d).1 ≤ (opts.getD l d).1) ∧
        (∀ l, l < j → (opts.getD j d).1 < (opts.getD l d).1)) := by
  intro opts
  induction opts with
  | nil => intro init; exact Or.inl ⟨by simp, rfl⟩
  | cons o rest ih =>
    intro init
    simp only [List.foldl_cons]
    by_cases ho : o.1 < init.1
    · have hstep : dpStep init o = o := by unfold dpStep; rw [if_pos ho]
      rw [hstep]
      rcases ih o with ⟨hall, heq⟩ | ⟨j, hj, heq, hlt, hmin, hfirst⟩
      · refine Or.inr ⟨0, by simp, by simpa using heq, by simpa using ho, ?_, by omega⟩
        intro l hl
        match l with
        | 0 => simp
        | l + 1 =>
          simp only [List.getD_cons_zero, List.getD_cons_succ]
          have hlr : l < rest.length := by simpa using hl
          rw [List.getD_eq_getElem rest d hlr]
          exact hall _ (List.getElem_mem hlr)
      · refine Or.inr ⟨j + 1, by simpa using hj, by simpa using heq, ?_, ?_, ?_⟩
        · simp only [List.getD_cons_succ]
          omega
        · intro l hl
          match l with
          | 0 =>
            simp only [List.getD_cons_succ, List.getD_cons_zero]
            omega
          | l + 1 =>
            simp only [List.getD_cons_succ]
            exact hmin l (by simpa using hl)
        · intro l hl
          match l with
          | 0 =>
            simp only [List.getD_cons_succ, List.getD_cons_zero]
            omega
          | l + 1 =>
            simp only [List.getD_cons_succ]
            exact hfirst l (by omega)
    · have hstep : dpStep init o = init := by unfold dpStep; rw [if_neg ho]
      rw [hstep]
      rcases ih init with ⟨hall, heq⟩ | ⟨j, hj, heq, hlt, hmin, hfirst⟩
      · refine Or.inl ⟨?_, heq⟩
        intro o2 ho2
        rcases List.mem_cons.mp ho2 with h | h
        · subst h; omega
        · exact hall _ h
      · refine Or.inr ⟨j + 1, by simpa using hj, by simpa using heq, ?_, ?_, ?_⟩
        · simp only [List.getD_cons_succ]
          omega
        · intro l hl
          match l with
          | 0 =>
            simp only [List.getD_cons_succ, List.getD_cons_zero]
            omega
          | l + 1 =>
            simp only [List.getD_cons_succ]
            exact hmin l (by simpa using hl)
        · intro l hl
          match l with
          | 0 =>
            simp only [List.getD_cons_succ, List.getD_cons_zero]
            omega
          | l + 1 =>
            simp only [List.getD_cons_succ]
            exact hfirst l (by omega)

theorem positionOptions_length_bound (ctx : ParseContext) (e i : Nat)
    (costAt : Nat → Nat) (h2 : i + 2 ≤ e) :
    ∀ opt ∈ positionOptions ctx e i costAt,
      1 ≤ opt.2.1 ∧ i + opt.2.1 ≤ e - 1 := by
  intro opt hopt
  obtain ⟨mt, hmt, hin⟩ := List.mem_flatMap.mp hopt
  simp only [candidateOptions, LEAVE_ALONE_MATCH_SIZE, LAST_LITERALS,
    MIN_MATCH_SIZE] at hin
  by_cases hclamp : e - 1 < i + mt.length
  · rw [if_pos hclamp] at hin
    split at hin
    · simp only [List.mem_singleton] at hin
      subst hin
      simp only []
      omega
    · obtain ⟨k0, hk0, hkeq⟩ := List.mem_map.mp hin
      obtain ⟨j, hj, hjeq⟩ := List.mem_map.mp hk0
      subst hkeq
      subst hjeq
      have hjr := List.mem_range.mp hj
      simp only []
      omega
  · rw [if_neg hclamp] at hin
    split at hin
    · simp only [List.mem_singleton] at hin
      subst hin
      simp only []
      rename_i h40
      omega
    · obtain ⟨k0, hk0, hkeq⟩ := List.mem_map.mp hin
      obtain ⟨j, hj, hjeq⟩ := List.mem_map.mp hk0
      subst hkeq
      subst hjeq
      have hjr := List.mem_range.mp hj
      simp only []
      omega

/-- C2: for every encoded sub-range `[s, e)` with `s < e`, after match
clamping and optimal parsing the entry at position `e - 1` is a literal
(best match length 0, blockdeflate.c lines 266-268), and every chosen
best match at a position `i < e - 1` satisfies
`i + length <= e - 1` thanks to the clamp
`i + nMatchLen <= nEndOffset - LAST_LITERALS` (lines 285-286). -/
theorem C2_last_literal (ctx : ParseContext) (s e : Nat) (hse : s < e) :
    (dpEntryAt ctx e (e - 1)).2.length = 0 ∧
    ∀ i, s ≤ i → i + 1 < e → 0 < (dpEntryAt ctx e i).2.length →
      i + (dpEntryAt ctx e i).2.length ≤ e - 1 := by
  constructor
  · have h1 : e - (e - 1) = 1 := by omega
    unfold dpEntryAt
    rw [h1]
    simp [optimizeMatchesTable]
  · intro i hsi hie hlen
    have h2 : i + 2 ≤ e := by omega
    rw [dpEntryAt_unfold ctx e i h2] at hlen ⊢
    rcases foldl_dpStep_mem (positionOptions ctx e i (dpCostAt ctx e i))
        (dpLitOption ctx e i, 0, 0) with h | h
    · rw [h] at hlen
      exact absurd hlen (by simp)
    · exact (positionOptions_length_bound ctx e i (dpCostAt ctx e i) h2 _ h).2

/-- The concrete parse context for the C7 counterexample: six input
bytes, one candidate match of length 4 at offset 1 at position 0, and
code lengths chosen so that parsing the match at length 4 and at length
3 cost the same 26 bits.  It also serves as a concrete context for the
C2 witness. -/
def c7ctx : ParseContext where
  literalsLen := fun n =>
    if n = 257 then 1 else if n = 258 then 9 else if n < 256 then 8 else 0
  offsetLen := fun n => if n = 0 then 1 else 0
  matchTable := fun i => if i = 0 then [⟨4, 1⟩] else []
  window := fun _ => 65

/-- Witness for C2 at a concrete sub-range. -/
theorem C2_last_literal_witness :
    (dpEntryAt c7ctx 2 (2 - 1)).2.length = 0 :=
  (C2_last_literal c7ctx 0 2 (by norm_num)).1

/-- C7 (counterexample): at position 0 of the sub-range `[0, 6)` in
`c7ctx`, truncating the candidate to length 3 costs exactly the same 26
bits as taking its full length 4 (second conjunct), yet the parser
selects the longer length 4: the descending length scan (blockdeflate.c
line 303) evaluates longer lengths first and the strictly-smaller-cost
update keeps the first candidate, so equal-cost ties go to the longer
match, not the shorter one. -/
theorem C7_tie_break_counterexample :
    dpEntryAt c7ctx 6 0 = (26, ⟨4, 1⟩) ∧
    zultra_get_varlen_size c7ctx 0 + zultra_get_offset_size c7ctx 1 +
      (dpEntryAt c7ctx 6 3).1 = 26 := by
  decide

/-- C7 (amended): on equal total cost the parser does prefer the literal
over any match: a best match is recorded only when strictly cheaper than
the literal option.  Among match options the chosen cost is minimal over
everything evaluated, and the recorded option is the first one in
evaluation order (candidates in slot order, each scanned at descending
lengths) that is strictly cheaper than all earlier options — so of two
equal-cost match lengths the longer (earlier-evaluated) one is kept. -/
theorem C7_tie_break_amended (ctx : ParseContext) (e i : Nat) (h2 : i + 2 ≤ e) :
    ((dpEntryAt ctx e i).1 ≤ dpLitOption ctx e i) ∧
    (0 < (dpEntryAt ctx e i).2.length →
      (dpEntryAt ctx e i).1 < dpLitOption ctx e i) ∧
    (∀ opt ∈ positionOptions ctx e i (dpCostAt ctx e i),
      (dpEntryAt ctx e i).1 ≤ opt.1) ∧
    (0 < (dpEntryAt ctx e i).2.length →
      ∃ j, j < (positionOptions ctx e i (dpCostAt ctx e i)).length ∧
        ((dpEntryAt ctx e i).1, (dpEntryAt ctx e i).2.length,
          (dpEntryAt ctx e i).2.offset) =
          (positionOptions ctx e i (dpCostAt ctx e i)).getD j (0, 0, 0) ∧
        ∀ l, l < j →
          (((positionOptions ctx e i (dpCostAt ctx e i)).getD j (0, 0, 0)).1 <
            ((positionOptions ctx e i (dpCostAt ctx e i)).getD l (0, 0, 0)).1)) := by
  rw [dpEntryAt_unfold ctx e i h2]
  rcases foldl_dpStep_first_min (0, 0, 0)
      (positionOptions ctx e i (dpCostAt ctx e i)) (dpLitOption ctx e i, 0, 0)
      with ⟨hall, heq⟩ | ⟨j, hj, heq, hlt, hmin, hfirst⟩
  · rw [heq]
    refine ⟨le_refl _, ?_, ?_, ?_⟩
    · intro hlen
      exact absurd hlen (by simp)
    · exact hall
    · intro hlen
      exact absurd hlen (by simp)
  · rw [heq]
    have hmem : ∀ opt ∈ positionOptions ctx e i (dpCostAt ctx e i),
        ((positionOptions ctx e i (dpCostAt ctx e i)).getD j (0, 0, 0)).1 ≤ opt.1 := by
      intro opt hopt
      obtain ⟨l, hl, hleq⟩ := List.mem_iff_getElem.mp hopt
      have := hmin l hl
      rw [List.getD_eq_getElem _ _ hl, hleq] at this
      exact this
    refine ⟨le_of_lt hlt, fun _ => hlt, hmem, fun _ => ⟨j, hj, rfl, hfirst⟩⟩

/-- Witness for the amended C7 theorem at the counterexample context:
the selected match at position 0 is strictly cheaper than the literal
option. -/
theorem C7_tie_break_amended_witness :
    (dpEntryAt c7ctx 6 0).1 < dpLitOption c7ctx 6 0 :=
  (C7_tie_break_amended c7ctx 6 0 (by norm_num)).2.1 (by decide)

/-! ## Huffman code-length construction (src/huffman/huffencoder.c)

`zultra_huffman_encoder_estimate_dynamic_codelens` builds code lengths
with the in-place Moffat-Katajainen algorithm, and
`zultra_huffman_encoder_build_dynamic_codewords` length-limits them by
Kraft redistribution.  Only the code-length computation is embedded; the
canonical codeword issuance that follows does not change the lengths. -/

/-- The sorting of symbol indices by (value ascending, index ascending)
performed by `zultra_huffman_encoder_qsort` (huffencoder.c lines 32-61).
The comparator `value[a] < value[b] or (equal and a < b)` is a strict
total order on distinct indices, so the sorted permutation is unique and
the quicksort of the source is embedded as an insertion sort with the
same comparator. -/
def insertIdx (value : List Nat) (a : Nat) : List Nat → List Nat
  | [] => [a]
  | b :: rest =>
    if value.getD a 0 < value.getD b 0 ∨
        (value.getD a 0 = value.getD b 0 ∧ a ≤ b) then a :: b :: rest
    else b :: insertIdx value a rest

def sortIndices (value : List Nat) : List Nat → List Nat
  | [] => []
  | a :: rest => insertIdx value a (sortIndices value rest)

/-- One node selection of phase 1 of the Moffat-Katajainen method
(huffencoder.c lines 203-213 and 215-225): pick an internal tree node
when `s >= n || (r < t && A[r] < A[s])`, overwriting its slot with the
1-based parent index `t + 1`, otherwise pick a leaf. -/
def mkSelect (n t : Nat) (st : List Nat × Nat × Nat) : Nat × (List Nat × Nat × Nat) :=
  let A := st.1
  let s := st.2.1
  let r := st.2.2
  if n ≤ s ∨ (r < t ∧ A.getD r 0 < A.getD s 0) then
    (A.getD r 0, (A.set r (t + 1), s, r + 1))
  else
    (A.getD s 0, (A, s + 1, r))

/-- One step `t` of phase 1 (huffencoder.c lines 200-228): select two
nodes and store the package weight at `A[t]`. -/
def mkStep (n : Nat) (st : List Nat × Nat × Nat) (t : Nat) : List Nat × Nat × Nat :=
  let p1 := mkSelect n t st
  let p2 := mkSelect n t p1.2
  (p2.2.1.set t (p1.1 + p2.1), p2.2.2.1, p2.2.2.2)

/-- Phase 1 of the Moffat-Katajainen method over the sorted frequency
array: `n - 1` package steps starting from `s = r = 0`. -/
def mkPhase1 (n : Nat) (A0 : List Nat) : List Nat :=
  ((List.range (n - 1)).foldl (mkStep n) (A0, 0, 0)).1

/-- The descending loop of phase 2 converting parent indices to depths
(`for (t = n - 3; t >= 0; t--) A[t] = A[A[t] - 1] + 1`, huffencoder.c
lines 233-234); the argument counts the entries still to process, so
index `k` is processed when called with `k + 1`. -/
def mkPhase2aLoop (A : List Nat) : Nat → List Nat
  | 0 => A
  | k + 1 => mkPhase2aLoop (A.set k (A.getD (A.getD k 0 - 1) 0 + 1)) k

/-- Phase 2, first half (huffencoder.c lines 232-234): root depth 0,
then internal-node depths from the parent pointers. -/
def mkPhase2a (n : Nat) (A : List Nat) : List Nat :=
  mkPhase2aLoop (A.set (n - 2) 0) (n - 2)

/-- The scan `while (t >= 0 && A[t] == d) { u++; t--; }` of the depth
expansion (huffencoder.c lines 243-246); the third argument is `t + 1`
so that 0 encodes the exhausted scan. -/
def mkExpandScan (A : List Nat) (d : Nat) : Nat → Nat → Nat × Nat
  | 0, u => (0, u)
  | t + 1, u =>
    if A.getD t 0 = d then mkExpandScan A d t (u + 1) else (t + 1, u)

/-- The assignment loop `while (a > u) { A[x] = d; x--; a--; }`
(huffencoder.c lines 247-251); the second argument is `x + 1`. -/
def mkExpandAssign (d : Nat) (A : List Nat) (x1 a u : Nat) : List Nat × Nat :=
  if u < a then mkExpandAssign d (A.set (x1 - 1) d) (x1 - 1) (a - 1) u
  else (A, x1)
termination_by a
decreasing_by omega

/-- The outer depth-expansion loop `while (a > 0)` (huffencoder.c lines
242-255), with explicit fuel (the loop is shown to exit on `a = 0`
within `n + 2` iterations). -/
def mkExpandLoop (A : List Nat) (a d x1 t1 : Nat) : Nat → List Nat
  | 0 => A
  | fuel + 1 =>
    if a = 0 then A
    else
      let sc := mkExpandScan A d t1 0
      let asg := mkExpandAssign d A x1 a sc.2
      mkExpandLoop asg.1 (sc.2 * 2) (d + 1) asg.2 sc.1 fuel

/-- Code lengths for `n` sorted positive frequencies `A0` by the
Moffat-Katajainen method (phases 1 and 2, huffencoder.c lines 194-255):
the expansion starts with `a = 1, u = 0, d = 0, x = n - 1, t = n - 2`. -/
def mkLens (n : Nat) (A0 : List Nat) : List Nat :=
  mkExpandLoop (mkPhase2a n (mkPhase1 n A0)) 1 0 n (n - 1) (n + 2)

/-- Scatter of computed code lengths back into the per-symbol array
(`for (i) nCodeLength[nMinQueue[i]] = A[i]`, huffencoder.c lines
258-261), over a zeroed array of `nSymbols` entries. -/
def scatterLens (nSymbols : Nat) (q A : List Nat) : List Nat :=
  (q.zip A).foldl (fun lens p => lens.set p.1 p.2) (List.replicate nSymbols 0)

/-- `zultra_huffman_encoder_estimate_dynamic_codelens` (huffencoder.c
lines 157-270): collect the symbols with nonzero frequency, sort them by
(frequency, symbol), run the Moffat-Katajainen method on the sorted
frequencies and scatter the depths back; with zero or one used symbols,
assign a single one-bit code length to symbol 0. -/
def estimateDynamicCodelens (nSymbols : Nat) (entropy : List Nat) : List Nat :=
  let minQueue0 := (List.range nSymbols).filter (fun i => entropy.getD i 0 ≠ 0)
  if 1 < minQueue0.length then
    let q := sortIndices entropy minQueue0
    let A0 := q.map (fun i => entropy.getD i 0)
    scatterLens nSymbols q (mkLens minQueue0.length A0)
  else
    (List.replicate nSymbols 0).set 0 1

/-- The capping pass of the length limiter (huffencoder.c lines
310-321), from the back of the sorted index list: cap each length at `L`
and accumulate the Kraft number `k += maxk >> len`. -/
def capLoop (L : Nat) (q : List Nat) : List Nat → Nat → Nat → List Nat × Nat
  | lens, k, 0 => (lens, k)
  | lens, k, i + 1 =>
    let idx := q.getD i 0
    let len0 := lens.getD idx 0
    let len1 := if L < len0 then L else len0
    capLoop L q (lens.set idx len1) (k + 2 ^ L >>> len1) i

/-- The inner lengthening loop (huffencoder.c lines 327-330):
`while (len[n] < L && k > maxk) { len[n]++; k -= maxk >> len[n]; }`. -/
def lengthenInner (L idx : Nat) (lens : List Nat) (k : Nat) : List Nat × Nat :=
  if lens.getD idx 0 < L ∧ 2 ^ L < k then
    lengthenInner L idx (lens.set idx (lens.getD idx 0 + 1))
      (k - 2 ^ L >>> (lens.getD idx 0 + 1))
  else (lens, k)
termination_by k
decreasing_by
  rename_i h
  have h1 : lens.getD idx 0 + 1 ≤ L := by omega
  have h2 : 1 ≤ 2 ^ L >>> (lens.getD idx 0 + 1) := by
    rw [Nat.shiftRight_eq_div_pow]
    exact (Nat.one_le_div_iff (Nat.pos_pow_of_pos _ (by norm_num))).mpr
      (Nat.pow_le_pow_right (by norm_num) h1)
  have h3 : 0 < k := Nat.lt_trans (Nat.pos_pow_of_pos _ (by norm_num)) h.2
  omega

/-- The error-propagation pass (huffencoder.c lines 324-331), from the
back of the sorted index list while `k > maxk`. -/
def lengthenLoop (L : Nat) (q : List Nat) : List Nat → Nat → Nat → List Nat × Nat
  | lens, k, 0 => (lens, k)
  | lens, k, i + 1 =>
    if 2 ^ L < k then
      let p := lengthenInner L (q.getD i 0) lens k
      lengthenLoop L q p.1 p.2 i
    else (lens, k)

/-- The inner shortening loop (huffencoder.c lines 337-340):
`while ((k + (maxk >> len[n])) <= maxk) { k += maxk >> len[n]; len[n]--; }`. -/
def shortenInner (L idx : Nat) (lens : List Nat) (k : Nat) : List Nat × Nat :=
  if k + 2 ^ L >>> lens.getD idx 0 ≤ 2 ^ L then
    shortenInner L idx (lens.set idx (lens.getD idx 0 - 1))
      (k + 2 ^ L >>> lens.getD idx 0)
  else (lens, k)
termination_by (2 ^ L - k, lens.getD idx 0)
decreasing_by
  rename_i h
  by_cases hz : 0 < 2 ^ L >>> lens.getD idx 0
  · exact Prod.Lex.left _ _
      (Nat.sub_lt_sub_left (lt_of_lt_of_le (Nat.lt_add_of_pos_right hz) h)
        (Nat.lt_add_of_pos_right hz))
  · have he : 2 ^ L >>> lens.getD idx 0 = 0 := Nat.eq_zero_of_not_pos hz
    have hlen : L < lens.getD idx 0 := by
      by_contra hc
      push_neg at hc
      rw [Nat.shiftRight_eq_div_pow] at hz
      exact hz ((Nat.one_le_div_iff (Nat.pos_pow_of_pos _ (by norm_num))).mpr
        (Nat.pow_le_pow_right (by norm_num) hc))
    have hidx : idx < lens.length := by
      by_contra hc
      push_neg at hc
      rw [List.getD_eq_default _ _ hc] at hlen
      omega
    simp only [he, Nat.add_zero]
    refine Prod.Lex.right _ ?_
    rw [List.getD_eq_getElem _ _ (by simpa using hidx)]
    rw [List.getElem_set_self]
    omega

/-- The shortening pass (huffencoder.c lines 334-341):
`for (i = 0; k < maxk && i <= nNumSorted; i++)`.  Note the loop bound
`i <= nNumSorted`: the body at `i = nNumSorted` would read the
uninitialized entry `nMinQueue[nNumSorted]` of the C array (modelled as
the default 0); the C1 development proves that under the builder's
preconditions the loop always reaches `k = maxk` first, so this read is
unreachable. -/
def shortenLoop (L : Nat) (q : List Nat) (m : Nat) (lens : List Nat) (k i : Nat) :
    List Nat × Nat :=
  if k < 2 ^ L ∧ i ≤ m then
    let p := shortenInner L (q.getD i 0) lens k
    shortenLoop L q m p.1 p.2 (i + 1)
  else (lens, k)
termination_by m + 1 - i
decreasing_by omega

/-- The complete length limiter of
`zultra_huffman_encoder_build_dynamic_codewords` (huffencoder.c lines
303-345): cap, lengthen from the back, shorten from the front.  The
final re-sort of the index list (line 344) does not change the length
array. -/
def limitLens (L : Nat) (q : List Nat) (lens : List Nat) : List Nat :=
  let c := capLoop L q lens 0 q.length
  let g := lengthenLoop L q c.1 c.2 q.length
  (shortenLoop L q q.length g.1 g.2 0).1

/-- The code-length part of
`zultra_huffman_encoder_build_dynamic_codewords` (huffencoder.c lines
279-346): estimate the lengths, collect and sort the symbols with a
nonzero length, and length-limit when the largest length exceeds the
encoder maximum.  The canonical codeword issuance that follows (lines
350-372) does not modify the lengths. -/
def buildDynamicLens (nSymbols L : Nat) (entropy : List Nat) : List Nat :=
  let lens := estimateDynamicCodelens nSymbols entropy
  let q0 := (List.range nSymbols).filter (fun i => lens.getD i 0 ≠ 0)
  if 0 < q0.length ∧ 0 < L then
    let q := sortIndices lens q0
    if L < lens.getD (q.getD (q0.length - 1) 0) 0 then limitLens L q lens
    else lens
  else lens

/-- The Kraft sum of claim C1: the sum over all symbols with nonzero
code length of `2 ^ (L - len[s])`. -/
def kraftSum (L : Nat) (lens : List Nat) : Nat :=
  (((List.range lens.length).filter (fun s => lens.getD s 0 ≠ 0)).map
    (fun s => 2 ^ (L - lens.getD s 0))).sum

/-- The phantom distance-frequency synthesis of `zultra_block_deflate`
(blockdeflate.c lines 895-914): count the used distance symbols among
indices `0 <= i < NOFFSETSYMS - 2`, stopping at 2 (so the count is the
minimum of 2 and the number of nonzero entries), and if fewer than two
are used, force the frequencies of symbols 0 and/or 1 to 1. -/
def offsetPhantoms (entropy : List Nat) : List Nat :=
  let nOffsetLens :=
    min (((List.range 30).filter (fun i => entropy.getD i 0 ≠ 0)).length) 2
  if nOffsetLens = 0 then (entropy.set 0 1).set 1 1
  else if nOffsetLens = 1 then
    if entropy.getD 0 0 ≠ 0 then entropy.set 1 1 else entropy.set 0 1
  else entropy

/-- `zultra_huffman_encoder_get_defined_var_lengths_count`
(huffencoder.c lines 532-538): `i = nSymbols; while (i > nMinSymbols &&
!nCodeLength[i - 1]) i--;`. -/
def definedCountLoop (nMinSymbols : Nat) (lens : List Nat) : Nat → Nat
  | 0 => 0
  | i + 1 =>
    if nMinSymbols < i + 1 ∧ lens.getD i 0 = 0 then definedCountLoop nMinSymbols lens i
    else i + 1

def definedVarLengthsCount (nMinSymbols nSymbols : Nat) (lens : List Nat) : Nat :=
  definedCountLoop nMinSymbols lens nSymbols

section ListToolkit

/-- `getD` of `set` at the written position. -/
lemma getD_set_self {l : List Nat} {i v : Nat} (h : i < l.length) :
    (l.set i v).getD i 0 = v := by
  rw [List.getD_eq_getElem _ _ (by simpa using h), List.getElem_set_self]

/-- `getD` of `set` away from the written position. -/
lemma getD_set_ne {l : List Nat} {i j v : Nat} (h : i ≠ j) :
    (l.set i v).getD j 0 = l.getD j 0 := by
  by_cases hj : j < l.length
  · rw [List.getD_eq_getElem _ _ (by simpa using hj), List.getD_eq_getElem _ _ hj,
      List.getElem_set_ne h]
  · rw [List.getD_eq_default _ _ (by simpa using Nat.le_of_not_lt hj),
      List.getD_eq_default _ _ (Nat.le_of_not_lt hj)]

end ListToolkit

section SortLemmas

lemma insertIdx_perm (value : List Nat) (a : Nat) (l : List Nat) :
    (insertIdx value a l).Perm (a :: l) := by
  induction l with
  | nil => exact List.Perm.refl _
  | cons b rest ih =>
    rw [insertIdx]
    split
    · exact List.Perm.refl _
    · exact (ih.cons b).trans (List.Perm.swap a b rest)

lemma sortIndices_perm (value : List Nat) (l : List Nat) :
    (sortIndices value l).Perm l := by
  induction l with
  | nil => exact List.Perm.refl _
  | cons a rest ih =>
    exact (insertIdx_perm value a (sortIndices value rest)).trans (ih.cons a)

lemma mem_insertIdx {value : List Nat} {a x : Nat} {l : List Nat} :
    x ∈ insertIdx value a l ↔ x = a ∨ x ∈ l := by
  rw [(insertIdx_perm value a l).mem_iff, List.mem_cons]

lemma insertIdx_pairwise (value : List Nat) (a : Nat) (l : List Nat)
    (h : l.Pairwise (fun x y => value.getD x 0 ≤ value.getD y 0)) :
    (insertIdx value a l).Pairwise (fun x y => value.getD x 0 ≤ value.getD y 0) := by
  induction l with
  | nil => simp [insertIdx]
  | cons b rest ih =>
    rw [List.pairwise_cons] at h
    rw [insertIdx]
    split
    · rename_i hc
      have hab : value.getD a 0 ≤ value.getD b 0 := by
        rcases hc with hc | hc
        · exact le_of_lt hc
        · exact le_of_eq hc.1
      refine List.pairwise_cons.mpr ⟨?_, List.pairwise_cons.mpr h⟩
      intro c hc2
      rcases List.mem_cons.mp hc2 with rfl | hc2
      · exact hab
      · exact le_trans hab (h.1 c hc2)
    · rename_i hc
      push_neg at hc
      refine List.pairwise_cons.mpr ⟨?_, ih h.2⟩
      intro c hc2
      rcases mem_insertIdx.mp hc2 with rfl | hc2
      · exact hc.1
      · exact h.1 c hc2

lemma sortIndices_pairwise (value : List Nat) (l : List Nat) :
    (sortIndices value l).Pairwise (fun x y => value.getD x 0 ≤ value.getD y 0) := by
  induction l with
  | nil => exact List.Pairwise.nil
  | cons a rest ih => exact insertIdx_pairwise value a _ ih

/-- In the sorted index list, every entry's value is at most the last
entry's value. -/
lemma sortIndices_getD_le_last (value : List Nat) (l : List Nat) (i : Nat)
    (hi : i < (sortIndices value l).length) :
    value.getD ((sortIndices value l).getD i 0) 0 ≤
      value.getD ((sortIndices value l).getD ((sortIndices value l).length - 1) 0) 0 := by
  set q := sortIndices value l with hq
  have hp := sortIndices_pairwise value l
  rw [← hq] at hp
  rcases Nat.lt_or_ge i (q.length - 1) with hlt | hge
  · have hj : q.length - 1 < q.length := by omega
    rw [List.getD_eq_getElem _ _ hi, List.getD_eq_getElem _ _ hj]
    exact (List.pairwise_iff_getElem.mp hp) i (q.length - 1) hi hj hlt
  · have : i = q.length - 1 := by omega
    rw [this]

end SortLemmas
section Phase1

lemma mkSelect_pos {n t : Nat} {A : List Nat} {s r : Nat}
    (h : n ≤ s ∨ (r < t ∧ A.getD r 0 < A.getD s 0)) :
    mkSelect n t (A, s, r) = (A.getD r 0, (A.set r (t + 1), s, r + 1)) := by
  rw [mkSelect]
  exact if_pos h

lemma mkSelect_neg {n t : Nat} {A : List Nat} {s r : Nat}
    (h : ¬(n ≤ s ∨ (r < t ∧ A.getD r 0 < A.getD s 0))) :
    mkSelect n t (A, s, r) = (A.getD s 0, (A, s + 1, r)) := by
  rw [mkSelect]
  exact if_neg h

lemma mkStep_eq (n : Nat) (st : List Nat × Nat × Nat) (t : Nat) :
    mkStep n st t =
      ((mkSelect n t (mkSelect n t st).2).2.1.set t
        ((mkSelect n t st).1 + (mkSelect n t (mkSelect n t st).2).1),
       (mkSelect n t (mkSelect n t st).2).2.2.1,
       (mkSelect n t (mkSelect n t st).2).2.2.2) := rfl

/-- Invariant of phase 1 before step `t`: totals `s + r = 2t` with
`s ≤ n` leaves and `r < t` internals consumed (both zero initially), and
the consumed prefix `A[0..r)` holds 1-based parent indices at least two
above their position, at most `t`, non-decreasing, and strictly
increasing two positions apart. -/
structure P1Inv (n t : Nat) (A : List Nat) (s r : Nat) : Prop where
  len : A.length = n
  total : s + r = 2 * t
  sle : s ≤ n
  rlt : r < t ∨ r = 0
  par : ∀ j, j < r → j + 2 ≤ A.getD j 0 ∧ A.getD j 0 ≤ t
  mono : ∀ j, j + 1 < r → A.getD j 0 ≤ A.getD (j + 1) 0
  gap : ∀ j, j + 2 < r → A.getD j 0 < A.getD (j + 2) 0

lemma mkStep_inv (n t : Nat) (hn : 2 ≤ n) (ht : t ≤ n - 2)
    (st : List Nat × Nat × Nat) (h : P1Inv n t st.1 st.2.1 st.2.2) :
    P1Inv n (t + 1) (mkStep n st t).1 (mkStep n st t).2.1 (mkStep n st t).2.2 := by
  obtain ⟨A, s, r⟩ := st
  obtain ⟨hlen, hsum, hs, hr, hpar, hmono, hgap⟩ := h
  simp only at hlen hsum hs hr hpar hmono hgap
  by_cases hg1 : n ≤ s ∨ (r < t ∧ A.getD r 0 < A.getD s 0)
  · have hrt : r < t := by
      rcases hg1 with hg1 | hg1
      · omega
      · exact hg1.1
    by_cases hg2 : n ≤ s ∨
        (r + 1 < t ∧ (A.set r (t + 1)).getD (r + 1) 0 < (A.set r (t + 1)).getD s 0)
    · -- both selects pick internal nodes
      have hrt1 : r + 1 < t := by
        rcases hg2 with hg2 | hg2
        · omega
        · exact hg2.1
      have hstep : mkStep n (A, s, r) t =
          (((A.set r (t + 1)).set (r + 1) (t + 1)).set t
            (A.getD r 0 + (A.set r (t + 1)).getD (r + 1) 0), s, r + 2) := by
        rw [mkStep_eq, mkSelect_pos hg1]
        rw [show ((A.getD r 0, (A.set r (t + 1), s, r + 1)) :
            Nat × (List Nat × Nat × Nat)).2 = (A.set r (t + 1), s, r + 1) from rfl]
        rw [mkSelect_pos hg2]
      rw [hstep]
      show P1Inv n (t + 1) _ s (r + 2)
      refine ⟨by simpa using hlen, by omega, hs, by omega, ?_, ?_, ?_⟩
      · intro j hj
        have hne_t : (t : Nat) ≠ j := by omega
        rcases Nat.lt_trichotomy j r with hjr | rfl | hjr
        · rw [getD_set_ne hne_t, getD_set_ne (by omega : r + 1 ≠ j),
            getD_set_ne (by omega : r ≠ j)]
          have := hpar j hjr
          omega
        · rw [getD_set_ne hne_t, getD_set_ne (by omega : j + 1 ≠ j),
            getD_set_self (by omega : j < A.length)]
          omega
        · have hj1 : j = r + 1 := by omega
          subst hj1
          rw [getD_set_ne hne_t,
            getD_set_self (by simpa using (by omega : r + 1 < A.length))]
          omega
      · intro j hj
        have hne_t : ∀ x : Nat, x ≤ r + 1 → (t : Nat) ≠ x := by omega
        rcases Nat.lt_trichotomy (j + 1) r with hjr | hje | hjr
        · rw [getD_set_ne (hne_t j (by omega)), getD_set_ne (by omega : r + 1 ≠ j),
            getD_set_ne (by omega : r ≠ j),
            getD_set_ne (hne_t (j + 1) (by omega)),
            getD_set_ne (by omega : r + 1 ≠ j + 1), getD_set_ne (by omega : r ≠ j + 1)]
          exact hmono j hjr
        · subst hje
          rw [getD_set_ne (hne_t j (by omega)), getD_set_ne (by omega : j + 1 + 1 ≠ j),
            getD_set_ne (by omega : j + 1 ≠ j),
            getD_set_ne (hne_t (j + 1) (by omega)),
            getD_set_ne (by omega : j + 1 + 1 ≠ j + 1),
            getD_set_self (by omega : j + 1 < A.length)]
          have := hpar j (by omega)
          omega
        · have hje : j = r := by omega
          subst hje
          rw [getD_set_ne (hne_t j (by omega)), getD_set_ne (by omega : j + 1 ≠ j),
            getD_set_self (by omega : j < A.length),
            getD_set_ne (hne_t (j + 1) (by omega)),
            getD_set_self (by simpa using (by omega : j + 1 < A.length))]
      · intro j hj
        have hne_t : ∀ x : Nat, x ≤ r + 1 → (t : Nat) ≠ x := by omega
        rcases Nat.lt_trichotomy (j + 2) r with hjr | hje | hjr
        · rw [getD_set_ne (hne_t j (by omega)), getD_set_ne (by omega : r + 1 ≠ j),
            getD_set_ne (by omega : r ≠ j),
            getD_set_ne (hne_t (j + 2) (by omega)),
            getD_set_ne (by omega : r + 1 ≠ j + 2), getD_set_ne (by omega : r ≠ j + 2)]
          exact hgap j hjr
        · subst hje
          rw [getD_set_ne (hne_t j (by omega)), getD_set_ne (by omega : j + 2 + 1 ≠ j),
            getD_set_ne (by omega : j + 2 ≠ j),
            getD_set_ne (hne_t (j + 2) (by omega)),
            getD_set_ne (by omega : j + 2 + 1 ≠ j + 2),
            getD_set_self (by omega : j + 2 < A.length)]
          have := hpar j (by omega)
          omega
        · rw [getD_set_ne (hne_t j (by omega)), getD_set_ne (by omega : r + 1 ≠ j),
            getD_set_ne (by omega : r ≠ j),
            getD_set_ne (hne_t (j + 2) (by omega)), (by omega : j + 2 = r + 1),
            getD_set_self (by simpa using (by omega : r + 1 < A.length))]
          have := hpar j (by omega)
          omega
    · -- first select internal, second leaf
      have hstep : mkStep n (A, s, r) t =
          ((A.set r (t + 1)).set t
            (A.getD r 0 + (A.set r (t + 1)).getD s 0), s + 1, r + 1) := by
        rw [mkStep_eq, mkSelect_pos hg1]
        rw [show ((A.getD r 0, (A.set r (t + 1), s, r + 1)) :
            Nat × (List Nat × Nat × Nat)).2 = (A.set r (t + 1), s, r + 1) from rfl]
        rw [mkSelect_neg hg2]
      rw [hstep]
      show P1Inv n (t + 1) _ (s + 1) (r + 1)
      refine ⟨by simpa using hlen, by omega, by omega, by omega, ?_, ?_, ?_⟩
      · intro j hj
        have hne_t : (t : Nat) ≠ j := by omega
        rcases Nat.lt_trichotomy j r with hjr | rfl | hjr
        · rw [getD_set_ne hne_t, getD_set_ne (by omega : r ≠ j)]
          have := hpar j hjr
          omega
        · rw [getD_set_ne hne_t, getD_set_self (by omega : j < A.length)]
          omega
        · omega
      · intro j hj
        rcases Nat.lt_trichotomy (j + 1) r with hjr | hje | hjr
        · rw [getD_set_ne (by omega : (t : Nat) ≠ j), getD_set_ne (by omega : r ≠ j),
            getD_set_ne (by omega : (t : Nat) ≠ j + 1), getD_set_ne (by omega : r ≠ j + 1)]
          exact hmono j hjr
        · subst hje
          rw [getD_set_ne (by omega : (t : Nat) ≠ j), getD_set_ne (by omega : j + 1 ≠ j),
            getD_set_ne (by omega : (t : Nat) ≠ j + 1),
            getD_set_self (by omega : j + 1 < A.length)]
          have := hpar j (by omega)
          omega
        · omega
      · intro j hj
        rcases Nat.lt_trichotomy (j + 2) r with hjr | hje | hjr
        · rw [getD_set_ne (by omega : (t : Nat) ≠ j), getD_set_ne (by omega : r ≠ j),
            getD_set_ne (by omega : (t : Nat) ≠ j + 2), getD_set_ne (by omega : r ≠ j + 2)]
          exact hgap j hjr
        · subst hje
          rw [getD_set_ne (by omega : (t : Nat) ≠ j), getD_set_ne (by omega : j + 2 ≠ j),
            getD_set_ne (by omega : (t : Nat) ≠ j + 2),
            getD_set_self (by omega : j + 2 < A.length)]
          have := hpar j (by omega)
          omega
        · omega
  · have hs' : s < n := by
      rcases Nat.lt_or_ge s n with h' | h'
      · exact h'
      · exact absurd (Or.inl h') hg1
    by_cases hg2 : n ≤ s + 1 ∨ (r < t ∧ A.getD r 0 < A.getD (s + 1) 0)
    · -- first select leaf, second internal
      have hrt : r < t := by
        rcases hg2 with hg2 | hg2
        · omega
        · exact hg2.1
      have hstep : mkStep n (A, s, r) t =
          ((A.set r (t + 1)).set t
            (A.getD s 0 + A.getD r 0), s + 1, r + 1) := by
        rw [mkStep_eq, mkSelect_neg hg1]
        rw [show ((A.getD s 0, (A, s + 1, r)) :
            Nat × (List Nat × Nat × Nat)).2 = (A, s + 1, r) from rfl]
        rw [mkSelect_pos hg2]
      rw [hstep]
      show P1Inv n (t + 1) _ (s + 1) (r + 1)
      refine ⟨by simpa using hlen, by omega, by omega, by omega, ?_, ?_, ?_⟩
      · intro j hj
        have hne_t : (t : Nat) ≠ j := by omega
        rcases Nat.lt_trichotomy j r with hjr | rfl | hjr
        · rw [getD_set_ne hne_t, getD_set_ne (by omega : r ≠ j)]
          have := hpar j hjr
          omega
        · rw [getD_set_ne hne_t, getD_set_self (by omega : j < A.length)]
          omega
        · omega
      · intro j hj
        rcases Nat.lt_trichotomy (j + 1) r with hjr | hje | hjr
        · rw [getD_set_ne (by omega : (t : Nat) ≠ j), getD_set_ne (by omega : r ≠ j),
            getD_set_ne (by omega : (t : Nat) ≠ j + 1), getD_set_ne (by omega : r ≠ j + 1)]
          exact hmono j hjr
        · subst hje
          rw [getD_set_ne (by omega : (t : Nat) ≠ j), getD_set_ne (by omega : j + 1 ≠ j),
            getD_set_ne (by omega : (t : Nat) ≠ j + 1),
            getD_set_self (by omega : j + 1 < A.length)]
          have := hpar j (by omega)
          omega
        · omega
      · intro j hj
        rcases Nat.lt_trichotomy (j + 2) r with hjr | hje | hjr
        · rw [getD_set_ne (by omega : (t : Nat) ≠ j), getD_set_ne (by omega : r ≠ j),
            getD_set_ne (by omega : (t : Nat) ≠ j + 2), getD_set_ne (by omega : r ≠ j + 2)]
          exact hgap j hjr
        · subst hje
          rw [getD_set_ne (by omega : (t : Nat) ≠ j), getD_set_ne (by omega : j + 2 ≠ j),
            getD_set_ne (by omega : (t : Nat) ≠ j + 2),
            getD_set_self (by omega : j + 2 < A.length)]
          have := hpar j (by omega)
          omega
        · omega
    · -- both selects pick leaves
      have hs'' : s + 1 < n := by
        rcases Nat.lt_or_ge (s + 1) n with h' | h'
        · exact h'
        · exact absurd (Or.inl h') hg2
      have hstep : mkStep n (A, s, r) t =
          (A.set t (A.getD s 0 + A.getD (s + 1) 0), s + 2, r) := by
        rw [mkStep_eq, mkSelect_neg hg1]
        rw [show ((A.getD s 0, (A, s + 1, r)) :
            Nat × (List Nat × Nat × Nat)).2 = (A, s + 1, r) from rfl]
        rw [mkSelect_neg hg2]
      rw [hstep]
      show P1Inv n (t + 1) _ (s + 2) r
      refine ⟨by simpa using hlen, by omega, by omega, by omega, ?_, ?_, ?_⟩
      · intro j hj
        rw [getD_set_ne (by omega : (t : Nat) ≠ j)]
        have := hpar j hj
        omega
      · intro j hj
        rw [getD_set_ne (by omega : (t : Nat) ≠ j),
          getD_set_ne (by omega : (t : Nat) ≠ j + 1)]
        exact hmono j hj
      · intro j hj
        rw [getD_set_ne (by omega : (t : Nat) ≠ j),
          getD_set_ne (by omega : (t : Nat) ≠ j + 2)]
        exact hgap j hj

lemma foldl_range_inv {α : Type} (f : α → Nat → α) (P : Nat → α → Prop) :
    ∀ (n : Nat) (init : α), P 0 init →
    (∀ t a, t < n → P t a → P (t + 1) (f a t)) →
    P n ((List.range n).foldl f init) := by
  intro n
  induction n with
  | zero =>
    intro init h0 _
    simpa using h0
  | succ n ih =>
    intro init h0 hstep
    rw [List.range_succ, List.foldl_append]
    exact hstep n _ (Nat.lt_succ_self n)
      (ih init h0 (fun t a ht => hstep t a (Nat.lt_succ_of_lt ht)))

/-- Structure of the parent-pointer array after phase 1: for every
internal node `j < n - 2`, the 1-based parent index `A[j]` satisfies
`j + 2 ≤ A[j] ≤ n - 1`, parents are non-decreasing, and strictly
increase two positions apart. -/
lemma mkPhase1_spec (n : Nat) (A0 : List Nat) (hn : 2 ≤ n) (h0 : A0.length = n) :
    (mkPhase1 n A0).length = n ∧
    (∀ j, j < n - 2 →
      j + 2 ≤ (mkPhase1 n A0).getD j 0 ∧ (mkPhase1 n A0).getD j 0 ≤ n - 1) ∧
    (∀ j, j + 1 < n - 2 →
      (mkPhase1 n A0).getD j 0 ≤ (mkPhase1 n A0).getD (j + 1) 0) ∧
    (∀ j, j + 2 < n - 2 →
      (mkPhase1 n A0).getD j 0 < (mkPhase1 n A0).getD (j + 2) 0) := by
  have hinv := foldl_range_inv (mkStep n)
    (fun t st => P1Inv n t st.1 st.2.1 st.2.2) (n - 1) (A0, 0, 0)
    ⟨h0, by simp, by simp, by simp, by intro j hj; simp at hj,
     by intro j hj; simp at hj, by intro j hj; simp at hj⟩
    (fun t a ht hp => mkStep_inv n t hn (by omega) a hp)
  obtain ⟨hlen, hsum, hs, hr, hpar, hmono, hgap⟩ := hinv
  have hre : ((List.range (n - 1)).foldl (mkStep n) (A0, 0, 0)).2.2 = n - 2 := by
    omega
  rw [hre] at hpar hmono hgap
  rw [mkPhase1]
  refine ⟨hlen, ?_, hmono, hgap⟩
  intro j hj
  have := hpar j hj
  omega

/-- Parents are monotone over the whole internal range. -/
lemma mkPhase1_mono (n : Nat) (A0 : List Nat) (hn : 2 ≤ n) (h0 : A0.length = n) :
    ∀ a b, a ≤ b → b < n - 2 →
      (mkPhase1 n A0).getD a 0 ≤ (mkPhase1 n A0).getD b 0 := by
  obtain ⟨-, -, hmono, -⟩ := mkPhase1_spec n A0 hn h0
  have key : ∀ d a, a + d < n - 2 →
      (mkPhase1 n A0).getD a 0 ≤ (mkPhase1 n A0).getD (a + d) 0 := by
    intro d
    induction d with
    | zero =>
      intro a _
      simp
    | succ d ih =>
      intro a hd
      calc (mkPhase1 n A0).getD a 0 ≤ (mkPhase1 n A0).getD (a + d) 0 :=
            ih a (by omega)
        _ ≤ (mkPhase1 n A0).getD (a + d + 1) 0 := hmono (a + d) (by omega)
  intro a b hab hb
  have := key (b - a) a (by omega)
  rwa [Nat.add_sub_cancel' hab] at this

end Phase1
section Phase2a

/-- Behaviour of the descending conversion loop: positions at or above
`k` are unchanged, and each processed position ends up holding its
parent's final value plus one. -/
lemma mkPhase2aLoop_spec (k : Nat) (A : List Nat) (hk : k ≤ A.length)
    (hpar : ∀ j, j < k → j + 2 ≤ A.getD j 0) :
    (mkPhase2aLoop A k).length = A.length ∧
    (∀ j, k ≤ j → (mkPhase2aLoop A k).getD j 0 = A.getD j 0) ∧
    (∀ j, j < k → (mkPhase2aLoop A k).getD j 0
      = (mkPhase2aLoop A k).getD (A.getD j 0 - 1) 0 + 1) := by
  induction k generalizing A with
  | zero =>
    rw [mkPhase2aLoop]
    exact ⟨rfl, fun j _ => rfl, fun j hj => absurd hj (Nat.not_lt_zero j)⟩
  | succ k ih =>
    rw [mkPhase2aLoop]
    set A' := A.set k (A.getD (A.getD k 0 - 1) 0 + 1) with hA'
    have hlenA' : A'.length = A.length := by simp [hA']
    have hne : ∀ j, j ≠ k → A'.getD j 0 = A.getD j 0 := by
      intro j hj
      exact getD_set_ne (fun h => hj h.symm)
    have hself : A'.getD k 0 = A.getD (A.getD k 0 - 1) 0 + 1 :=
      getD_set_self (by omega)
    obtain ⟨ihlen, ihhigh, ihlow⟩ := ih A' (by omega)
      (fun j hj => by rw [hne j (by omega)]; exact hpar j (by omega))
    refine ⟨by rw [ihlen, hlenA'], ?_, ?_⟩
    · intro j hj
      rw [ihhigh j (by omega), hne j (by omega)]
    · intro j hj
      rcases Nat.lt_or_ge j k with hjk | hjk
      · rw [ihlow j hjk, hne j (by omega)]
      · have hjek : j = k := by omega
        subst hjek
        have hpj := hpar j (by omega)
        rw [ihhigh j (by omega), hself, ihhigh (A.getD j 0 - 1) (by omega),
          hne (A.getD j 0 - 1) (by omega)]

/-- Specification of phase 2a on the parent array: the root `n - 2` gets
depth 0 and every other internal node the depth of its parent plus
one. -/
lemma mkPhase2a_spec (n : Nat) (P : List Nat) (hn : 2 ≤ n) (hlen : P.length = n)
    (hpar : ∀ j, j < n - 2 → j + 2 ≤ P.getD j 0 ∧ P.getD j 0 ≤ n - 1) :
    (mkPhase2a n P).length = n ∧
    (mkPhase2a n P).getD (n - 2) 0 = 0 ∧
    (∀ j, n - 1 ≤ j → (mkPhase2a n P).getD j 0 = P.getD j 0) ∧
    (∀ j, j < n - 2 → (mkPhase2a n P).getD j 0
      = (mkPhase2a n P).getD (P.getD j 0 - 1) 0 + 1) := by
  rw [mkPhase2a]
  have hne : ∀ j, j ≠ n - 2 → (P.set (n - 2) 0).getD j 0 = P.getD j 0 := by
    intro j hj
    exact getD_set_ne (fun h => hj h.symm)
  obtain ⟨hl, hhigh, hlow⟩ := mkPhase2aLoop_spec (n - 2) (P.set (n - 2) 0)
    (by rw [List.length_set, hlen]; omega)
    (fun j hj => by rw [hne j (by omega)]; exact (hpar j hj).1)
  refine ⟨by simp [hl, hlen], ?_, ?_, ?_⟩
  · rw [hhigh (n - 2) le_rfl, getD_set_self (by rw [hlen]; omega)]
  · intro j hj
    rw [hhigh j (by omega), hne j (by omega)]
  · intro j hj
    rw [hlow j hj, hne j (by omega)]

end Phase2a

section DepthFacts

/-! Facts about an abstract depth array `D` over `n - 1` internal nodes
with parent map `par`: `D[n-2] = 0`, `D[j] = D[par j] + 1` for
`j < n - 2`, with `j + 1 ≤ par j ≤ n - 2`, `par` monotone and strictly
increasing two apart.  Instantiated with the phase 2a output. -/

/-- Number of internal nodes at depth `d` (huffencoder.c names it `u`). -/
def uCount (D : List Nat) (n d : Nat) : Nat :=
  ((Finset.range (n - 1)).filter (fun t => D.getD t 0 = d)).card

lemma depth_le (n : Nat) (D : List Nat) (par : Nat → Nat)
    (hpb : ∀ j, j < n - 2 → j + 1 ≤ par j ∧ par j ≤ n - 2)
    (hrec : ∀ j, j < n - 2 → D.getD j 0 = D.getD (par j) 0 + 1)
    (hroot : D.getD (n - 2) 0 = 0) :
    ∀ g j, j ≤ n - 2 → n - 2 - j ≤ g → D.getD j 0 ≤ n - 2 - j := by
  intro g
  induction g with
  | zero =>
    intro j hj hg
    have : j = n - 2 := by omega
    subst this
    omega
  | succ g ih =>
    intro j hj hg
    rcases Nat.lt_or_ge j (n - 2) with hjlt | hjge
    · have hb := hpb j hjlt
      have := ih (par j) hb.2 (by omega)
      rw [hrec j hjlt]
      omega
    · have : j = n - 2 := by omega
      subst this
      omega

lemma depth_pos (n : Nat) (D : List Nat) (par : Nat → Nat)
    (hrec : ∀ j, j < n - 2 → D.getD j 0 = D.getD (par j) 0 + 1) :
    ∀ j, j < n - 2 → 1 ≤ D.getD j 0 := by
  intro j hj
  rw [hrec j hj]
  omega

lemma depth_anti (n : Nat) (D : List Nat) (par : Nat → Nat)
    (hpb : ∀ j, j < n - 2 → j + 1 ≤ par j ∧ par j ≤ n - 2)
    (hrec : ∀ j, j < n - 2 → D.getD j 0 = D.getD (par j) 0 + 1)
    (hroot : D.getD (n - 2) 0 = 0)
    (hmono : ∀ a b, a ≤ b → b < n - 2 → par a ≤ par b) :
    ∀ g i, i ≤ n - 2 → n - 2 - i ≤ g →
      ∀ j, i ≤ j → j ≤ n - 2 → D.getD j 0 ≤ D.getD i 0 := by
  intro g
  induction g with
  | zero =>
    intro i hi hg j hij hj
    have h1 : i = n - 2 := by omega
    have h2 : j = n - 2 := by omega
    rw [h1, h2]
  | succ g ih =>
    intro i hi hg j hij hj
    rcases Nat.eq_or_lt_of_le hij with rfl | hij'
    · exact le_rfl
    rcases Nat.lt_or_ge i (n - 2) with hilt | hige
    · have hstep : D.getD (i + 1) 0 ≤ D.getD i 0 := by
        rcases Nat.lt_or_ge (i + 1) (n - 2) with h1lt | h1ge
        · rw [hrec i hilt, hrec (i + 1) h1lt]
          have hb := hpb i hilt
          have hb1 := hpb (i + 1) h1lt
          have hple : par i ≤ par (i + 1) := hmono i (i + 1) (by omega) h1lt
          have := ih (par i) hb.2 (by omega) (par (i + 1)) hple hb1.2
          omega
        · have he : i + 1 = n - 2 := by omega
          rw [he, hroot]
          exact Nat.zero_le _
      have htail : D.getD j 0 ≤ D.getD (i + 1) 0 :=
        ih (i + 1) (by omega) (by omega) j (by omega) hj
      exact le_trans htail hstep
    · omega

lemma depth_contig (n : Nat) (D : List Nat) (par : Nat → Nat)
    (hpb : ∀ j, j < n - 2 → j + 1 ≤ par j ∧ par j ≤ n - 2)
    (hrec : ∀ j, j < n - 2 → D.getD j 0 = D.getD (par j) 0 + 1)
    (hroot : D.getD (n - 2) 0 = 0) :
    ∀ g j, j ≤ n - 2 → n - 2 - j ≤ g → ∀ e, e ≤ D.getD j 0 →
      ∃ j2, j2 ≤ n - 2 ∧ D.getD j2 0 = e := by
  intro g
  induction g with
  | zero =>
    intro j hj hg e he
    have : j = n - 2 := by omega
    subst this
    rw [hroot] at he
    exact ⟨n - 2, le_rfl, by omega⟩
  | succ g ih =>
    intro j hj hg e he
    rcases Nat.eq_or_lt_of_le he with rfl | hlt
    · exact ⟨j, hj, rfl⟩
    · have hjlt : j < n - 2 := by
        rcases Nat.lt_or_ge j (n - 2) with h | h
        · exact h
        · exfalso
          have hje : j = n - 2 := by omega
          rw [hje, hroot] at hlt
          omega
      have hb := hpb j hjlt
      refine ih (par j) hb.2 (by omega) e ?_
      have := hrec j hjlt
      omega

lemma uCount_zero (n : Nat) (D : List Nat) (par : Nat → Nat) (hn : 2 ≤ n)
    (hrec : ∀ j, j < n - 2 → D.getD j 0 = D.getD (par j) 0 + 1)
    (hroot : D.getD (n - 2) 0 = 0) :
    uCount D n 0 = 1 := by
  have hset : ((Finset.range (n - 1)).filter (fun t => D.getD t 0 = 0)) = {n - 2} := by
    ext x
    simp only [Finset.mem_filter, Finset.mem_range, Finset.mem_singleton]
    constructor
    · rintro ⟨hx, hD⟩
      by_contra hne
      have hxlt : x < n - 2 := by omega
      have := depth_pos n D par hrec x hxlt
      omega
    · rintro rfl
      exact ⟨by omega, hroot⟩
  rw [uCount, hset, Finset.card_singleton]

lemma uCount_succ_le (n : Nat) (D : List Nat) (par : Nat → Nat)
    (hpb : ∀ j, j < n - 2 → j + 1 ≤ par j ∧ par j ≤ n - 2)
    (hrec : ∀ j, j < n - 2 → D.getD j 0 = D.getD (par j) 0 + 1)
    (hroot : D.getD (n - 2) 0 = 0)
    (hmono : ∀ a b, a ≤ b → b < n - 2 → par a ≤ par b)
    (hgap : ∀ j, j + 2 < n - 2 → par j < par (j + 2)) (d : Nat) :
    uCount D n (d + 1) ≤ 2 * uCount D n d := by
  have hmem : ∀ x ∈ (Finset.range (n - 1)).filter (fun t => D.getD t 0 = d + 1),
      x < n - 2 ∧ D.getD (par x) 0 = d := by
    intro x hx
    rw [Finset.mem_filter, Finset.mem_range] at hx
    have hxn2 : x < n - 2 := by
      rcases Nat.lt_or_ge x (n - 2) with h | h
      · exact h
      · have hxe : x = n - 2 := by omega
        rw [hxe, hroot] at hx
        omega
    have := hrec x hxn2
    exact ⟨hxn2, by omega⟩
  have himg : ((Finset.range (n - 1)).filter (fun t => D.getD t 0 = d + 1)).image par
      ⊆ (Finset.range (n - 1)).filter (fun t => D.getD t 0 = d) := by
    intro y hy
    rw [Finset.mem_image] at hy
    obtain ⟨x, hx, rfl⟩ := hy
    have h2 := hmem x hx
    have hb := hpb x h2.1
    rw [Finset.mem_filter, Finset.mem_range]
    exact ⟨by omega, h2.2⟩
  have hpair : ∀ x y, x < n - 1 → D.getD x 0 = d + 1 → y < n - 1 →
      D.getD y 0 = d + 1 → par x = par y → y ≤ x + 1 := by
    intro x y hxr hxd hyr hyd hpxy
    by_contra hc
    push_neg at hc
    have hx2 := hmem x (by rw [Finset.mem_filter, Finset.mem_range]; exact ⟨hxr, hxd⟩)
    have hy2 := hmem y (by rw [Finset.mem_filter, Finset.mem_range]; exact ⟨hyr, hyd⟩)
    have hgx : par x < par (x + 2) := hgap x (by omega)
    have hch : par (x + 2) ≤ par y := by
      rcases Nat.eq_or_lt_of_le (show x + 2 ≤ y by omega) with h' | h'
      · rw [h']
      · exact hmono (x + 2) y (by omega) hy2.1
    omega
  have hfib : ∀ a ∈ ((Finset.range (n - 1)).filter
        (fun t => D.getD t 0 = d + 1)).image par,
      (((Finset.range (n - 1)).filter (fun t => D.getD t 0 = d + 1)).filter
        (fun x => par x = a)).card ≤ 2 := by
    intro a _
    by_contra hc
    push_neg at hc
    obtain ⟨x, y, z, hx, hy, hz, hxy, hxz, hyz⟩ := Finset.two_lt_card_iff.mp hc
    simp only [Finset.mem_filter, Finset.mem_range] at hx hy hz
    have h1 := hpair x y hx.1.1 hx.1.2 hy.1.1 hy.1.2 (by rw [hx.2, hy.2])
    have h2 := hpair y x hy.1.1 hy.1.2 hx.1.1 hx.1.2 (by rw [hx.2, hy.2])
    have h3 := hpair x z hx.1.1 hx.1.2 hz.1.1 hz.1.2 (by rw [hx.2, hz.2])
    have h4 := hpair z x hz.1.1 hz.1.2 hx.1.1 hx.1.2 (by rw [hx.2, hz.2])
    have h5 := hpair y z hy.1.1 hy.1.2 hz.1.1 hz.1.2 (by rw [hy.2, hz.2])
    have h6 := hpair z y hz.1.1 hz.1.2 hy.1.1 hy.1.2 (by rw [hy.2, hz.2])
    omega
  calc uCount D n (d + 1)
      ≤ 2 * (((Finset.range (n - 1)).filter
          (fun t => D.getD t 0 = d + 1)).image par).card :=
        Finset.card_le_mul_card_image _ 2 hfib
    _ ≤ 2 * uCount D n d := by
        have := Finset.card_le_card himg
        rw [uCount]
        omega

end DepthFacts
section Expansion

/-- Partial Kraft sum of the already-assigned tail `[x1, n)` of the
expansion array, with depth budget `B`. -/
def kraftPart (n B : Nat) (A : List Nat) (x1 : Nat) : Nat :=
  ∑ j ∈ Finset.Ico x1 n, 2 ^ (B - A.getD j 0)

lemma mkExpandScan_spec (A : List Nat) (d : Nat) :
    ∀ t1 u0,
      (mkExpandScan A d t1 u0).1 ≤ t1 ∧
      (mkExpandScan A d t1 u0).2 + (mkExpandScan A d t1 u0).1 = u0 + t1 ∧
      (∀ j, (mkExpandScan A d t1 u0).1 ≤ j → j < t1 → A.getD j 0 = d) ∧
      (0 < (mkExpandScan A d t1 u0).1 →
        A.getD ((mkExpandScan A d t1 u0).1 - 1) 0 ≠ d) := by
  intro t1
  induction t1 with
  | zero =>
    intro u0
    rw [mkExpandScan]
    exact ⟨le_rfl, rfl, fun j h1 h2 => absurd h2 (Nat.not_lt_zero j),
      fun h => absurd h (by omega)⟩
  | succ t ih =>
    intro u0
    rw [mkExpandScan]
    by_cases hA : A.getD t 0 = d
    · rw [if_pos hA]
      obtain ⟨ih1, ih2, ih3, ih4⟩ := ih (u0 + 1)
      refine ⟨by omega, by omega, ?_, ih4⟩
      intro j h1 h2
      rcases Nat.lt_or_ge j t with h | h
      · exact ih3 j h1 h
      · have : j = t := by omega
        rw [this]
        exact hA
    · rw [if_neg hA]
      refine ⟨le_rfl, rfl, fun j h1 h2 => by omega, fun h => by simpa using hA⟩

lemma mkExpandAssign_spec (d : Nat) :
    ∀ a A x1 u, u ≤ a → a ≤ x1 →
      (mkExpandAssign d A x1 a u).2 = x1 - (a - u) ∧
      (mkExpandAssign d A x1 a u).1.length = A.length ∧
      (∀ j, j < x1 - (a - u) →
        (mkExpandAssign d A x1 a u).1.getD j 0 = A.getD j 0) ∧
      (∀ j, x1 ≤ j →
        (mkExpandAssign d A x1 a u).1.getD j 0 = A.getD j 0) ∧
      (∀ j, x1 - (a - u) ≤ j → j < x1 → j < A.length →
        (mkExpandAssign d A x1 a u).1.getD j 0 = d) := by
  intro a
  induction a with
  | zero =>
    intro A x1 u hu ha
    rw [mkExpandAssign, if_neg (by omega)]
    exact ⟨by omega, rfl, fun j h => rfl, fun j h => rfl, fun j h1 h2 h3 => by omega⟩
  | succ a ih =>
    intro A x1 u hu ha
    rw [mkExpandAssign]
    by_cases hcase : u < a + 1
    · rw [if_pos hcase]
      simp only [Nat.add_sub_cancel]
      obtain ⟨ih1, ih2, ih3, ih4, ih5⟩ :=
        ih (A.set (x1 - 1) d) (x1 - 1) u (by omega) (by omega)
      have hx : x1 - 1 - (a - u) = x1 - (a + 1 - u) := by omega
      refine ⟨by rw [ih1]; omega, by rw [ih2]; simp, ?_, ?_, ?_⟩
      · intro j hj
        rw [ih3 j (by omega), getD_set_ne (by omega : x1 - 1 ≠ j)]
      · intro j hj
        rw [ih4 j (by omega), getD_set_ne (by omega : x1 - 1 ≠ j)]
      · intro j hj1 hj2 hj3
        rcases Nat.lt_or_ge j (x1 - 1) with hj | hj
        · exact ih5 j (by omega) hj (by simpa using hj3)
        · have hje : j = x1 - 1 := by omega
          rw [hje, ih4 (x1 - 1) le_rfl, getD_set_self (by omega)]
    · rw [if_neg hcase]
      have : u = a + 1 := by omega
      subst this
      exact ⟨by omega, rfl, fun j h => rfl, fun j h => rfl,
        fun j h1 h2 h3 => by omega⟩

/-- Hypotheses about the depth array produced by phases 1 and 2a. -/
structure DepthCtx (n : Nat) (D : List Nat) (par : Nat → Nat) : Prop where
  hpb : ∀ j, j < n - 2 → j + 1 ≤ par j ∧ par j ≤ n - 2
  hrec : ∀ j, j < n - 2 → D.getD j 0 = D.getD (par j) 0 + 1
  hroot : D.getD (n - 2) 0 = 0
  hmono : ∀ a b, a ≤ b → b < n - 2 → par a ≤ par b
  hgap : ∀ j, j + 2 < n - 2 → par j < par (j + 2)

/-- Loop invariant of the depth expansion, at the head of an iteration
with pending count `a`, current depth `d`, write cursor `x1 = x + 1` and
scan cursor `t1 = t + 1`. -/
structure ExpInv (n : Nat) (D : List Nat) (A : List Nat) (a d x1 t1 : Nat) : Prop where
  len : A.length = n
  agree : ∀ j, j < t1 → A.getD j 0 = D.getD j 0
  t1le : t1 ≤ n - 1
  consumed : ∀ j, t1 ≤ j → j ≤ n - 2 → D.getD j 0 < d
  pending : ∀ j, j < t1 → d ≤ D.getD j 0
  acount : a = if d = 0 then 1 else 2 * uCount D n (d - 1)
  xeq : x1 = t1 + a
  xle : x1 ≤ n
  assigned : ∀ j, x1 ≤ j → j < n → 1 ≤ A.getD j 0 ∧ A.getD j 0 ≤ n - 1
  kraft : kraftPart n (n - 1) A x1 + a * 2 ^ (n - 1 - d) = 2 ^ (n - 1)
  dbound : 0 < a → d ≤ n - 1

lemma expInv_exit (n : Nat) (hn : 2 ≤ n) (D : List Nat) (par : Nat → Nat)
    (hD : DepthCtx n D par) (A : List Nat) (d x1 t1 : Nat)
    (hinv : ExpInv n D A 0 d x1 t1) :
    A.length = n ∧
    (∀ j, j < n → 1 ≤ A.getD j 0 ∧ A.getD j 0 ≤ n - 1) ∧
    kraftPart n (n - 1) A 0 = 2 ^ (n - 1) := by
  have hd0 : d ≠ 0 := by
    intro h
    have := hinv.acount
    rw [h] at this
    simp at this
  have hu0 : uCount D n (d - 1) = 0 := by
    have := hinv.acount
    rw [if_neg hd0] at this
    omega
  have ht1 : t1 = 0 := by
    by_contra ht
    have ht1le := hinv.t1le
    have hidx : t1 - 1 < t1 := by omega
    have hpend := hinv.pending (t1 - 1) hidx
    have hcd : d - 1 ≤ D.getD (t1 - 1) 0 := by omega
    obtain ⟨j2, hj2, hj2e⟩ := depth_contig n D par hD.hpb hD.hrec hD.hroot
      (n - 2 - (t1 - 1)) (t1 - 1) (by omega) le_rfl (d - 1) hcd
    have : j2 ∈ (Finset.range (n - 1)).filter (fun t => D.getD t 0 = d - 1) := by
      rw [Finset.mem_filter, Finset.mem_range]
      exact ⟨by omega, hj2e⟩
    have hpos : 0 < uCount D n (d - 1) := Finset.card_pos.mpr ⟨j2, this⟩
    omega
  have hx1 : x1 = 0 := by
    have := hinv.xeq
    omega
  refine ⟨hinv.len, ?_, ?_⟩
  · intro j hj
    exact hinv.assigned j (by omega) hj
  · have := hinv.kraft
    rw [hx1] at this
    simpa using this

lemma expInv_step (n : Nat) (hn : 2 ≤ n) (D : List Nat) (par : Nat → Nat)
    (hD : DepthCtx n D par) (A : List Nat) (a d x1 t1 : Nat)
    (hinv : ExpInv n D A a d x1 t1) (ha : a ≠ 0) :
    ExpInv n D (mkExpandAssign d A x1 a (mkExpandScan A d t1 0).2).1
      ((mkExpandScan A d t1 0).2 * 2) (d + 1)
      (mkExpandAssign d A x1 a (mkExpandScan A d t1 0).2).2
      (mkExpandScan A d t1 0).1 := by
  obtain ⟨hs1, hs2, hs3, hs4⟩ := mkExpandScan_spec A d t1 0
  set t1' := (mkExpandScan A d t1 0).1 with ht1'
  set u := (mkExpandScan A d t1 0).2 with hu
  -- scan facts transported to the depth array
  have hDrun : ∀ j, t1' ≤ j → j < t1 → D.getD j 0 = d := by
    intro j h1 h2
    rw [← hinv.agree j h2]
    exact hs3 j h1 h2
  have hpend' : ∀ j, j < t1' → d + 1 ≤ D.getD j 0 := by
    intro j hj
    have hbdy : d + 1 ≤ D.getD (t1' - 1) 0 := by
      have h1 : D.getD (t1' - 1) 0 ≠ d := by
        rw [← hinv.agree (t1' - 1) (by omega)]
        exact hs4 (by omega)
      have h2 : d ≤ D.getD (t1' - 1) 0 := hinv.pending (t1' - 1) (by omega)
      omega
    have := depth_anti n D par hD.hpb hD.hrec hD.hroot hD.hmono
      (n - 2 - j) j (by have := hinv.t1le; omega) le_rfl (t1' - 1) (by omega)
      (by have := hinv.t1le; omega)
    omega
  have hcons' : ∀ j, t1' ≤ j → j ≤ n - 2 → D.getD j 0 < d + 1 := by
    intro j h1 h2
    rcases Nat.lt_or_ge j t1 with h | h
    · rw [hDrun j h1 h]
      omega
    · have := hinv.consumed j h h2
      omega
  have hucount : uCount D n d = t1 - t1' := by
    have hset : (Finset.range (n - 1)).filter (fun t => D.getD t 0 = d)
        = Finset.Ico t1' t1 := by
      ext x
      rw [Finset.mem_filter, Finset.mem_range, Finset.mem_Ico]
      constructor
      · rintro ⟨hx, hxd⟩
        constructor
        · by_contra hlt
          have := hpend' x (by omega)
          omega
        · by_contra hge
          have := hinv.consumed x (by omega) (by omega)
          omega
      · rintro ⟨hx1, hx2⟩
        have := hinv.t1le
        exact ⟨by omega, hDrun x hx1 hx2⟩
    rw [uCount, hset, Nat.card_Ico]
  have hue : u = t1 - t1' := by omega
  have hau : u ≤ a := by
    rcases Nat.eq_zero_or_pos d with rfl | hd
    · have ha1 : a = 1 := by
        have := hinv.acount
        simpa using this
      have hu1 : uCount D n 0 = 1 := uCount_zero n D par hn hD.hrec hD.hroot
      omega
    · have hle := uCount_succ_le n D par hD.hpb hD.hrec hD.hroot hD.hmono hD.hgap (d - 1)
      have hde : d - 1 + 1 = d := by omega
      rw [hde] at hle
      have := hinv.acount
      rw [if_neg (by omega)] at this
      omega
  have hax : a ≤ x1 := by
    have := hinv.xeq
    omega
  obtain ⟨ha1, ha2, ha3, ha4, ha5⟩ := mkExpandAssign_spec d a A x1 u hau hax
  have hx1' : (mkExpandAssign d A x1 a u).2 = t1 + u := by
    rw [ha1]
    have := hinv.xeq
    omega
  -- the new depth can still be encoded when anything remains at depth d
  have hdB : 0 < u → d ≤ n - 2 := by
    intro hupos
    have hne : t1' < t1 := by omega
    have hx := hDrun t1' le_rfl hne
    have hle := depth_le n D par hD.hpb hD.hrec hD.hroot (n - 2 - t1') t1'
      (by have := hinv.t1le; omega) le_rfl
    omega
  constructor
  · rw [ha2, hinv.len]
  · intro j hj
    rw [ha3 j (by omega)]
    exact hinv.agree j (by omega)
  · have := hinv.t1le
    omega
  · exact hcons'
  · exact hpend'
  · rw [if_neg (by omega)]
    have : d + 1 - 1 = d := by omega
    rw [this, hucount]
    omega
  · rw [hx1']
    omega
  · rw [hx1']
    have := hinv.xeq
    have := hinv.xle
    omega
  · intro j hj1 hj2
    rw [hx1'] at hj1
    rcases Nat.lt_or_ge j x1 with hj | hj
    · have hjd : (mkExpandAssign d A x1 a u).1.getD j 0 = d := by
        refine ha5 j ?_ hj (by rw [hinv.len]; exact hj2)
        have := hinv.xeq
        omega
      rw [hjd]
      have hd1 : 1 ≤ d := by
        rcases Nat.eq_zero_or_pos d with rfl | h
        · exfalso
          have ha1' : a = 1 := by simpa using hinv.acount
          have hu1 : uCount D n 0 = 1 := uCount_zero n D par hn hD.hrec hD.hroot
          have := hinv.xeq
          omega
        · exact h
      exact ⟨hd1, hinv.dbound (by omega)⟩
    · rw [ha4 j hj]
      exact hinv.assigned j hj hj2
  · -- Kraft bookkeeping
    have hxle : (mkExpandAssign d A x1 a u).2 ≤ x1 := by
      rw [ha1]
      omega
    have hsplit : kraftPart n (n - 1) (mkExpandAssign d A x1 a u).1
        (mkExpandAssign d A x1 a u).2 =
        (∑ j ∈ Finset.Ico (mkExpandAssign d A x1 a u).2 x1,
          2 ^ (n - 1 - (mkExpandAssign d A x1 a u).1.getD j 0)) +
        (∑ j ∈ Finset.Ico x1 n,
          2 ^ (n - 1 - (mkExpandAssign d A x1 a u).1.getD j 0)) := by
      rw [kraftPart, Finset.sum_Ico_consecutive _ hxle hinv.xle]
    have hhigh : (∑ j ∈ Finset.Ico x1 n,
        2 ^ (n - 1 - (mkExpandAssign d A x1 a u).1.getD j 0))
        = kraftPart n (n - 1) A x1 := by
      rw [kraftPart]
      refine Finset.sum_congr rfl ?_
      intro j hj
      rw [Finset.mem_Ico] at hj
      rw [ha4 j hj.1]
    have hmid : (∑ j ∈ Finset.Ico (mkExpandAssign d A x1 a u).2 x1,
        2 ^ (n - 1 - (mkExpandAssign d A x1 a u).1.getD j 0))
        = (a - u) * 2 ^ (n - 1 - d) := by
      have hconst : ∀ j ∈ Finset.Ico (mkExpandAssign d A x1 a u).2 x1,
          2 ^ (n - 1 - (mkExpandAssign d A x1 a u).1.getD j 0)
            = 2 ^ (n - 1 - d) := by
        intro j hj
        rw [Finset.mem_Ico] at hj
        rw [ha5 j (by rw [← ha1]; exact hj.1) hj.2
          (by rw [hinv.len]; have := hinv.xle; omega)]
      rw [Finset.sum_congr rfl hconst, Finset.sum_const, Nat.card_Ico, smul_eq_mul,
        ha1]
      have := hinv.xeq
      have : x1 - (x1 - (a - u)) = a - u := by omega
      rw [this]
    rw [hsplit, hhigh, hmid]
    rcases Nat.eq_zero_or_pos u with hu0 | hupos
    · rw [hu0]
      simp only [Nat.sub_zero, Nat.mul_zero, Nat.zero_mul, Nat.add_zero]
      rw [Nat.add_comm]
      exact hinv.kraft
    · have hd2 : d ≤ n - 2 := hdB hupos
      have hpow : 2 ^ (n - 1 - d) = 2 * 2 ^ (n - 1 - (d + 1)) := by
        have : n - 1 - d = (n - 1 - (d + 1)) + 1 := by omega
        rw [this, pow_succ]
        ring
      have hk := hinv.kraft
      calc (a - u) * 2 ^ (n - 1 - d) + kraftPart n (n - 1) A x1
            + u * 2 * 2 ^ (n - 1 - (d + 1))
          = (a - u) * 2 ^ (n - 1 - d) + kraftPart n (n - 1) A x1
            + u * 2 ^ (n - 1 - d) := by rw [hpow]; ring
        _ = kraftPart n (n - 1) A x1 + a * 2 ^ (n - 1 - d) := by
            have : (a - u) * 2 ^ (n - 1 - d) + u * 2 ^ (n - 1 - d)
                = a * 2 ^ (n - 1 - d) := by
              rw [← Nat.add_mul]
              congr 1
              omega
            omega
        _ = 2 ^ (n - 1) := hk
  · intro hpos
    have hupos : 0 < u := by omega
    have := hdB hupos
    omega

lemma mkExpandLoop_master (n : Nat) (hn : 2 ≤ n) (D : List Nat) (par : Nat → Nat)
    (hD : DepthCtx n D par) :
    ∀ fuel A a d x1 t1, ExpInv n D A a d x1 t1 → n + 2 ≤ d + fuel →
      (mkExpandLoop A a d x1 t1 fuel).length = n ∧
      (∀ j, j < n → 1 ≤ (mkExpandLoop A a d x1 t1 fuel).getD j 0 ∧
        (mkExpandLoop A a d x1 t1 fuel).getD j 0 ≤ n - 1) ∧
      kraftPart n (n - 1) (mkExpandLoop A a d x1 t1 fuel) 0 = 2 ^ (n - 1) := by
  intro fuel
  induction fuel with
  | zero =>
    intro A a d x1 t1 hinv hfuel
    rcases Nat.eq_zero_or_pos a with rfl | hapos
    · rw [mkExpandLoop]
      exact expInv_exit n hn D par hD A d x1 t1 hinv
    · exfalso
      have := hinv.dbound hapos
      omega
  | succ fuel ih =>
    intro A a d x1 t1 hinv hfuel
    rw [mkExpandLoop]
    by_cases ha : a = 0
    · rw [if_pos ha]
      subst ha
      exact expInv_exit n hn D par hD A d x1 t1 hinv
    · rw [if_neg ha]
      exact ih _ _ _ _ _ (expInv_step n hn D par hD A a d x1 t1 hinv ha) (by omega)

/-- Master theorem for the Moffat-Katajainen code-length computation:
for `n ≥ 2` input weights, every produced code length is between 1 and
`n - 1` and the lengths satisfy the exact Kraft equality at precision
`n - 1`. -/
theorem mkLens_spec (n : Nat) (hn : 2 ≤ n) (A0 : List Nat) (h0 : A0.length = n) :
    (mkLens n A0).length = n ∧
    (∀ j, j < n → 1 ≤ (mkLens n A0).getD j 0 ∧ (mkLens n A0).getD j 0 ≤ n - 1) ∧
    kraftPart n (n - 1) (mkLens n A0) 0 = 2 ^ (n - 1) := by
  obtain ⟨hPlen, hPpar, hPmono, hPgap⟩ := mkPhase1_spec n A0 hn h0
  have hmono' := mkPhase1_mono n A0 hn h0
  obtain ⟨hDlen, hDroot, hDhigh, hDrec⟩ := mkPhase2a_spec n (mkPhase1 n A0) hn hPlen hPpar
  have hD : DepthCtx n (mkPhase2a n (mkPhase1 n A0))
      (fun j => (mkPhase1 n A0).getD j 0 - 1) := by
    refine ⟨?_, ?_, hDroot, ?_, ?_⟩
    · intro j hj
      have := hPpar j hj
      omega
    · exact hDrec
    · intro a b hab hb
      have h1 := hmono' a b hab hb
      omega
    · intro j hj
      have h1 := hPgap j hj
      have h2 := hPpar j (by omega)
      omega
  have hinit : ExpInv n (mkPhase2a n (mkPhase1 n A0))
      (mkPhase2a n (mkPhase1 n A0)) 1 0 n (n - 1) := by
    refine ⟨hDlen, fun j hj => rfl, le_rfl, ?_, ?_, by simp, by omega, le_rfl,
      ?_, ?_, by omega⟩
    · intro j h1 h2
      omega
    · intro j hj
      omega
    · intro j h1 h2
      omega
    · rw [kraftPart, Finset.Ico_self, Finset.sum_empty]
      simp
  have := mkExpandLoop_master n hn (mkPhase2a n (mkPhase1 n A0))
    (fun j => (mkPhase1 n A0).getD j 0 - 1) hD (n + 2)
    (mkPhase2a n (mkPhase1 n A0)) 1 0 n (n - 1) hinit (by omega)
  rw [mkLens]
  exact this

end Expansion
section EstimateSpec

lemma getD_replicate_zero (n s : Nat) : (List.replicate n (0 : Nat)).getD s 0 = 0 := by
  rcases Nat.lt_or_ge s n with h | h
  · rw [List.getD_eq_getElem _ _ (by simpa using h), List.getElem_replicate]
  · rw [List.getD_eq_default _ _ (by simpa using h)]

/-- Behaviour of the scatter fold from any starting array: positions
outside `q` keep their value, position `q[i]` receives `A[i]`. -/
lemma scatterFold_spec :
    ∀ (q A : List Nat) (lens0 : List Nat), q.Nodup → q.length = A.length →
      (∀ x, x ∈ q → x < lens0.length) →
      ((q.zip A).foldl (fun l p => l.set p.1 p.2) lens0).length = lens0.length ∧
      (∀ s, s ∉ q →
        ((q.zip A).foldl (fun l p => l.set p.1 p.2) lens0).getD s 0 = lens0.getD s 0) ∧
      (∀ i, i < q.length →
        ((q.zip A).foldl (fun l p => l.set p.1 p.2) lens0).getD (q.getD i 0) 0
          = A.getD i 0) := by
  intro q
  induction q with
  | nil =>
    intro A lens0 hnd hlen hmem
    exact ⟨rfl, fun s hs => rfl, fun i hi => absurd hi (by simp)⟩
  | cons a q ih =>
    intro A lens0 hnd hlen hmem
    rcases A with - | ⟨v, A'⟩
    · simp at hlen
    have hnd' : q.Nodup := (List.nodup_cons.mp hnd).2
    have hna : a ∉ q := (List.nodup_cons.mp hnd).1
    have halen : a < lens0.length := hmem a (List.mem_cons_self a q)
    obtain ⟨ih1, ih2, ih3⟩ := ih A' (lens0.set a v) hnd' (by simpa using hlen)
      (fun x hx => by rw [List.length_set]; exact hmem x (List.mem_cons_of_mem a hx))
    rw [List.zip_cons_cons, List.foldl_cons]
    refine ⟨by rw [ih1, List.length_set], ?_, ?_⟩
    · intro s hs
      rw [List.mem_cons] at hs
      push_neg at hs
      rw [ih2 s hs.2, getD_set_ne (fun h => hs.1 h.symm)]
    · intro i hi
      rcases i with - | i
      · rw [List.getD_cons_zero, ih2 a hna, getD_set_self halen, List.getD_cons_zero]
      · rw [List.getD_cons_succ, List.getD_cons_succ]
        exact ih3 i (by simpa using hi)

/-- Kraft-style sum over the index list `q`. -/
def kraftQ (L : Nat) (q lens : List Nat) : Nat :=
  ∑ i ∈ Finset.range q.length, 2 ^ (L - lens.getD (q.getD i 0) 0)

lemma list_map_sum_eq_range_sum (f : Nat → Nat) (q : List Nat) :
    (q.map f).sum = ∑ i ∈ Finset.range q.length, f (q.getD i 0) := by
  induction q with
  | nil => simp
  | cons a q ih =>
    rw [List.map_cons, List.sum_cons, ih, List.length_cons, Finset.sum_range_succ']
    simp only [List.getD_cons_succ, List.getD_cons_zero]
    omega

/-- The Kraft sum over all symbols equals the Kraft sum over any
duplicate-free index list holding exactly the symbols with a nonzero
length. -/
lemma kraftSum_eq_kraftQ (L : Nat) (lens q : List Nat) (hnd : q.Nodup)
    (hlen : ∀ x, x ∈ q → x < lens.length)
    (hiff : ∀ s, lens.getD s 0 ≠ 0 ↔ s ∈ q) :
    kraftSum L lens = kraftQ L q lens := by
  have hndF : ((List.range lens.length).filter
      (fun s => lens.getD s 0 ≠ 0)).Nodup := by
    exact (List.nodup_range _).filter _
  have hmemF : ∀ s, s ∈ (List.range lens.length).filter
      (fun s => lens.getD s 0 ≠ 0) ↔ s ∈ q := by
    intro s
    rw [List.mem_filter, List.mem_range]
    constructor
    · rintro ⟨h1, h2⟩
      exact (hiff s).mp (by simpa using h2)
    · intro hs
      exact ⟨hlen s hs, by simpa using (hiff s).mpr hs⟩
  have hperm : ((List.range lens.length).filter
      (fun s => lens.getD s 0 ≠ 0)).Perm q := by
    rw [List.perm_ext_iff_of_nodup hndF hnd]
    exact hmemF
  rw [kraftSum, kraftQ]
  have h1 : (((List.range lens.length).filter (fun s => lens.getD s 0 ≠ 0)).map
      (fun s => 2 ^ (L - lens.getD s 0))).sum
      = (q.map (fun s => 2 ^ (L - lens.getD s 0))).sum := (hperm.map _).sum_eq
  rw [h1, list_map_sum_eq_range_sum]

/-- Specification of `estimateDynamicCodelens` with at least two used
symbols: exactly the used symbols get a length, lengths are at most
`m - 1`, and the Kraft equality holds at precision `m - 1` over the
sorted index list. -/
lemma estimate_spec (nSymbols : Nat) (entropy : List Nat)
    (hm : 2 ≤ ((List.range nSymbols).filter (fun i => entropy.getD i 0 ≠ 0)).length) :
    (estimateDynamicCodelens nSymbols entropy).length = nSymbols ∧
    (∀ s, (estimateDynamicCodelens nSymbols entropy).getD s 0 ≠ 0 ↔
      s ∈ (List.range nSymbols).filter (fun i => entropy.getD i 0 ≠ 0)) ∧
    (∀ s, (estimateDynamicCodelens nSymbols entropy).getD s 0 ≤
      ((List.range nSymbols).filter (fun i => entropy.getD i 0 ≠ 0)).length - 1) ∧
    kraftQ (((List.range nSymbols).filter (fun i => entropy.getD i 0 ≠ 0)).length - 1)
      (sortIndices entropy ((List.range nSymbols).filter (fun i => entropy.getD i 0 ≠ 0)))
      (estimateDynamicCodelens nSymbols entropy)
      = 2 ^ (((List.range nSymbols).filter (fun i => entropy.getD i 0 ≠ 0)).length - 1) := by
  set q0 := (List.range nSymbols).filter (fun i => entropy.getD i 0 ≠ 0) with hq0
  set m := q0.length with hmdef
  set qs := sortIndices entropy q0 with hqs
  set A0 := qs.map (fun i => entropy.getD i 0) with hA0
  have hperm : qs.Perm q0 := sortIndices_perm entropy q0
  have hqs_len : qs.length = m := by rw [hperm.length_eq]
  have hqs_nd : qs.Nodup := (hperm.nodup_iff).mpr ((List.nodup_range _).filter _)
  have hqs_mem : ∀ x, x ∈ qs → x < nSymbols := by
    intro x hx
    have : x ∈ q0 := hperm.mem_iff.mp hx
    rw [hq0, List.mem_filter, List.mem_range] at this
    exact this.1
  have hA0_len : A0.length = m := by rw [hA0, List.length_map, hqs_len]
  obtain ⟨hRlen, hRvals, hRkraft⟩ := mkLens_spec m (by omega) A0 hA0_len
  have heq : estimateDynamicCodelens nSymbols entropy
      = scatterLens nSymbols qs (mkLens m A0) := by
    rw [estimateDynamicCodelens]
    rw [if_pos (by rw [← hq0, ← hmdef]; omega)]
  obtain ⟨hs1, hs2, hs3⟩ := scatterFold_spec qs (mkLens m A0)
    (List.replicate nSymbols 0) hqs_nd (by rw [hqs_len, hRlen])
    (fun x hx => by rw [List.length_replicate]; exact hqs_mem x hx)
  have hlen : (estimateDynamicCodelens nSymbols entropy).length = nSymbols := by
    rw [heq, scatterLens, hs1, List.length_replicate]
  have hvalq : ∀ i, i < m →
      (estimateDynamicCodelens nSymbols entropy).getD (qs.getD i 0) 0
        = (mkLens m A0).getD i 0 := by
    intro i hi
    rw [heq, scatterLens]
    exact hs3 i (by omega)
  have hval0 : ∀ s, s ∉ qs →
      (estimateDynamicCodelens nSymbols entropy).getD s 0 = 0 := by
    intro s hs
    rw [heq, scatterLens, hs2 s hs, getD_replicate_zero]
  have hiff : ∀ s, (estimateDynamicCodelens nSymbols entropy).getD s 0 ≠ 0 ↔
      s ∈ q0 := by
    intro s
    constructor
    · intro hne
      by_contra hs
      exact hne (hval0 s (fun h => hs (hperm.mem_iff.mp h)))
    · intro hs
      have hsqs : s ∈ qs := hperm.mem_iff.mpr hs
      obtain ⟨i, hi, hie⟩ := List.getElem_of_mem hsqs
      have hgd : qs.getD i 0 = s := by
        rw [List.getD_eq_getElem _ _ hi, hie]
      rw [← hgd, hvalq i (by omega)]
      have := (hRvals i (by omega)).1
      omega
  refine ⟨hlen, hiff, ?_, ?_⟩
  · intro s
    by_cases hs : s ∈ qs
    · obtain ⟨i, hi, hie⟩ := List.getElem_of_mem hs
      have hgd : qs.getD i 0 = s := by
        rw [List.getD_eq_getElem _ _ hi, hie]
      rw [← hgd, hvalq i (by omega)]
      exact (hRvals i (by omega)).2
    · rw [hval0 s hs]
      omega
  · rw [kraftQ, hqs_len]
    have hcong : ∀ i ∈ Finset.range m,
        2 ^ (m - 1 - (estimateDynamicCodelens nSymbols entropy).getD (qs.getD i 0) 0)
          = 2 ^ (m - 1 - (mkLens m A0).getD i 0) := by
      intro i hi
      rw [Finset.mem_range] at hi
      rw [hvalq i hi]
    rw [Finset.sum_congr rfl hcong]
    rw [kraftPart] at hRkraft
    rw [← hRkraft]
    rw [Finset.range_eq_Ico]

end EstimateSpec
section LimitLemmas

/-- Kraft number as accumulated by the limiter (`maxk >> len` terms). -/
def kraftS (L : Nat) (q lens : List Nat) : Nat :=
  ∑ j ∈ Finset.range q.length, 2 ^ L >>> lens.getD (q.getD j 0) 0

lemma shiftRight_pow {L v : Nat} (h : v ≤ L) : 2 ^ L >>> v = 2 ^ (L - v) := by
  rw [Nat.shiftRight_eq_div_pow, Nat.pow_div h (by norm_num)]

lemma shiftRight_pos {L v : Nat} (h : v ≤ L) : 1 ≤ 2 ^ L >>> v := by
  rw [shiftRight_pow h]
  exact Nat.one_le_two_pow

lemma shiftRight_double {L v : Nat} (h : v < L) :
    2 ^ L >>> v = 2 * (2 ^ L >>> (v + 1)) := by
  rw [shiftRight_pow (le_of_lt h), shiftRight_pow (by omega)]
  have he : L - v = (L - (v + 1)) + 1 := by omega
  rw [he, pow_succ]
  ring

lemma nodup_getD_ne {q : List Nat} (hnd : q.Nodup) {j1 j2 : Nat}
    (h1 : j1 < q.length) (h2 : j2 < q.length) (hne : j1 ≠ j2) :
    q.getD j1 0 ≠ q.getD j2 0 := by
  rw [List.getD_eq_getElem _ _ h1, List.getD_eq_getElem _ _ h2]
  intro he
  exact hne ((List.Nodup.getElem_inj_iff hnd).mp he)

/-- Updating the length of the `i`-th queued symbol changes the Kraft
number by swapping that symbol's term. -/
lemma kraftS_set_add (L : Nat) (q lens : List Nat) (hnd : q.Nodup) (i : Nat)
    (hi : i < q.length) (w : Nat) (hidx : q.getD i 0 < lens.length) :
    kraftS L q (lens.set (q.getD i 0) w) + 2 ^ L >>> lens.getD (q.getD i 0) 0
      = kraftS L q lens + 2 ^ L >>> w := by
  have hterm : (lens.set (q.getD i 0) w).getD (q.getD i 0) 0 = w :=
    getD_set_self hidx
  have herase : ∀ j ∈ (Finset.range q.length).erase i,
      2 ^ L >>> (lens.set (q.getD i 0) w).getD (q.getD j 0) 0
        = 2 ^ L >>> lens.getD (q.getD j 0) 0 := by
    intro j hj
    rw [Finset.mem_erase, Finset.mem_range] at hj
    rw [getD_set_ne (nodup_getD_ne hnd hi hj.2 (fun h => hj.1 h.symm))]
  rw [kraftS, kraftS,
    ← Finset.sum_erase_add (Finset.range q.length) _ (Finset.mem_range.mpr hi),
    ← Finset.sum_erase_add (Finset.range q.length)
      (fun j => 2 ^ L >>> lens.getD (q.getD j 0) 0) (Finset.mem_range.mpr hi),
    Finset.sum_congr rfl herase, hterm]
  omega

/-- A single queued term is at most the Kraft number. -/
lemma kraftS_term_le (L : Nat) (q lens : List Nat) (i : Nat) (hi : i < q.length) :
    2 ^ L >>> lens.getD (q.getD i 0) 0 ≤ kraftS L q lens := by
  rw [kraftS]
  exact @Finset.single_le_sum Nat Nat _
    (fun j => 2 ^ L >>> lens.getD (q.getD j 0) 0) (Finset.range q.length)
    (fun j _ => Nat.zero_le _) i (Finset.mem_range.mpr hi)

/-- With every queued length at most `L`, the Kraft number is at least
the symbol count plus the excess of any one term over 1. -/
lemma kraftS_lower (L : Nat) (q lens : List Nat) (i : Nat) (hi : i < q.length)
    (hvals : ∀ j, j < q.length → lens.getD (q.getD j 0) 0 ≤ L) :
    2 ^ L >>> lens.getD (q.getD i 0) 0 + (q.length - 1) ≤ kraftS L q lens := by
  have hsub : ∑ j ∈ (Finset.range q.length).erase i, (1 : Nat)
      ≤ ∑ j ∈ (Finset.range q.length).erase i,
        2 ^ L >>> lens.getD (q.getD j 0) 0 := by
    refine Finset.sum_le_sum ?_
    intro j hj
    rw [Finset.mem_erase, Finset.mem_range] at hj
    exact shiftRight_pos (hvals j hj.2)
  rw [Finset.sum_const, Finset.card_erase_of_mem (Finset.mem_range.mpr hi),
    Finset.card_range, smul_eq_mul, mul_one] at hsub
  have hsplit : (∑ j ∈ (Finset.range q.length).erase i,
        2 ^ L >>> lens.getD (q.getD j 0) 0)
      + 2 ^ L >>> lens.getD (q.getD i 0) 0
      = ∑ j ∈ Finset.range q.length, 2 ^ L >>> lens.getD (q.getD j 0) 0 :=
    Finset.sum_erase_add (Finset.range q.length) _ (Finset.mem_range.mpr hi)
  rw [kraftS]
  omega

/-- Specification of the capping pass: each queued symbol's length is
capped to `L`, other positions are unchanged, and the returned Kraft
number adds up the capped terms. -/
lemma capLoop_spec (L : Nat) (q : List Nat) (hnd : q.Nodup) :
    ∀ i lens k, i ≤ q.length → (∀ x, x ∈ q → x < lens.length) →
      (capLoop L q lens k i).1.length = lens.length ∧
      (∀ s, (∀ j, j < i → q.getD j 0 ≠ s) →
        (capLoop L q lens k i).1.getD s 0 = lens.getD s 0) ∧
      (∀ j, j < i → (capLoop L q lens k i).1.getD (q.getD j 0) 0
        = min (lens.getD (q.getD j 0) 0) L) ∧
      (capLoop L q lens k i).2
        = k + ∑ j ∈ Finset.range i, 2 ^ L >>> min (lens.getD (q.getD j 0) 0) L := by
  intro i
  induction i with
  | zero =>
    intro lens k hi hr
    rw [capLoop]
    exact ⟨rfl, fun s hs => rfl, fun j hj => absurd hj (by omega), by simp⟩
  | succ i ih =>
    intro lens k hi hr
    rw [capLoop]
    have hqi : q.getD i 0 ∈ q := by
      rw [List.getD_eq_getElem _ _ (by omega)]
      exact List.getElem_mem _
    have hidx : q.getD i 0 < lens.length := hr _ hqi
    have hmin : (if L < lens.getD (q.getD i 0) 0 then L
        else lens.getD (q.getD i 0) 0) = min (lens.getD (q.getD i 0) 0) L := by
      rw [Nat.min_def]
      split
      · split
        · omega
        · omega
      · split
        · omega
        · omega
    set lens' := lens.set (q.getD i 0)
      (if L < lens.getD (q.getD i 0) 0 then L else lens.getD (q.getD i 0) 0) with hl'
    have hl'len : ∀ x, x ∈ q → x < lens'.length := by
      intro x hx
      rw [hl', List.length_set]
      exact hr x hx
    obtain ⟨ih1, ih2, ih3, ih4⟩ := ih lens' _ (by omega) hl'len
    have hset_self : lens'.getD (q.getD i 0) 0
        = min (lens.getD (q.getD i 0) 0) L := by
      rw [hl', getD_set_self hidx, hmin]
    have hset_ne : ∀ s, q.getD i 0 ≠ s → lens'.getD s 0 = lens.getD s 0 := by
      intro s hs
      rw [hl', getD_set_ne hs]
    refine ⟨by rw [ih1, hl', List.length_set], ?_, ?_, ?_⟩
    · intro s hs
      rw [ih2 s (fun j hj => hs j (by omega)), hset_ne s (hs i (by omega))]
    · intro j hj
      rcases Nat.lt_or_ge j i with hji | hji
      · rw [ih3 j hji, hset_ne _ (nodup_getD_ne hnd (by omega) (by omega) (by omega))]
      · have hje : j = i := by omega
        subst hje
        rw [ih2 (q.getD j 0) (fun j' hj' =>
          nodup_getD_ne hnd (by omega) (by omega) (by omega)), hset_self]
    · rw [ih4, Finset.sum_range_succ]
      have hcong : ∀ j ∈ Finset.range i,
          2 ^ L >>> min (lens'.getD (q.getD j 0) 0) L
            = 2 ^ L >>> min (lens.getD (q.getD j 0) 0) L := by
        intro j hj
        rw [Finset.mem_range] at hj
        rw [hset_ne _ (nodup_getD_ne hnd (by omega) (by omega) (by omega))]
      rw [Finset.sum_congr rfl hcong, hmin]
      omega

/-- Specification of the inner lengthening loop on the `i`-th queued
symbol (whose length is at most `L` after capping): other positions are
untouched, the length only grows up to `L`, the Kraft relation
`k = kraftS` is maintained, and on exit either the Kraft number fits or
the length reached `L`. -/
lemma lengthenInner_spec (L : Nat) (q : List Nat) (hnd : q.Nodup) (i : Nat)
    (hi : i < q.length) :
    ∀ lens k, q.getD i 0 < lens.length → k = kraftS L q lens →
      lens.getD (q.getD i 0) 0 ≤ L →
      (lengthenInner L (q.getD i 0) lens k).1.length = lens.length ∧
      (∀ s, q.getD i 0 ≠ s →
        (lengthenInner L (q.getD i 0) lens k).1.getD s 0 = lens.getD s 0) ∧
      lens.getD (q.getD i 0) 0
        ≤ (lengthenInner L (q.getD i 0) lens k).1.getD (q.getD i 0) 0 ∧
      (lengthenInner L (q.getD i 0) lens k).1.getD (q.getD i 0) 0 ≤ L ∧
      (lengthenInner L (q.getD i 0) lens k).2
        = kraftS L q (lengthenInner L (q.getD i 0) lens k).1 ∧
      ((lengthenInner L (q.getD i 0) lens k).2 ≤ 2 ^ L ∨
        (lengthenInner L (q.getD i 0) lens k).1.getD (q.getD i 0) 0 = L) := by
  intro lens k
  induction lens, k using lengthenInner.induct L (q.getD i 0) with
  | case1 lens k hg ih =>
    intro hidx hk hvle
    rw [lengthenInner, if_pos hg]
    have hidx' : q.getD i 0 < (lens.set (q.getD i 0)
        (lens.getD (q.getD i 0) 0 + 1)).length := by
      rw [List.length_set]
      exact hidx
    have hself : (lens.set (q.getD i 0) (lens.getD (q.getD i 0) 0 + 1)).getD
        (q.getD i 0) 0 = lens.getD (q.getD i 0) 0 + 1 :=
      getD_set_self hidx
    have hkacc := kraftS_set_add L q lens hnd i hi
      (lens.getD (q.getD i 0) 0 + 1) hidx
    have hdouble : 2 ^ L >>> lens.getD (q.getD i 0) 0
        = 2 * (2 ^ L >>> (lens.getD (q.getD i 0) 0 + 1)) :=
      shiftRight_double hg.1
    have hterm_le : 2 ^ L >>> (lens.getD (q.getD i 0) 0 + 1) ≤ kraftS L q lens := by
      have := kraftS_term_le L q lens i hi
      omega
    have hk' : k - 2 ^ L >>> (lens.getD (q.getD i 0) 0 + 1)
        = kraftS L q (lens.set (q.getD i 0) (lens.getD (q.getD i 0) 0 + 1)) := by
      omega
    obtain ⟨ih1, ih2, ih3, ih4, ih5, ih6⟩ := ih hidx' hk' (by rw [hself]; omega)
    refine ⟨by rw [ih1, List.length_set], ?_, ?_, ih4, ih5, ih6⟩
    · intro s hs
      rw [ih2 s hs, getD_set_ne hs]
    · rw [hself] at ih3
      omega
  | case2 lens k hg =>
    intro hidx hk hvle
    rw [lengthenInner, if_neg hg]
    push_neg at hg
    refine ⟨rfl, fun s _ => rfl, le_rfl, hvle, hk, ?_⟩
    rcases Nat.eq_or_lt_of_le hvle with he | hlt
    · exact Or.inr he
    · exact Or.inl (hg hlt)

/-- Specification of the inner shortening loop on the `i`-th queued
symbol: other positions untouched, all queued lengths stay in `[1, L]`
(with at least two queued symbols a length never drops below 1), the
Kraft relation is maintained, the Kraft number only grows and stays
within `2^L` whenever a step is taken, and on exit undoing one more bit
would overflow. -/
lemma shortenInner_spec (L : Nat) (q : List Nat) (hnd : q.Nodup) (i : Nat)
    (hi : i < q.length) (hm2 : 2 ≤ q.length) :
    ∀ lens k, q.getD i 0 < lens.length → k = kraftS L q lens →
      (∀ j, j < q.length → 1 ≤ lens.getD (q.getD j 0) 0 ∧
        lens.getD (q.getD j 0) 0 ≤ L) →
      (shortenInner L (q.getD i 0) lens k).1.length = lens.length ∧
      (∀ s, q.getD i 0 ≠ s →
        (shortenInner L (q.getD i 0) lens k).1.getD s 0 = lens.getD s 0) ∧
      (∀ j, j < q.length →
        1 ≤ (shortenInner L (q.getD i 0) lens k).1.getD (q.getD j 0) 0 ∧
        (shortenInner L (q.getD i 0) lens k).1.getD (q.getD j 0) 0 ≤ L) ∧
      (shortenInner L (q.getD i 0) lens k).2
        = kraftS L q (shortenInner L (q.getD i 0) lens k).1 ∧
      k ≤ (shortenInner L (q.getD i 0) lens k).2 ∧
      ((shortenInner L (q.getD i 0) lens k).2 = k ∨
        (shortenInner L (q.getD i 0) lens k).2 ≤ 2 ^ L) ∧
      2 ^ L < (shortenInner L (q.getD i 0) lens k).2
        + 2 ^ L >>> (shortenInner L (q.getD i 0) lens k).1.getD (q.getD i 0) 0 := by
  intro lens k
  induction lens, k using shortenInner.induct L (q.getD i 0) with
  | case1 lens k hg ih =>
    intro hidx hk hvals
    rw [shortenInner, if_pos hg]
    have hvi := hvals i hi
    have hL1 : 1 ≤ L := le_trans hvi.1 hvi.2
    -- the current length is at least 2: with length 1 the guard fails
    have hlen2 : 2 ≤ lens.getD (q.getD i 0) 0 := by
      by_contra hc
      push_neg at hc
      have hlen1 : lens.getD (q.getD i 0) 0 = 1 := by omega
      have hlow := kraftS_lower L q lens i hi (fun j hj => (hvals j hj).2)
      rw [hlen1] at hg hlow
      rw [shiftRight_pow hL1] at hg hlow
      have hpow : 2 ^ L = 2 * 2 ^ (L - 1) := by
        rcases L with - | L'
        · omega
        · rw [Nat.succ_sub_one, pow_succ]
          ring
      omega
    have hidx' : q.getD i 0 < (lens.set (q.getD i 0)
        (lens.getD (q.getD i 0) 0 - 1)).length := by
      rw [List.length_set]
      exact hidx
    have hself : (lens.set (q.getD i 0) (lens.getD (q.getD i 0) 0 - 1)).getD
        (q.getD i 0) 0 = lens.getD (q.getD i 0) 0 - 1 :=
      getD_set_self hidx
    have hkacc := kraftS_set_add L q lens hnd i hi
      (lens.getD (q.getD i 0) 0 - 1) hidx
    have hdouble : 2 ^ L >>> (lens.getD (q.getD i 0) 0 - 1)
        = 2 * (2 ^ L >>> (lens.getD (q.getD i 0) 0 - 1 + 1)) :=
      shiftRight_double (by omega)
    have hsucc : lens.getD (q.getD i 0) 0 - 1 + 1 = lens.getD (q.getD i 0) 0 := by
      omega
    rw [hsucc] at hdouble
    have hk' : k + 2 ^ L >>> lens.getD (q.getD i 0) 0
        = kraftS L q (lens.set (q.getD i 0) (lens.getD (q.getD i 0) 0 - 1)) := by
      omega
    have hvals' : ∀ j, j < q.length →
        1 ≤ (lens.set (q.getD i 0) (lens.getD (q.getD i 0) 0 - 1)).getD
          (q.getD j 0) 0 ∧
        (lens.set (q.getD i 0) (lens.getD (q.getD i 0) 0 - 1)).getD
          (q.getD j 0) 0 ≤ L := by
      intro j hj
      rcases eq_or_ne i j with rfl | hne
      · rw [hself]
        omega
      · rw [getD_set_ne (nodup_getD_ne hnd hi hj hne)]
        exact hvals j hj
    obtain ⟨ih1, ih2, ih3, ih4, ih5, ih6, ih7⟩ := ih hidx' hk' hvals'
    refine ⟨by rw [ih1, List.length_set], ?_, ih3, ih4, by omega, ?_, ih7⟩
    · intro s hs
      rw [ih2 s hs, getD_set_ne hs]
    · right
      rcases ih6 with h | h
      · omega
      · exact h
  | case2 lens k hg =>
    intro hidx hk hvals
    rw [shortenInner, if_neg hg]
    push_neg at hg
    exact ⟨rfl, fun s _ => rfl, hvals, hk, le_rfl, Or.inl rfl, hg⟩

end LimitLemmas
section LimitLoops

lemma lengthenLoop_of_le (L : Nat) (q lens : List Nat) (k i : Nat)
    (h : ¬ 2 ^ L < k) : lengthenLoop L q lens k i = (lens, k) := by
  cases i with
  | zero => rw [lengthenLoop]
  | succ i => rw [lengthenLoop, if_neg h]

/-- Specification of the error-propagation pass: lengths only grow (up
to `L`), positions outside the queue are untouched, the Kraft relation
is maintained, and on exit either the Kraft number fits or every
processed symbol is pinned at `L`. -/
lemma lengthenLoop_spec (L : Nat) (q : List Nat) (hnd : q.Nodup) :
    ∀ i lens k, i ≤ q.length → (∀ x, x ∈ q → x < lens.length) →
      k = kraftS L q lens →
      (∀ j, j < q.length → lens.getD (q.getD j 0) 0 ≤ L) →
      (lengthenLoop L q lens k i).1.length = lens.length ∧
      (∀ s, s ∉ q → (lengthenLoop L q lens k i).1.getD s 0 = lens.getD s 0) ∧
      (∀ j, j < q.length →
        lens.getD (q.getD j 0) 0
          ≤ (lengthenLoop L q lens k i).1.getD (q.getD j 0) 0 ∧
        (lengthenLoop L q lens k i).1.getD (q.getD j 0) 0 ≤ L) ∧
      (lengthenLoop L q lens k i).2 = kraftS L q (lengthenLoop L q lens k i).1 ∧
      ((lengthenLoop L q lens k i).2 ≤ 2 ^ L ∨
        (∀ j, j < i → (lengthenLoop L q lens k i).1.getD (q.getD j 0) 0 = L)) := by
  intro i
  induction i with
  | zero =>
    intro lens k hi hr hk hvle
    rw [lengthenLoop]
    exact ⟨rfl, fun s _ => rfl,
      fun j hj => ⟨le_rfl, hvle j hj⟩, hk,
      Or.inr (fun j hj => absurd hj (by omega))⟩
  | succ i ih =>
    intro lens k hi hr hk hvle
    rw [lengthenLoop]
    by_cases hk2 : 2 ^ L < k
    · rw [if_pos hk2]
      simp only []
      have hqi : q.getD i 0 ∈ q := by
        rw [List.getD_eq_getElem _ _ (by omega)]
        exact List.getElem_mem _
      obtain ⟨in1, in2, in3, in4, in5, in6⟩ := lengthenInner_spec L q hnd i
        (by omega) lens k (hr _ hqi) hk (hvle i (by omega))
      have hr1 : ∀ x, x ∈ q → x < (lengthenInner L (q.getD i 0) lens k).1.length := by
        intro x hx
        rw [in1]
        exact hr x hx
      have hvle1 : ∀ j, j < q.length →
          (lengthenInner L (q.getD i 0) lens k).1.getD (q.getD j 0) 0 ≤ L := by
        intro j hj
        rcases eq_or_ne i j with rfl | hne
        · exact in4
        · rw [in2 _ (nodup_getD_ne hnd (by omega) hj hne)]
          exact hvle j hj
      obtain ⟨l1, l2, l3, l4, l5⟩ := ih (lengthenInner L (q.getD i 0) lens k).1
        (lengthenInner L (q.getD i 0) lens k).2 (by omega) hr1 in5 hvle1
      refine ⟨by rw [l1, in1], ?_, ?_, l4, ?_⟩
      · intro s hs
        rw [l2 s hs, in2 s (fun h => hs (h ▸ hqi))]
      · intro j hj
        rcases eq_or_ne i j with rfl | hne
        · have h3 := l3 i hj
          omega
        · have h2 := l3 j hj
          rw [in2 _ (nodup_getD_ne hnd (by omega) hj hne)] at h2
          exact h2
      · rcases l5 with h | hall
        · exact Or.inl h
        · rcases in6 with hfits | hpin
          · rw [lengthenLoop_of_le L q _ _ i (by omega)]
            exact Or.inl hfits
          · refine Or.inr ?_
            intro j hj
            rcases Nat.lt_or_ge j i with hji | hji
            · exact hall j hji
            · have hje : j = i := by omega
              subst hje
              have := l3 j (by omega)
              rw [hpin] at this
              omega
    · rw [if_neg hk2]
      exact ⟨rfl, fun s _ => rfl, fun j hj => ⟨le_rfl, hvle j hj⟩, hk,
        Or.inl (by omega)⟩

lemma kraftS_all_L (L : Nat) (q lens : List Nat)
    (hall : ∀ j, j < q.length → lens.getD (q.getD j 0) 0 = L) :
    kraftS L q lens = q.length := by
  rw [kraftS]
  have hcong : ∀ j ∈ Finset.range q.length,
      2 ^ L >>> lens.getD (q.getD j 0) 0 = 1 := by
    intro j hj
    rw [Finset.mem_range] at hj
    rw [hall j hj, shiftRight_pow le_rfl, Nat.sub_self, pow_zero]
  rw [Finset.sum_congr rfl hcong, Finset.sum_const, Finset.card_range,
    smul_eq_mul, mul_one]

/-- Specification of the shortening pass: starting below `2^L` with all
stop conditions established for already-processed symbols, the loop
always reaches the exact Kraft equality `k = 2^L` (in particular it
never reads past the end of the queue). -/
lemma shortenLoop_spec (L : Nat) (q : List Nat) (hnd : q.Nodup)
    (hm2 : 2 ≤ q.length) :
    ∀ g i lens k, q.length + 1 - i ≤ g → i ≤ q.length →
      (∀ x, x ∈ q → x < lens.length) →
      k = kraftS L q lens → k ≤ 2 ^ L →
      (∀ j, j < q.length → 1 ≤ lens.getD (q.getD j 0) 0 ∧
        lens.getD (q.getD j 0) 0 ≤ L) →
      (∀ j, j < i → 2 ^ L < k + 2 ^ L >>> lens.getD (q.getD j 0) 0) →
      (shortenLoop L q q.length lens k i).1.length = lens.length ∧
      (∀ s, s ∉ q → (shortenLoop L q q.length lens k i).1.getD s 0
        = lens.getD s 0) ∧
      (∀ j, j < q.length →
        1 ≤ (shortenLoop L q q.length lens k i).1.getD (q.getD j 0) 0 ∧
        (shortenLoop L q q.length lens k i).1.getD (q.getD j 0) 0 ≤ L) ∧
      (shortenLoop L q q.length lens k i).2 = 2 ^ L ∧
      (shortenLoop L q q.length lens k i).2
        = kraftS L q (shortenLoop L q q.length lens k i).1 := by
  intro g
  induction g with
  | zero =>
    intro i lens k hg hi
    omega
  | succ g ih =>
    intro i lens k hg hi hr hk hkle hvals hstop
    rw [shortenLoop]
    by_cases hguard : k < 2 ^ L ∧ i ≤ q.length
    · rw [if_pos hguard]
      simp only []
      rcases Nat.lt_or_ge i q.length with hilt | hige
      · -- process symbol i and continue
        have hqi : q.getD i 0 ∈ q := by
          rw [List.getD_eq_getElem _ _ hilt]
          exact List.getElem_mem _
        obtain ⟨s1, s2, s3, s4, s5, s6, s7⟩ := shortenInner_spec L q hnd i hilt
          hm2 lens k (hr _ hqi) hk hvals
        have hr1 : ∀ x, x ∈ q →
            x < (shortenInner L (q.getD i 0) lens k).1.length := by
          intro x hx
          rw [s1]
          exact hr x hx
        have hk1le : (shortenInner L (q.getD i 0) lens k).2 ≤ 2 ^ L := by
          rcases s6 with h | h
          · omega
          · exact h
        have hstop1 : ∀ j, j < i + 1 →
            2 ^ L < (shortenInner L (q.getD i 0) lens k).2
              + 2 ^ L >>> (shortenInner L (q.getD i 0) lens k).1.getD
                  (q.getD j 0) 0 := by
          intro j hj
          rcases Nat.lt_or_ge j i with hji | hji
          · have h1 := hstop j hji
            rw [s2 _ (nodup_getD_ne hnd hilt (by omega) (by omega))]
            omega
          · have hje : j = i := by omega
            subst hje
            exact s7
        obtain ⟨r1, r2, r3, r4, r5⟩ := ih (i + 1)
          (shortenInner L (q.getD i 0) lens k).1
          (shortenInner L (q.getD i 0) lens k).2
          (by omega) (by omega) hr1 s4 hk1le s3 hstop1
        refine ⟨by rw [r1, s1], ?_, ?_, r4, r5⟩
        · intro s hs
          rw [r2 s hs, s2 s (fun h => hs (h ▸ hqi))]
        · intro j hj
          exact r3 j hj
      · -- i = q.length: impossible, the stop conditions force k = 2^L
        exfalso
        have hie : i = q.length := by omega
        subst hie
        obtain ⟨j0, hj0mem, hj0max⟩ := Finset.exists_max_image
          (Finset.range q.length) (fun j => lens.getD (q.getD j 0) 0)
          ⟨0, Finset.mem_range.mpr (by omega)⟩
        rw [Finset.mem_range] at hj0mem
        have hMle : lens.getD (q.getD j0 0) 0 ≤ L := (hvals j0 hj0mem).2
        have hdvd_k : 2 ^ (L - lens.getD (q.getD j0 0) 0) ∣ kraftS L q lens := by
          rw [kraftS]
          refine Finset.dvd_sum ?_
          intro j hj
          rw [Finset.mem_range] at hj
          rw [shiftRight_pow (hvals j hj).2]
          refine pow_dvd_pow 2 ?_
          have := hj0max j (Finset.mem_range.mpr hj)
          omega
        have hdvd_2L : 2 ^ (L - lens.getD (q.getD j0 0) 0) ∣ 2 ^ L :=
          pow_dvd_pow 2 (by omega)
        have hdvd_D : 2 ^ (L - lens.getD (q.getD j0 0) 0) ∣ 2 ^ L - k := by
          rw [hk]
          exact Nat.dvd_sub' hdvd_2L hdvd_k
        have hbound : 2 ^ L - k < 2 ^ (L - lens.getD (q.getD j0 0) 0) := by
          have := hstop j0 hj0mem
          rw [shiftRight_pow hMle] at this
          omega
        have hD0 : 2 ^ L - k = 0 := Nat.eq_zero_of_dvd_of_lt hdvd_D hbound
        omega
    · rw [if_neg hguard]
      have hke : k = 2 ^ L := by
        rcases Decidable.not_and_iff_or_not.mp hguard with h | h
        · omega
        · omega
      exact ⟨rfl, fun s _ => rfl, hvals, hke, hk⟩

end LimitLoops
section LimitMaster

/-- Master specification of the three-pass length limiter: queued
lengths end in `[1, L]`, other positions are untouched, and the Kraft
number is exactly `2^L`. -/
lemma limitLens_spec (L : Nat) (q lens : List Nat) (hL : 1 ≤ L) (hnd : q.Nodup)
    (hm2 : 2 ≤ q.length) (hmle : q.length ≤ 2 ^ L)
    (hrange : ∀ x, x ∈ q → x < lens.length)
    (hpos : ∀ j, j < q.length → 1 ≤ lens.getD (q.getD j 0) 0) :
    (limitLens L q lens).length = lens.length ∧
    (∀ s, s ∉ q → (limitLens L q lens).getD s 0 = lens.getD s 0) ∧
    (∀ j, j < q.length → 1 ≤ (limitLens L q lens).getD (q.getD j 0) 0 ∧
      (limitLens L q lens).getD (q.getD j 0) 0 ≤ L) ∧
    kraftS L q (limitLens L q lens) = 2 ^ L := by
  rw [limitLens]
  obtain ⟨c1, c2, c3, c4⟩ := capLoop_spec L q hnd q.length lens 0 le_rfl hrange
  have hr1 : ∀ x, x ∈ q → x < (capLoop L q lens 0 q.length).1.length := by
    intro x hx
    rw [c1]
    exact hrange x hx
  have hv1 : ∀ j, j < q.length →
      1 ≤ (capLoop L q lens 0 q.length).1.getD (q.getD j 0) 0 ∧
      (capLoop L q lens 0 q.length).1.getD (q.getD j 0) 0 ≤ L := by
    intro j hj
    rw [c3 j hj]
    have := hpos j hj
    omega
  have hk1 : (capLoop L q lens 0 q.length).2
      = kraftS L q (capLoop L q lens 0 q.length).1 := by
    rw [c4, kraftS, Nat.zero_add]
    refine Finset.sum_congr rfl ?_
    intro j hj
    rw [Finset.mem_range] at hj
    rw [c3 j hj]
  obtain ⟨g1, g2, g3, g4, g5⟩ := lengthenLoop_spec L q hnd q.length
    (capLoop L q lens 0 q.length).1 (capLoop L q lens 0 q.length).2 le_rfl
    hr1 hk1 (fun j hj => (hv1 j hj).2)
  have hk2le : (lengthenLoop L q (capLoop L q lens 0 q.length).1
      (capLoop L q lens 0 q.length).2 q.length).2 ≤ 2 ^ L := by
    rcases g5 with h | hall
    · exact h
    · rw [g4, kraftS_all_L L q _ hall]
      exact hmle
  have hr2 : ∀ x, x ∈ q → x < (lengthenLoop L q (capLoop L q lens 0 q.length).1
      (capLoop L q lens 0 q.length).2 q.length).1.length := by
    intro x hx
    rw [g1]
    exact hr1 x hx
  have hv2 : ∀ j, j < q.length →
      1 ≤ (lengthenLoop L q (capLoop L q lens 0 q.length).1
        (capLoop L q lens 0 q.length).2 q.length).1.getD (q.getD j 0) 0 ∧
      (lengthenLoop L q (capLoop L q lens 0 q.length).1
        (capLoop L q lens 0 q.length).2 q.length).1.getD (q.getD j 0) 0 ≤ L := by
    intro j hj
    have h1 := g3 j hj
    have h2 := hv1 j hj
    omega
  obtain ⟨r1, r2, r3, r4, r5⟩ := shortenLoop_spec L q hnd hm2 (q.length + 1) 0
    (lengthenLoop L q (capLoop L q lens 0 q.length).1
      (capLoop L q lens 0 q.length).2 q.length).1
    (lengthenLoop L q (capLoop L q lens 0 q.length).1
      (capLoop L q lens 0 q.length).2 q.length).2
    (by omega) (by omega) hr2 g4 hk2le hv2 (fun j hj => absurd hj (by omega))
  refine ⟨by rw [r1, g1, c1], ?_, ?_, ?_⟩
  · intro s hs
    have hc2 : ∀ j, j < q.length → q.getD j 0 ≠ s := by
      intro j hj he
      refine hs ?_
      rw [← he, List.getD_eq_getElem _ _ hj]
      exact List.getElem_mem _
    rw [r2 s hs, g2 s hs, c2 s hc2]
  · intro j hj
    exact r3 j hj
  · rw [← r5]
    exact r4

end LimitMaster
section BuildMaster

lemma getD_mem_of_lt {q : List Nat} {j : Nat} (hj : j < q.length) :
    q.getD j 0 ∈ q := by
  rw [List.getD_eq_getElem _ _ hj]
  exact List.getElem_mem _

lemma kraftQ_eq_kraftS (L : Nat) (q lens : List Nat)
    (h : ∀ j, j < q.length → lens.getD (q.getD j 0) 0 ≤ L) :
    kraftQ L q lens = kraftS L q lens := by
  rw [kraftQ, kraftS]
  refine Finset.sum_congr rfl ?_
  intro j hj
  rw [Finset.mem_range] at hj
  rw [shiftRight_pow (h j hj)]

lemma kraftQ_perm (L : Nat) (q q' lens : List Nat) (h : q.Perm q') :
    kraftQ L q lens = kraftQ L q' lens := by
  have h1 : kraftQ L q lens = (q.map (fun s => 2 ^ (L - lens.getD s 0))).sum :=
    (list_map_sum_eq_range_sum (fun s => 2 ^ (L - lens.getD s 0)) q).symm
  have h2 : kraftQ L q' lens = (q'.map (fun s => 2 ^ (L - lens.getD s 0))).sum :=
    (list_map_sum_eq_range_sum (fun s => 2 ^ (L - lens.getD s 0)) q').symm
  rw [h1, h2]
  exact (h.map _).sum_eq

/-- Rescaling the exact Kraft equality from precision `B` to precision
`L`, when every queued length fits under both. -/
lemma kraftQ_rescale (B L : Nat) (q lens : List Nat)
    (hvB : ∀ j, j < q.length → lens.getD (q.getD j 0) 0 ≤ B)
    (hvL : ∀ j, j < q.length → lens.getD (q.getD j 0) 0 ≤ L)
    (hk : kraftQ B q lens = 2 ^ B) : kraftQ L q lens = 2 ^ L := by
  have key : kraftQ L q lens * 2 ^ B = 2 ^ L * 2 ^ B := by
    calc kraftQ L q lens * 2 ^ B
        = ∑ i ∈ Finset.range q.length,
            2 ^ (L - lens.getD (q.getD i 0) 0) * 2 ^ B := by
          rw [kraftQ, Finset.sum_mul]
      _ = ∑ i ∈ Finset.range q.length,
            2 ^ L * 2 ^ (B - lens.getD (q.getD i 0) 0) := by
          refine Finset.sum_congr rfl ?_
          intro i hi
          rw [Finset.mem_range] at hi
          rw [← pow_add, ← pow_add]
          congr 1
          have h1 := hvB i hi
          have h2 := hvL i hi
          omega
      _ = 2 ^ L * ∑ i ∈ Finset.range q.length,
            2 ^ (B - lens.getD (q.getD i 0) 0) := by
          rw [Finset.mul_sum]
      _ = 2 ^ L * kraftQ B q lens := rfl
      _ = 2 ^ L * 2 ^ B := by rw [hk]
  exact Nat.eq_of_mul_eq_mul_right (Nat.pos_pow_of_pos B (by norm_num)) key

/-- Master theorem for the dynamic Huffman code-length builder: with at
least two used symbols, at most `2^L` used symbols and a positive
length limit `L`, the built lengths mark exactly the used symbols, all
fit in `L` bits, and satisfy the exact Kraft equality at `L`. -/
theorem buildDynamicLens_spec (nSymbols L : Nat) (entropy : List Nat)
    (hL : 1 ≤ L)
    (hm : 2 ≤ ((List.range nSymbols).filter (fun i => entropy.getD i 0 ≠ 0)).length)
    (hfeas : ((List.range nSymbols).filter
      (fun i => entropy.getD i 0 ≠ 0)).length ≤ 2 ^ L) :
    (buildDynamicLens nSymbols L entropy).length = nSymbols ∧
    (∀ s, (buildDynamicLens nSymbols L entropy).getD s 0 ≠ 0 ↔
      s ∈ (List.range nSymbols).filter (fun i => entropy.getD i 0 ≠ 0)) ∧
    (∀ s, (buildDynamicLens nSymbols L entropy).getD s 0 ≤ L) ∧
    kraftSum L (buildDynamicLens nSymbols L entropy) = 2 ^ L := by
  obtain ⟨e1, e2, e3, e4⟩ := estimate_spec nSymbols entropy hm
  set q0 := (List.range nSymbols).filter (fun i => entropy.getD i 0 ≠ 0) with hq0def
  set lens := estimateDynamicCodelens nSymbols entropy with hlensdef
  set qs' := sortIndices lens q0 with hqs'def
  have hq0nd : q0.Nodup := (List.nodup_range _).filter _
  have hq0eq : (List.range nSymbols).filter (fun i => lens.getD i 0 ≠ 0) = q0 := by
    refine List.filter_congr ?_
    intro i hi
    rw [List.mem_range] at hi
    simp only [decide_eq_decide]
    rw [e2 i, hq0def, List.mem_filter, List.mem_range]
    constructor
    · rintro ⟨h1, h2⟩
      simpa using h2
    · intro h
      exact ⟨hi, by simpa using h⟩
  have hperm' : qs'.Perm q0 := sortIndices_perm lens q0
  have hnd' : qs'.Nodup := hperm'.nodup_iff.mpr hq0nd
  have hlen' : qs'.length = q0.length := hperm'.length_eq
  have hmemN : ∀ x, x ∈ qs' → x < nSymbols := by
    intro x hx
    have h2 := hperm'.mem_iff.mp hx
    rw [hq0def, List.mem_filter, List.mem_range] at h2
    exact h2.1
  have hrangeq : ∀ x, x ∈ qs' → x < lens.length := by
    intro x hx
    rw [e1]
    exact hmemN x hx
  have hposq : ∀ j, j < qs'.length → 1 ≤ lens.getD (qs'.getD j 0) 0 := by
    intro j hj
    have hmem := hperm'.mem_iff.mp (getD_mem_of_lt hj)
    have := (e2 _).mpr hmem
    omega
  have hbuild : buildDynamicLens nSymbols L entropy
      = if L < lens.getD (qs'.getD (q0.length - 1) 0) 0 then limitLens L qs' lens
        else lens := by
    rw [buildDynamicLens, ← hlensdef, hq0eq, ← hqs'def]
    rw [if_pos ⟨by omega, by omega⟩]
  rw [hbuild]
  by_cases hbr : L < lens.getD (qs'.getD (q0.length - 1) 0) 0
  · -- the limiting pass runs
    rw [if_pos hbr]
    obtain ⟨L1, L2, L3, L4⟩ := limitLens_spec L qs' lens hL hnd' (by omega)
      (by omega) hrangeq hposq
    have hiffR : ∀ s, (limitLens L qs' lens).getD s 0 ≠ 0 ↔ s ∈ q0 := by
      intro s
      constructor
      · intro hne
        by_contra hs
        have hs' : s ∉ qs' := fun h => hs (hperm'.mem_iff.mp h)
        rw [L2 s hs'] at hne
        have h0 : lens.getD s 0 = 0 := by
          by_contra hc
          exact hs ((e2 s).mp hc)
        exact hne h0
      · intro hs
        have hs' : s ∈ qs' := hperm'.mem_iff.mpr hs
        obtain ⟨j, hj, hje⟩ := List.getElem_of_mem hs'
        have hgd : qs'.getD j 0 = s := by
          rw [List.getD_eq_getElem _ _ hj, hje]
        rw [← hgd]
        have := (L3 j hj).1
        omega
    refine ⟨by rw [L1, e1], hiffR, ?_, ?_⟩
    · intro s
      by_cases hs : s ∈ qs'
      · obtain ⟨j, hj, hje⟩ := List.getElem_of_mem hs
        have hgd : qs'.getD j 0 = s := by
          rw [List.getD_eq_getElem _ _ hj, hje]
        rw [← hgd]
        exact (L3 j hj).2
      · rw [L2 s hs]
        have h0 : lens.getD s 0 = 0 := by
          by_contra hc
          exact hs (hperm'.mem_iff.mpr ((e2 s).mp hc))
        omega
    · rw [kraftSum_eq_kraftQ L _ qs' hnd'
        (fun x hx => by rw [L1]; exact hrangeq x hx)
        (fun s => (hiffR s).trans hperm'.mem_iff.symm)]
      rw [kraftQ_eq_kraftS L qs' _ (fun j hj => (L3 j hj).2)]
      exact L4
  · -- no limiting: the estimated lengths already fit
    rw [if_neg hbr]
    push_neg at hbr
    have hvleL : ∀ j, j < qs'.length → lens.getD (qs'.getD j 0) 0 ≤ L := by
      intro j hj
      have hle := sortIndices_getD_le_last lens q0 j (by rw [← hqs'def]; exact hj)
      rw [← hqs'def] at hle
      have hlast : qs'.length - 1 = q0.length - 1 := by omega
      rw [hlast] at hle
      exact le_trans hle hbr
    have hvleB : ∀ j, j < qs'.length →
        lens.getD (qs'.getD j 0) 0 ≤ q0.length - 1 := by
      intro j hj
      exact e3 _
    refine ⟨e1, e2, ?_, ?_⟩
    · intro s
      by_cases hs : s ∈ qs'
      · obtain ⟨j, hj, hje⟩ := List.getElem_of_mem hs
        have hgd : qs'.getD j 0 = s := by
          rw [List.getD_eq_getElem _ _ hj, hje]
        rw [← hgd]
        exact hvleL j hj
      · have h0 : lens.getD s 0 = 0 := by
          by_contra hc
          exact hs (hperm'.mem_iff.mpr ((e2 s).mp hc))
        omega
    · rw [kraftSum_eq_kraftQ L lens qs' hnd' hrangeq
        (fun s => (e2 s).trans hperm'.mem_iff.symm)]
      refine kraftQ_rescale (q0.length - 1) L qs' lens hvleB hvleL ?_
      rw [kraftQ_perm (q0.length - 1) qs' (sortIndices entropy q0) lens
        (hperm'.trans (sortIndices_perm entropy q0).symm)]
      exact e4

end BuildMaster

section ClaimsHuffman

lemma two_le_length_of_two_mem {l : List Nat} (hnd : l.Nodup) {a b : Nat}
    (hab : a ≠ b) (ha : a ∈ l) (hb : b ∈ l) : 2 ≤ l.length := by
  have h1 : ({a, b} : Finset Nat) ⊆ l.toFinset := by
    intro x hx
    rw [Finset.mem_insert, Finset.mem_singleton] at hx
    rcases hx with rfl | rfl
    · exact List.mem_toFinset.mpr ha
    · exact List.mem_toFinset.mpr hb
  have h2 := Finset.card_le_card h1
  rw [Finset.card_insert_of_not_mem (by simpa using hab),
    Finset.card_singleton, List.toFinset_card_of_nodup hnd] at h2
  exact h2

lemma definedCountLoop_le (nMin : Nat) (lens : List Nat) :
    ∀ i, definedCountLoop nMin lens i ≤ i := by
  intro i
  induction i with
  | zero => rw [definedCountLoop]
  | succ i ih =>
    rw [definedCountLoop]
    split
    · omega
    · omega

lemma definedCountLoop_zero_above (nMin : Nat) (lens : List Nat) :
    ∀ i j, definedCountLoop nMin lens i ≤ j → j < i → lens.getD j 0 = 0 := by
  intro i
  induction i with
  | zero =>
    intro j h1 h2
    omega
  | succ i ih =>
    intro j h1 h2
    rw [definedCountLoop] at h1
    by_cases hc : nMin < i + 1 ∧ lens.getD i 0 = 0
    · rw [if_pos hc] at h1
      rcases Nat.lt_or_ge j i with hj | hj
      · exact ih j h1 hj
      · have : j = i := by omega
        rw [this]
        exact hc.2
    · rw [if_neg hc] at h1
      omega

lemma filter_range_eq_of_false_above (P : Nat → Bool) :
    ∀ n m, m ≤ n → (∀ j, m ≤ j → j < n → P j = false) →
      (List.range n).filter P = (List.range m).filter P := by
  intro n
  induction n with
  | zero =>
    intro m hm _
    have : m = 0 := by omega
    rw [this]
  | succ n ih =>
    intro m hm hfa
    rcases Nat.lt_or_ge m (n + 1) with hlt | hge
    · rw [List.range_succ, List.filter_append]
      have hPn : P n = false := hfa n (by omega) (by omega)
      have hnil : List.filter P [n] = [] := by
        simp [List.filter, hPn]
      rw [hnil, List.append_nil]
      exact ih m (by omega) (fun j h1 h2 => hfa j h1 (by omega))
    · have : m = n + 1 := by omega
      rw [this]

/-- C1: for every frequency vector given to the dynamic Huffman code
builder with at least two used symbols (and feasibly many for the
encoder's positive maximum code length `L`, which holds for all three
encoder configurations of the program: 19 symbols at `L = 7` and 288 or
32 symbols at `L = 15`), the code lengths produced after length
limiting satisfy the exact Kraft equality: the sum over all symbols
with nonzero code length of `2 ^ (L - len[s])` equals `2 ^ L`. -/
theorem C1_kraft_equality (nSymbols L : Nat) (entropy : List Nat)
    (hL : 1 ≤ L)
    (hm : 2 ≤ ((List.range nSymbols).filter (fun i => entropy.getD i 0 ≠ 0)).length)
    (hfeas : ((List.range nSymbols).filter
      (fun i => entropy.getD i 0 ≠ 0)).length ≤ 2 ^ L) :
    kraftSum L (buildDynamicLens nSymbols L entropy) = 2 ^ L :=
  (buildDynamicLens_spec nSymbols L entropy hL hm hfeas).2.2.2

theorem C1_kraft_equality_witness :
    (1 ≤ 15 ∧
      2 ≤ ((List.range 8).filter
        (fun i => ([1, 1, 2, 3, 5, 8, 13, 21] : List Nat).getD i 0 ≠ 0)).length ∧
      ((List.range 8).filter
        (fun i => ([1, 1, 2, 3, 5, 8, 13, 21] : List Nat).getD i 0 ≠ 0)).length
        ≤ 2 ^ 15) ∧
    kraftSum 15 (buildDynamicLens 8 15 [1, 1, 2, 3, 5, 8, 13, 21]) = 2 ^ 15 :=
  ⟨⟨by decide, by decide, by decide⟩,
    C1_kraft_equality 8 15 [1, 1, 2, 3, 5, 8, 13, 21] (by decide) (by decide)
      (by decide)⟩

/-- C4: on the 32-entry distance frequency array of the block encoder,
the phantom synthesis of `zultra_block_deflate` forces at least two
used distance symbols, the final code build marks exactly the used
symbols with nonzero lengths, and the defined-length count only trims
trailing zero lengths, so the emitted header always declares at least
two distance symbols with nonzero code length. -/
theorem C4_distance_symbols (entropy : List Nat) (hlen : entropy.length = 32) :
    2 ≤ ((List.range (definedVarLengthsCount 1 32
        (buildDynamicLens 32 15 (offsetPhantoms entropy)))).filter
      (fun s => (buildDynamicLens 32 15 (offsetPhantoms entropy)).getD s 0
        ≠ 0)).length := by
  -- at least two nonzero entries among the 32 after phantom synthesis
  have hphant : 2 ≤ ((List.range 32).filter
      (fun i => (offsetPhantoms entropy).getD i 0 ≠ 0)).length := by
    rw [offsetPhantoms]
    set c := min (((List.range 30).filter
      (fun i => entropy.getD i 0 ≠ 0)).length) 2 with hc
    by_cases h0 : c = 0
    · rw [if_pos h0]
      have hv0 : ((entropy.set 0 1).set 1 1).getD 0 0 = 1 := by
        rw [getD_set_ne (by omega : (1 : Nat) ≠ 0), getD_set_self (by omega)]
      have hv1 : ((entropy.set 0 1).set 1 1).getD 1 0 = 1 :=
        getD_set_self (by rw [List.length_set]; omega)
      refine two_le_length_of_two_mem ((List.nodup_range _).filter _)
        (by omega : (0 : Nat) ≠ 1) ?_ ?_
      · rw [List.mem_filter, List.mem_range]
        refine ⟨by omega, ?_⟩
        show decide (((entropy.set 0 1).set 1 1).getD 0 0 ≠ 0) = true
        rw [hv0]
        decide
      · rw [List.mem_filter, List.mem_range]
        refine ⟨by omega, ?_⟩
        show decide (((entropy.set 0 1).set 1 1).getD 1 0 ≠ 0) = true
        rw [hv1]
        decide
    · by_cases h1 : c = 1
      · rw [if_neg h0, if_pos h1]
        have hcnt : (((List.range 30).filter
            (fun i => entropy.getD i 0 ≠ 0))).length = 1 := by
          omega
        by_cases hz : entropy.getD 0 0 ≠ 0
        · rw [if_pos hz]
          have hv0 : (entropy.set 1 1).getD 0 0 = entropy.getD 0 0 :=
            getD_set_ne (by omega : (1 : Nat) ≠ 0)
          have hv1 : (entropy.set 1 1).getD 1 0 = 1 :=
            getD_set_self (by omega)
          refine two_le_length_of_two_mem ((List.nodup_range _).filter _)
            (by omega : (0 : Nat) ≠ 1) ?_ ?_
          · rw [List.mem_filter, List.mem_range]
            refine ⟨by omega, ?_⟩
            show decide ((entropy.set 1 1).getD 0 0 ≠ 0) = true
            rw [hv0]
            exact decide_eq_true hz
          · rw [List.mem_filter, List.mem_range]
            refine ⟨by omega, ?_⟩
            show decide ((entropy.set 1 1).getD 1 0 ≠ 0) = true
            rw [hv1]
            decide
        · rw [if_neg hz]
          push_neg at hz
          have hpos : 0 < ((List.range 30).filter
              (fun i => entropy.getD i 0 ≠ 0)).length := by omega
          obtain ⟨i, hi⟩ := List.exists_mem_of_length_pos hpos
          rw [List.mem_filter, List.mem_range] at hi
          have hine : i ≠ 0 := by
            intro h
            rw [h] at hi
            have h2 := hi.2
            rw [decide_eq_true_eq] at h2
            exact h2 hz
          have hv0 : (entropy.set 0 1).getD 0 0 = 1 :=
            getD_set_self (by omega)
          have hvi : (entropy.set 0 1).getD i 0 = entropy.getD i 0 :=
            getD_set_ne (fun h => hine h.symm)
          refine two_le_length_of_two_mem ((List.nodup_range _).filter _)
            (fun h => hine h.symm) ?_ ?_
          · rw [List.mem_filter, List.mem_range]
            refine ⟨by omega, ?_⟩
            show decide ((entropy.set 0 1).getD 0 0 ≠ 0) = true
            rw [hv0]
            decide
          · rw [List.mem_filter, List.mem_range]
            refine ⟨by omega, ?_⟩
            show decide ((entropy.set 0 1).getD i 0 ≠ 0) = true
            rw [hvi]
            exact hi.2
      · have h2c : 2 ≤ (((List.range 30).filter
            (fun i => entropy.getD i 0 ≠ 0))).length := by omega
        rw [if_neg h0, if_neg h1]
        have hsub : ((List.range 30).filter
            (fun i => decide (entropy.getD i 0 ≠ 0))).Sublist
            ((List.range 32).filter (fun i => decide (entropy.getD i 0 ≠ 0))) :=
          List.Sublist.filter _ (List.range_sublist.mpr (by omega))
        have := hsub.length_le
        omega
  have hlef : ((List.range 32).filter
      (fun i => (offsetPhantoms entropy).getD i 0 ≠ 0)).length ≤ 32 := by
    have h := List.length_filter_le
      (fun i => decide ((offsetPhantoms entropy).getD i 0 ≠ 0)) (List.range 32)
    simpa using h
  obtain ⟨b1, b2, b3, b4⟩ := buildDynamicLens_spec 32 15 (offsetPhantoms entropy)
    (by omega) hphant (le_trans hlef (by norm_num))
  have hdcle : definedVarLengthsCount 1 32
      (buildDynamicLens 32 15 (offsetPhantoms entropy)) ≤ 32 :=
    definedCountLoop_le 1 _ 32
  have heqf : (List.range 32).filter
      (fun s => decide ((buildDynamicLens 32 15 (offsetPhantoms entropy)).getD s 0 ≠ 0))
      = (List.range (definedVarLengthsCount 1 32
          (buildDynamicLens 32 15 (offsetPhantoms entropy)))).filter
        (fun s => decide ((buildDynamicLens 32 15 (offsetPhantoms entropy)).getD s 0
          ≠ 0)) := by
    refine filter_range_eq_of_false_above _ 32 _ hdcle ?_
    intro j h1 h2
    have h3 := definedCountLoop_zero_above 1
      (buildDynamicLens 32 15 (offsetPhantoms entropy)) 32 j h1 h2
    show decide ((buildDynamicLens 32 15 (offsetPhantoms entropy)).getD j 0 ≠ 0)
      = false
    rw [h3]
    decide
  rw [← heqf]
  have hcong : (List.range 32).filter
      (fun s => decide ((buildDynamicLens 32 15 (offsetPhantoms entropy)).getD s 0 ≠ 0))
      = (List.range 32).filter
        (fun i => decide ((offsetPhantoms entropy).getD i 0 ≠ 0)) := by
    refine List.filter_congr ?_
    intro i hi
    rw [List.mem_range] at hi
    simp only [decide_eq_decide]
    rw [b2 i, List.mem_filter, List.mem_range]
    constructor
    · rintro ⟨h1, h2⟩
      simpa using h2
    · intro h
      exact ⟨hi, by simpa using h⟩
  rw [hcong]
  exact hphant

theorem C4_distance_symbols_witness :
    (List.replicate 32 (0 : Nat)).length = 32 ∧
    2 ≤ ((List.range (definedVarLengthsCount 1 32
        (buildDynamicLens 32 15 (offsetPhantoms (List.replicate 32 0))))).filter
      (fun s => (buildDynamicLens 32 15
        (offsetPhantoms (List.replicate 32 0))).getD s 0 ≠ 0)).length :=
  ⟨by decide, C4_distance_symbols (List.replicate 32 0) (by decide)⟩

end ClaimsHuffman

end Zultra
